import Mathlib

/-!
# mdigger/router: the pattern registry and its matcher

A shallow embedding of `router.go`, `record.go` and `param.go`, and of the
method `ServeHTTP` of `mux/mux.go`.

* Go strings are byte strings.  They are modelled as lists of characters; the
  only bytes the code inspects are the ASCII delimiter `/` and the two sigils
  `:` and `*`, so splitting, trimming and first-byte tests act the same way on
  both representations.
* `interface{}` handlers are modelled as `Option Nat`; `none` is Go's `nil`.
  A handler value says which value it is, not what its dynamic type is; the
  outcome of Go's `==` on two handlers, which panics for an uncomparable
  dynamic type, is a parameter of the model of `Path`.
* `uint16` values are natural numbers reduced modulo `65536` at each
  conversion, increment and decrement.
* Go maps are association lists with unique keys; `nil` maps are `none`.
* A run-time panic (index out of range, comparing uncomparable handlers) is
  the result `none`.
* `sort.Stable` (standard library) is modelled by the stable insertion sort
  `List.insertionSort`.
-/

namespace Router

/-- Go `string`: a sequence of bytes. -/
abbrev Str := List Char

/-- Go `interface{}` holding a handler: `none` is `nil`. -/
abbrev Handler := Option Nat

/-- Variable `PathDelimeter` of `router.go` (default value). -/
def PathDelimeter : Char := '/'

/-- Variable `NamedParamFlag` of `router.go` (default value). -/
def NamedParamFlag : Char := ':'

/-- Variable `CatchAllParamFlag` of `router.go` (default value). -/
def CatchAllParamFlag : Char := '*'

/-- Go `strings.TrimPrefix(s, PathDelimeter)`: drops one leading delimiter. -/
def trimLeading : Str → Str
  | [] => []
  | c :: cs => if c = PathDelimeter then cs else c :: cs

/-- Go `strings.TrimSuffix(s, PathDelimeter)`: drops one trailing delimiter. -/
def trimSuffix (s : Str) : Str :=
  if s.getLast? = some PathDelimeter then s.dropLast else s

/-- Go `strings.SplitAfter(s, PathDelimeter)`: cuts after every delimiter; the
result is never empty and only its last element can be the empty string. -/
def splitAfter : Str → List Str
  | [] => [[]]
  | c :: cs =>
    if c = PathDelimeter then [c] :: splitAfter cs
    else
      match splitAfter cs with
      | [] => [[c]]
      | p :: ps => (c :: p) :: ps

/-- Variable `Splitter` of `router.go` (default value). -/
def Splitter (url : Str) : List Str :=
  splitAfter (trimLeading url)

/-- Go `strings.Join(parts, "")`. -/
def joinParts (parts : List Str) : Str :=
  parts.flatten

/-- Type `Param` of `param.go`. -/
structure Param where
  Key : Str
  Value : Str
deriving DecidableEq

/-- Type `Params` of `param.go`. -/
abbrev Params := List Param

/-- Type `record` of `record.go`; `params` is a `uint16`. -/
structure record where
  params : Nat
  parts : List Str
  handler : Handler
deriving DecidableEq

/-- Type `records` of `record.go`. -/
abbrev records := List record

/-- Method `records.Less` of `record.go`, as the non-strict order used for sorting:
`a` may stay before `b` unless `b.params < a.params`. -/
def recLE (a b : record) : Prop := a.params ≤ b.params

instance recLE_decidable : DecidableRel recLE :=
  fun a b => Nat.decLe a.params b.params

instance recLE_total : IsTotal record recLE :=
  ⟨fun a b => Nat.le_total a.params b.params⟩

instance recLE_trans : IsTrans record recLE :=
  ⟨fun _ _ _ h1 h2 => Nat.le_trans h1 h2⟩

/-- Go `sort.Stable` on `records`: a stable sort by `params`. -/
def sortStable (rs : records) : records :=
  List.insertionSort recLE rs

/-- Reading a Go map: `m[k]` with the comma-ok result. -/
def mapGet {κ ν : Type} [DecidableEq κ] : List (κ × ν) → κ → Option ν
  | [], _ => none
  | (k1, v) :: t, k => if k1 = k then some v else mapGet t k

/-- Writing a Go map: `m[k] = v`. -/
def mapSet {κ ν : Type} [DecidableEq κ] : List (κ × ν) → κ → ν → List (κ × ν)
  | [], k, v => [(k, v)]
  | (k1, v1) :: t, k, v => if k1 = k then (k, v) :: t else (k1, v1) :: mapSet t k v

/-- Type `Paths` of `router.go`; `maxParts` and `catchAll` are `uint16`. -/
structure Paths where
  static : Option (List (Str × Handler))
  fields : Option (List (Nat × records))
  maxParts : Nat
  catchAll : Nat
deriving DecidableEq

/-- The zero value `var r Paths`. -/
def Paths.empty : Paths := ⟨none, none, 0, 0⟩

/-- The expression `r.static[key]` with its comma-ok result (a `nil` map has no
entries). -/
def Paths.staticGet (r : Paths) (key : Str) : Option Handler :=
  match r.static with
  | none => none
  | some m => mapGet m key

/-- The expression `r.fields[l]` (a missing key or a `nil` map gives the empty
list). -/
def Paths.fieldsGet (r : Paths) (l : Nat) : records :=
  match r.fields with
  | none => []
  | some m => (mapGet m l).getD []

/-- The three errors of `Paths.Add`. -/
inductive AddError where
  | nilHandler
  | pathOverflow (n : Nat)
  | catchAllNotLast
deriving DecidableEq

/-- The `for i, value := range parts` loop of `Paths.Add`, started at index `i`
with the counter `params` and the field `r.catchAll = ca`.  The first
component is `none` when the loop returns the catch-all error; the second is
the value of `r.catchAll` when the loop ends. -/
def scanParts (named catchAll : Char) (level : Nat) :
    List Str → Nat → Nat → Nat → Option Nat × Nat
  | [], _, params, ca => (some params, ca)
  | value :: rest, i, params, ca =>
    match value with
    | [] => scanParts named catchAll level rest (i + 1) params ca
    | c :: _ =>
      if c = named then
        scanParts named catchAll level rest (i + 1) ((params + 1) % 65536) ca
      else if c = catchAll then
        if i % 65536 ≠ (level + 65535) % 65536 then (none, ca)
        else
          scanParts named catchAll level rest (i + 1) (params ||| 32768)
            (if ca = 0 ∨ ca > level then level else ca)
      else scanParts named catchAll level rest (i + 1) params ca

/-- Method `Paths.Add` of `router.go`: the registry after the call and the returned
error (`none` is a `nil` error). -/
def Add (r : Paths) (url : Str) (handler : Handler) : Paths × Option AddError :=
  match handler with
  | none => (r, some AddError.nilHandler)
  | some _ =>
    let parts := Splitter url
    let level := parts.length % 65536
    if level > 32767 then (r, some (AddError.pathOverflow parts.length))
    else
      match scanParts NamedParamFlag CatchAllParamFlag level parts 0 0 r.catchAll with
      | (none, ca) => ({ r with catchAll := ca }, some AddError.catchAllNotLast)
      | (some params, ca) =>
        if params = 0 then
          ({ r with
              catchAll := ca
              static := some (mapSet (r.static.getD []) (joinParts parts) handler) },
            none)
        else
          let m := r.fields.getD []
          ({ r with
              catchAll := ca
              maxParts := if r.maxParts < level then level else r.maxParts
              fields := some (mapSet m level
                (sortStable ((mapGet m level).getD [] ++ [⟨params, parts, handler⟩]))) },
            none)

/-- Outcome of trying one record against a path. -/
inductive MatchResult where
  | matched (ps : Params)
  | mismatch
deriving DecidableEq

/-- The `for i, part := range record.parts` loop of `Paths.Lookup`, started at
index `i` with the collected `params`; `none` is an index-out-of-range panic
(`part[0]` on an empty part, `parts[i]`, `parts[i:]`). -/
def matchParts (parts : List Str) : List Str → Nat → Params → Option MatchResult
  | [], _, params => some (MatchResult.matched params)
  | part :: rest, i, params =>
    match part with
    | [] => none
    | c :: tl =>
      if c = ':' then
        match parts[i]? with
        | none => none
        | some q =>
          matchParts parts rest (i + 1) (params ++ [⟨trimSuffix tl, trimSuffix q⟩])
      else if c = '*' then
        if i ≤ parts.length then
          some (MatchResult.matched (params ++ [⟨tl, joinParts (parts.drop i)⟩]))
        else none
      else
        match parts[i]? with
        | none => none
        | some q =>
          if c :: tl ≠ q then some MatchResult.mismatch
          else matchParts parts rest (i + 1) params

/-- The `for _, record := range records` loop of `Paths.Lookup` at level `l`:
`none` is a panic, `some none` means that no record of the list matched. -/
def lookupRecords (parts : List Str) (l length : Nat) :
    records → Option (Option (Handler × Params))
  | [] => some none
  | rc :: rest =>
    if l < length ∧ rc.params / 32768 ≠ 1 then lookupRecords parts l length rest
    else
      match matchParts parts rc.parts 0 [] with
      | none => none
      | some (MatchResult.matched ps) => some (some (rc.handler, ps))
      | some MatchResult.mismatch => lookupRecords parts l length rest

/-- The `for l := total; l > 0; l--` loop of `Paths.Lookup`. -/
def lookupLevels (r : Paths) (parts : List Str) (length : Nat) :
    Nat → Option (Handler × Params)
  | 0 => some (none, [])
  | l + 1 =>
    if (r.fieldsGet (l + 1)).length = 0 then
      if l + 1 < r.catchAll then some (none, [])
      else lookupLevels r parts length l
    else
      match lookupRecords parts (l + 1) length (r.fieldsGet (l + 1)) with
      | none => none
      | some (some res) => some res
      | some none => lookupLevels r parts length l

/-- Method `Paths.Lookup` of `router.go`: `none` is a run-time panic, `some (h, ps)`
the returned pair (`h = none` is the `nil` handler, `ps = []` the `nil`
parameter list). -/
def Lookup (r : Paths) (url : Str) : Option (Handler × Params) :=
  let parts := Splitter url
  match r.staticGet (joinParts parts) with
  | some handler => some (handler, [])
  | none =>
    match r.fields with
    | none => some (none, [])
    | some _ =>
      let length := parts.length % 65536
      if length > r.maxParts then
        if r.catchAll = 0 then some (none, [])
        else lookupLevels r parts length r.maxParts
      else lookupLevels r parts length length

/-- A sequence of `Add` calls, all of which return a `nil` error; `none` when
one of them fails. -/
def addAll (r : Paths) : List (Str × Handler) → Option Paths
  | [] => some r
  | (url, h) :: rest =>
    match Add r url h with
    | (r1, none) => addAll r1 rest
    | (_, some _) => none

/-- The registry obtained from the zero value by a list of `Add` calls (the
zero value itself when one of them fails). -/
def built (adds : List (Str × Handler)) : Paths :=
  (addAll Paths.empty adds).getD Paths.empty

/-! ### Vocabulary of the claims -/

/-- A pattern segment that begins with the named-parameter sigil. -/
def isNamed (s : Str) : Bool := s.head? == some NamedParamFlag

/-- A pattern segment that begins with the catch-all sigil. -/
def isCatchAll (s : Str) : Bool := s.head? == some CatchAllParamFlag

/-- A static pattern: no segment begins with `:` or `*`. -/
def isStaticPattern (ps : List Str) : Bool :=
  ps.all (fun s => !isNamed s && !isCatchAll s)

/-- Number of named-parameter segments of a pattern. -/
def namedCount (ps : List Str) : Nat := ps.countP isNamed

/-- The pattern has a catch-all segment. -/
def hasCatchAll (ps : List Str) : Bool := ps.any isCatchAll

/-- Every static segment of the pattern that stands before its first catch-all
segment equals the query segment at the same index. -/
def staticAgree : List Str → List Str → Bool
  | p :: ps, q :: qs =>
    if isCatchAll p then true
    else (isNamed p || decide (p = q)) && staticAgree ps qs
  | _, _ => true

/-- A parameterized pattern with segments `ps` matches a query with segments
`qs`: equal segment counts (at least as many query segments when the pattern
has a catch-all) and agreement on the static segments. -/
def Matches (ps qs : List Str) : Prop :=
  (if hasCatchAll ps then ps.length ≤ qs.length else ps.length = qs.length) ∧
    staticAgree ps qs = true

instance Matches_decidable (ps qs : List Str) : Decidable (Matches ps qs) := by
  unfold Matches
  exact inferInstance

/-- The key under which `Add` and `Lookup` address the static map: the
normalized path. -/
def normalized (url : Str) : Str := joinParts (Splitter url)

/-- The `level` that `Add` computes for a pattern. -/
def patLevel (url : Str) : Nat := (Splitter url).length % 65536

/-- The `params` value that `Add` computes for a pattern (`none` when the scan
ends with the catch-all error). -/
def patParams (url : Str) : Option Nat :=
  (scanParts NamedParamFlag CatchAllParamFlag (patLevel url) (Splitter url) 0 0 0).1

/-! ### Concrete registries used below -/

/-- Registry of the example of `example_test.go`. -/
def exampleRoutes : List (Str × Handler) :=
  [("/users".toList, some 0), ("/users/:name".toList, some 1), ("/users/me".toList, some 2)]

/-- Routes of `TestServeMux` (method GET) in `mux/mux_test.go`. -/
def muxRoutes : List (Str × Handler) :=
  [("/:name".toList, some 0), ("/:name/test/".toList, some 1)]

/-- The two routes of `TestDoublePaths`, each with a trailing delimiter. -/
def doubleSlashRoutes : List (Str × Handler) :=
  [("/:user/:name/".toList, some 0), ("/:user/test/".toList, some 1)]

/-- A pattern with two named parameters and a pattern with a catch-all and no
named parameter, both of two segments. -/
def mixedRoutes : List (Str × Handler) :=
  [("/:a/:b".toList, some 1), ("/x/*c".toList, some 2)]

/-- One static pattern added twice. -/
def twiceStaticRoutes : List (Str × Handler) :=
  [("/a".toList, some 1), ("/a".toList, some 2)]

/-! ### Registration history -/

/-- The record that a successful `Add` of the pair `x` appends to a per-count
list: `none` when the pattern goes to the static map or is rejected. -/
def addRecord (x : Str × Handler) : Option record :=
  match patParams x.1 with
  | some p => if p = 0 then none else some ⟨p, Splitter x.1, x.2⟩
  | none => none

/-- The records that a list of `Add` calls stores under the key `l`, in the
order of registration. -/
def levelRecords (adds : List (Str × Handler)) (l : Nat) : records :=
  (adds.filterMap addRecord).filter (fun rc => rc.parts.length % 65536 = l)

/-- The list `F` is a stable sorting of `X` by `params`: same elements, sorted,
and every sorted sublist of `X` keeps its order in `F`. -/
def StableOf (X F : records) : Prop :=
  F.Perm X ∧ F.Sorted recLE ∧ ∀ c : records, c.Pairwise recLE → c.Sublist X → c.Sublist F

/-! ### Long inputs

Patterns and paths of 65537 segments, written as segment lists; `urlOf` turns
a segment list into the string that `Splitter` cuts back into it. -/

/-- The path whose segments are `segs`, with its leading delimiter. -/
def urlOf (segs : List Str) : Str := PathDelimeter :: joinParts segs

/-- Segments `*a/`, then `n` times `x/`, then `*b`. -/
def twoCatchAllsN (n : Nat) : List Str :=
  "*a/".toList :: (List.replicate n "x/".toList ++ ["*b".toList])

/-- A pattern of 65537 segments whose first and last segments begin with `*`. -/
def twoCatchAlls : List Str := twoCatchAllsN 65535

/-- The registry after `Add(urlOf twoCatchAlls, 7)` on the zero value. -/
def wrappedRegistry : Paths :=
  ⟨none, some [(1, [⟨32768, twoCatchAlls, some 7⟩])], 1, 1⟩

/-- Segments: `n` times `:p/`, `m` times `x/`, then `z`. -/
def manyNamedN (n m : Nat) : List Str :=
  List.replicate n ":p/".toList ++ (List.replicate m "x/".toList ++ ["z".toList])

/-- Segments: `n + m` times `x/`, then `*w`. -/
def longCatchAllN (n m : Nat) : List Str :=
  List.replicate n "x/".toList ++ (List.replicate m "x/".toList ++ ["*w".toList])

/-- Segments: `n + m` times `x/`, then `z`. -/
def longQueryN (n m : Nat) : List Str :=
  List.replicate n "x/".toList ++ (List.replicate m "x/".toList ++ ["z".toList])

/-- A pattern of 65537 segments without catch-all, 32769 of them named. -/
def manyNamed : List Str := manyNamedN 32769 32767

/-- A pattern of 65537 segments: 65536 static ones and a final catch-all. -/
def longCatchAll : List Str := longCatchAllN 32769 32767

/-- A path of 65537 segments. -/
def longQuery : List Str := longQueryN 32769 32767

/-- The registry after `Add(urlOf manyNamed, 1)` on the zero value. -/
def longRegistry0 : Paths :=
  ⟨none, some [(1, [⟨32769, manyNamed, some 1⟩])], 1, 0⟩

/-- The registry after `Add(urlOf longCatchAll, 2)` on `longRegistry0`. -/
def longRegistry : Paths :=
  ⟨none, some [(1, [⟨32768, longCatchAll, some 2⟩, ⟨32769, manyNamed, some 1⟩])], 1, 1⟩

/-- Two catch-all patterns of one and of two segments. -/
def catchAllRoutes : List (Str × Handler) :=
  [("/*all".toList, some 0), ("/a/*rest".toList, some 1)]

/-- Segments `a/`, then `n` times `x/`, then `y`. -/
def wrapQueryN (n : Nat) : List Str :=
  "a/".toList :: (List.replicate n "x/".toList ++ ["y".toList])

/-- A path of 65537 segments that begins with `a/`. -/
def wrapQuery : List Str := wrapQueryN 65535

/-- Segments: `n` times `:p/`, `m` times `x/`, then `*w`. -/
def earlyN (n m : Nat) : List Str :=
  List.replicate n ":p/".toList ++ (List.replicate m "x/".toList ++ ["*w".toList])

/-- Segments: `*a/`, `n` times `:p/`, `m` times `x/`, then `z`. -/
def lateN (n m : Nat) : List Str :=
  "*a/".toList :: (List.replicate n ":p/".toList ++ (List.replicate m "x/".toList ++ ["z".toList]))

/-- A pattern of 65537 segments: 32769 named, 32767 static, a final catch-all. -/
def earlyPattern : List Str := earlyN 32769 32767

/-- A pattern of 65537 segments: a first segment `*a/`, 32769 named, 32767
static. -/
def latePattern : List Str := lateN 32769 32766

/-- The registry after `Add(urlOf earlyPattern, 1)` on the zero value. -/
def shadowRegistry0 : Paths := ⟨none, some [(1, [⟨32769, earlyPattern, some 1⟩])], 1, 1⟩

/-- The registry after `Add(urlOf latePattern, 2)` on `shadowRegistry0`. -/
def shadowRegistry : Paths :=
  ⟨none, some [(1, [⟨1, latePattern, some 2⟩, ⟨32769, earlyPattern, some 1⟩])], 1, 1⟩

/-- Segments: `n` times the segment `s`, then `z`. -/
def allNamedN (s : Str) (n : Nat) : List Str := List.replicate n s ++ ["z".toList]

/-- A pattern of 65537 segments: 65536 times `:a/`, then `z`. -/
def firstNames : List Str := allNamedN ":a/".toList 65536

/-- The pattern `firstNames` with every parameter renamed to `b`. -/
def otherNames : List Str := allNamedN ":b/".toList 65536

/-- The registry after `Add(urlOf firstNames, 1)` on the zero value. -/
def namesRegistry0 : Paths := ⟨some [(joinParts firstNames, some 1)], none, 0, 0⟩

/-- The registry after `Add(urlOf otherNames, 2)` on `namesRegistry0`. -/
def namesRegistry : Paths :=
  ⟨some [(joinParts firstNames, some 1), (joinParts otherNames, some 2)], none, 0, 0⟩

/-- The pattern `/:a/:b` added twice and the more specific `/x/:b` added last. -/
def shadowedRoutes : List (Str × Handler) :=
  [("/:a/:b".toList, some 1), ("/:a/:b".toList, some 2), ("/x/:b".toList, some 3)]

/-! ### `Paths.Path` and `Params.Get` -/

/-- Go's `==` on two `interface{}` values that hold handlers; `none` is the
run-time panic "comparing uncomparable type".  A `nil` interface equals only
`nil`.  A value of `Handler` says which value a handler is but not what its
dynamic type is, so the outcome of comparing two non-nil values is the
parameter `cmp`: `false` for two different dynamic types, the comparison of
the values for one comparable dynamic type, a panic for one uncomparable
dynamic type such as the `func` type `http.HandlerFunc`. -/
def ifaceEq (cmp : Nat → Nat → Option Bool) : Handler → Handler → Option Bool
  | none, none => some true
  | some a, some b => cmp a b
  | none, some _ => some false
  | some _, none => some false

/-- The comparison of handlers that all are values of one comparable type
with reflexive equality, such as the `int` handlers of `router_test.go`. -/
def intEq (a b : Nat) : Option Bool := some (decide (a = b))

/-- The comparison of handlers that all are `http.HandlerFunc` values, as
registered by `mux.HandleFunc`: comparing two of them panics. -/
def funcEq : Nat → Nat → Option Bool := fun _ _ => none

/-- The loop `for url, h := range r.static` of `Paths.Path`, run over the map
entries in the order `entries`, with the test `h == handler`; `none` is a
panic of the comparison, `some none` means that the loop ends without a
`return`. -/
def pathStatic (cmp : Nat → Nat → Option Bool) :
    List (Str × Handler) → Handler → Option (Option (List Str))
  | [], _ => some none
  | (url, h) :: rest, handler =>
    match ifaceEq cmp h handler with
    | none => none
    | some true => some (some (Splitter url))
    | some false => pathStatic cmp rest handler

/-- The loop `for _, record := range records` of `Paths.Path`, with the test
`handler == record.handler`; `none` is a panic of the comparison. -/
def pathRecords (cmp : Nat → Nat → Option Bool) :
    records → Handler → Option (Option (List Str))
  | [], _ => some none
  | rc :: rest, handler =>
    match ifaceEq cmp handler rc.handler with
    | none => none
    | some true => some (some rc.parts)
    | some false => pathRecords cmp rest handler

/-- The loop `for _, records := range r.fields` of `Paths.Path`, run over the
map entries in the order `entries`. -/
def pathFields (cmp : Nat → Nat → Option Bool) :
    List (Nat × records) → Handler → Option (Option (List Str))
  | [], _ => some none
  | (_, rs) :: rest, handler =>
    match pathRecords cmp rs handler with
    | none => none
    | some (some parts) => some (some parts)
    | some none => pathFields cmp rest handler

/-- Method `Paths.Path` of `router.go` when the two `range` loops visit the
entries of the static map in the order `so` and the entries of `r.fields` in
the order `fo` (Go leaves the iteration order of a map unspecified) and `==`
on handlers behaves as `cmp` says; `none` is a panic, `some none` the `nil`
result. -/
def PathIn (cmp : Nat → Nat → Option Bool) (so : List (Str × Handler))
    (fo : List (Nat × records)) (handler : Handler) : Option (Option (List Str)) :=
  match pathStatic cmp so handler with
  | none => none
  | some (some parts) => some (some parts)
  | some none => pathFields cmp fo handler

/-- Method `Paths.Path` of `router.go` with the maps visited in the order in
which their keys were first written. -/
def Path (cmp : Nat → Nat → Option Bool) (r : Paths) (handler : Handler) :
    Option (Option (List Str)) :=
  PathIn cmp (r.static.getD []) (r.fields.getD []) handler

/-- Method `Params.Get` of `param.go`; the empty list is the empty string. -/
def Params.Get : Params → Str → Str
  | [], _ => []
  | param :: rest, name => if param.Key = name then param.Value else Params.Get rest name

/-- Go `strings.Join(parts, sep)`. -/
def joinSep (sep : Str) (parts : List Str) : Str :=
  sep.intercalate parts

/-! ### Inputs of the claims on errors and on `Path` -/

/-- A pattern with a named parameter and a trailing delimiter. -/
def slashRoutes : List (Str × Handler) := [("/:q/".toList, some 1)]

/-- The route `/user/:name` of the tests with a trailing delimiter. -/
def userSlashRoutes : List (Str × Handler) := [("/user/:name/".toList, some 1)]

/-- One pattern with a single named parameter. -/
def nameRoutes : List (Str × Handler) := [("/:name".toList, some 1)]

/-- One static route; its handler stands for an `http.HandlerFunc`. -/
def funcRoutes : List (Str × Handler) := [("/x".toList, some 1)]

/-- The second route of `TestRouter`. -/
def routeRoutes : List (Str × Handler) := [("/path/to/route".toList, some 1)]

/-- Segments `*n/`, then `n` times `x/`, then `y`. -/
def starFirstN (n : Nat) : List Str :=
  "*n/".toList :: (List.replicate n "x/".toList ++ ["y".toList])

/-- A pattern of 32769 segments whose first segment begins with `*`. -/
def starFirst : List Str := starFirstN 32767

/-- Segments: `n` times `test/`, then `test`. -/
def repeatTestN (n : Nat) : List Str :=
  List.replicate n "test/".toList ++ ["test".toList]

/-- The segments of `strings.Repeat("/test", 65536)`. -/
def repeatTest : List Str := repeatTestN 65535

/-- The registry after `Add(urlOf repeatTest, 999)` on the zero value. -/
def repeatRegistry : Paths := ⟨some [(joinParts repeatTest, some 999)], none, 0, 0⟩

/-! ### Reachable registries -/

/-- The registries that calls of `Add` reach from the zero value, each with the
list of its successful calls in the order in which they were made. A failed
call is a step too: it may have written `r.catchAll`. -/
inductive Reached : Paths → List (Str × Handler) → Prop
  | zero : Reached Paths.empty []
  | ok {r r1 : Paths} {url : Str} {h : Handler} {adds : List (Str × Handler)} :
      Reached r adds → Add r url h = (r1, none) → Reached r1 (adds ++ [(url, h)])
  | failed {r r1 : Paths} {url : Str} {h : Handler} {e : AddError}
      {adds : List (Str × Handler)} :
      Reached r adds → Add r url h = (r1, some e) → Reached r1 adds

/-! ### Configurable sigils -/

/-- Method `Paths.Add` of `router.go` when the package variables
`NamedParamFlag` and `CatchAllParamFlag` hold the bytes `named` and `catchAll`
(`Add` reads the two variables; `Lookup` does not, see `matchParts`). -/
def AddWith (named catchAll : Char) (r : Paths) (url : Str) (handler : Handler) :
    Paths × Option AddError :=
  match handler with
  | none => (r, some AddError.nilHandler)
  | some _ =>
    let parts := Splitter url
    let level := parts.length % 65536
    if level > 32767 then (r, some (AddError.pathOverflow parts.length))
    else
      match scanParts named catchAll level parts 0 0 r.catchAll with
      | (none, ca) => ({ r with catchAll := ca }, some AddError.catchAllNotLast)
      | (some params, ca) =>
        if params = 0 then
          ({ r with
              catchAll := ca
              static := some (mapSet (r.static.getD []) (joinParts parts) handler) },
            none)
        else
          let m := r.fields.getD []
          ({ r with
              catchAll := ca
              maxParts := if r.maxParts < level then level else r.maxParts
              fields := some (mapSet m level
                (sortStable ((mapGet m level).getD [] ++ [⟨params, parts, handler⟩]))) },
            none)

/-- The registry after `Add("/$name", 1)` on the zero value when
`NamedParamFlag` is `$`. -/
def dollarRegistry : Paths := ⟨none, some [(1, [⟨1, ["$name".toList], some 1⟩])], 1, 0⟩

/-! ### The HTTP adapter `mux.ServeMux`

Only the field `routers` of `ServeMux` is modelled.  The response is described
by what `ServeHTTP` hands to the handler, to `m.Redirect` / `http.Redirect`, to
`m.Error` / `http.Error` or to `m.NotFound` / `http.NotFound`; the copying of
`m.Headers` into the response header, which every branch shares, is left out. -/

/-- The outcome of `ServeMux.ServeHTTP`: the handler that is invoked, with the
parameters put into the request context (none when the list is empty); the
status and target of the redirect; status 405 with the methods joined into the
`Allow` header; or status 404. -/
inductive Response where
  | served (handler : Nat) (params : Params)
  | redirect (status : Nat) (url : Str)
  | methodNotAllowed (allow : List Str)
  | notFound
deriving DecidableEq

/-- Type `ServeMux` of `mux/mux.go`: the map from request method to registry. -/
structure ServeMux where
  routers : Option (List (Str × Paths))

/-- The expression `m.routers[r.Method]` (`nil` for a missing key or a `nil`
map). -/
def ServeMux.routersGet (m : ServeMux) (method : Str) : Option Paths :=
  match m.routers with
  | none => none
  | some rs => mapGet rs method

/-- The path with its trailing slash toggled, lines 64-68 of `mux/mux.go`:
`TrimSuffix(path, "/")` when `HasSuffix(path, "/")`, else `path + "/"`. -/
def togglePath (path : Str) : Str :=
  if path.getLast? = some '/' then path.dropLast else path ++ ['/']

/-- The loop `for method, handlers := range m.routers` of `ServeHTTP`, run over
the map entries in the given order: the methods whose registry returns a
non-nil handler for `path`; `none` when a `Lookup` panics. -/
def allowLoop (path : Str) : List (Str × Paths) → Option (List Str)
  | [] => some []
  | (method, handlers) :: rest =>
    match Lookup handlers path with
    | none => none
    | some (some _, _) =>
      match allowLoop path rest with
      | none => none
      | some methods => some (method :: methods)
    | some (none, _) => allowLoop path rest

/-- Lines 85-106 of `mux/mux.go`: status 405 with the `Allow` header when the
loop found a method, status 404 otherwise. -/
def notAllowedOrNotFound (order : List (Str × Paths)) (path : Str) : Option Response :=
  match allowLoop path order with
  | none => none
  | some methods =>
    if methods.length > 0 then some (Response.methodNotAllowed methods)
    else some Response.notFound

/-- Method `ServeMux.ServeHTTP` of `mux/mux.go` for a request with the given
method and URL path, when the `range` loop over `m.routers` visits the entries
in the order `order`; `none` is a panic.  The variable `path` is overwritten
with the toggled path before the second `Lookup`, and the loop over the
methods reads that same variable. -/
def ServeHTTPIn (order : List (Str × Paths)) (m : ServeMux) (method path : Str) :
    Option Response :=
  match m.routersGet method with
  | some routers =>
    match Lookup routers path with
    | none => none
    | some (some handler, params) => some (Response.served handler params)
    | some (none, _) =>
      let path2 := togglePath path
      match Lookup routers path2 with
      | none => none
      | some (some _, _) =>
        some (Response.redirect
          (if method ≠ "GET".toList ∧ method ≠ "HEAD".toList then 308 else 301) path2)
      | some (none, _) => notAllowedOrNotFound order path2
  | none => notAllowedOrNotFound order path

/-- Method `ServeMux.ServeHTTP` with the map visited in the order in which its
keys were first written. -/
def ServeHTTP (m : ServeMux) (method path : Str) : Option Response :=
  ServeHTTPIn (m.routers.getD []) m method path

/-- The request methods that RFC 7231, section 4.2.2, defines as idempotent.
This list is vocabulary of the claim on redirects; `mux.go` does not use it. -/
def idempotentMethods : List Str :=
  ["GET".toList, "HEAD".toList, "PUT".toList, "DELETE".toList, "OPTIONS".toList,
    "TRACE".toList]

/-- The multiplexer of `TestServeMux`: two routes for GET, one for POST. -/
def testMux : ServeMux :=
  ⟨some [("GET".toList, built muxRoutes), ("POST".toList, built [("/:name".toList, some 2)])]⟩

/-- A multiplexer with the route `/x` for GET and the route `/test` for POST. -/
def allowMux : ServeMux :=
  ⟨some [("GET".toList, built [("/x".toList, some 1)]),
    ("POST".toList, built [("/test".toList, some 2)])]⟩

/-- A multiplexer with the single route `/test` for PUT. -/
def putMux : ServeMux := ⟨some [("PUT".toList, built [("/test".toList, some 1)])]⟩

/-! ### The matcher without the three shortcuts -/

/-- The loop over the segment counts `l, l - 1, ..., 1` that tries the records
of every count in list order with the per-record rule of `Lookup`
(`lookupRecords`), and has neither a bound by `maxParts` nor a `break`. -/
def scanAll (r : Paths) (parts : List Str) (length : Nat) : Nat → Option (Handler × Params)
  | 0 => some (none, [])
  | l + 1 =>
    match lookupRecords parts (l + 1) length (r.fieldsGet (l + 1)) with
    | none => none
    | some (some res) => some res
    | some none => scanAll r parts length l

/-- The unoptimised matcher of the claim on the shortcuts of `Lookup`, written
from the words of that claim: the static map first, then every segment count
from the query's own segment count down to 1. -/
def LookupUnoptimised (r : Paths) (url : Str) : Option (Handler × Params) :=
  let parts := Splitter url
  match r.staticGet (joinParts parts) with
  | some handler => some (handler, [])
  | none => scanAll r parts parts.length parts.length

/-- A pattern of 65536 segments: 65535 times `x/`, then the catch-all `*w`. -/
def zeroLevel : List Str := longCatchAllN 32768 32767

/-- The record that `Add("/a/*rest", 1)` stores. -/
def restRecord : record := ⟨32768, ["a/".toList, "*rest".toList], some 1⟩

/-- The registry after `Add("/a/*rest", 1)` on the zero value. -/
def restFirst0 : Paths := ⟨none, some [(2, [restRecord])], 2, 2⟩

/-- The registry after `Add(urlOf zeroLevel, 2)` on `restFirst0`. -/
def restFirst : Paths :=
  ⟨none, some [(2, [restRecord]), (0, [⟨32768, zeroLevel, some 2⟩])], 2, 0⟩

/-- The registry after `Add(urlOf zeroLevel, 2)` on the zero value. -/
def zeroFirst0 : Paths := ⟨none, some [(0, [⟨32768, zeroLevel, some 2⟩])], 0, 0⟩

/-- The registry after `Add("/a/*rest", 1)` on `zeroFirst0`. -/
def zeroFirst : Paths :=
  ⟨none, some [(0, [⟨32768, zeroLevel, some 2⟩]), (2, [restRecord])], 2, 2⟩

/-! ### Vocabulary of the claims on `Path` and on the round trip -/

/-- One handler under two patterns of two segments; the pattern added second
has fewer named parameters. -/
def sameHandlerRoutes : List (Str × Handler) :=
  [("/:a/:b".toList, some 1), ("/:a/x".toList, some 1)]

/-- One handler under a parameterized pattern and then under a static one. -/
def staticLaterRoutes : List (Str × Handler) :=
  [("/:x".toList, some 1), ("/a".toList, some 1)]

/-- A capturing pattern segment: named or catch-all. -/
def isParamSeg (s : Str) : Bool := isNamed s || isCatchAll s

/-- The name of a capturing segment: the text after the sigil, for a named
parameter without its trailing delimiter. -/
def segName (s : Str) : Str := if isCatchAll s then s.tail else trimSuffix s.tail

/-- The segments of a pattern after its parameter segments are replaced, in
order, by the values `vs`; a named parameter keeps the trailing delimiter of
its segment. -/
def substitute : List Str → List Str → List Str
  | [], _ => []
  | s :: ps, vs =>
    if isNamed s then
      (vs.headD [] ++ (if s.getLast? = some PathDelimeter then [PathDelimeter] else []))
        :: substitute ps vs.tail
    else if isCatchAll s then vs.headD [] :: substitute ps vs.tail
    else s :: substitute ps vs

/-- The shape of a list of segments cut by `strings.SplitAfter`: every segment
but the last is a delimiter-free text followed by one delimiter, the last
segment is delimiter-free. -/
def SplitOK : List Str → Prop
  | [] => True
  | [last] => PathDelimeter ∉ last
  | s :: t :: rest =>
    (∃ body, s = body ++ [PathDelimeter] ∧ PathDelimeter ∉ body) ∧ SplitOK (t :: rest)

end Router

namespace Router

/-! ### Maps -/

theorem mapGet_mapSet_same {κ ν : Type} [DecidableEq κ] (m : List (κ × ν)) (k : κ) (v : ν) :
    mapGet (mapSet m k v) k = some v := by
  induction m with
  | nil => simp [mapSet, mapGet]
  | cons a t ih =>
    obtain ⟨k1, v1⟩ := a
    by_cases hk : k1 = k
    · simp [mapSet, mapGet, hk]
    · simp [mapSet, mapGet, hk, ih]

theorem mapGet_mapSet_other {κ ν : Type} [DecidableEq κ] (m : List (κ × ν)) (k k2 : κ) (v : ν)
    (hne : k ≠ k2) : mapGet (mapSet m k v) k2 = mapGet m k2 := by
  induction m with
  | nil => simp [mapSet, mapGet, hne]
  | cons a t ih =>
    obtain ⟨k1, v1⟩ := a
    by_cases hk : k1 = k
    · subst hk
      simp [mapSet, mapGet, hne]
    · simp [mapSet, mapGet, hk, ih]

/-! ### What a successful `Add` does -/

theorem scanParts_static (level : Nat) (ps : List Str) (i params ca : Nat)
    (hs : isStaticPattern ps = true) :
    scanParts NamedParamFlag CatchAllParamFlag level ps i params ca = (some params, ca) := by
  induction ps generalizing i with
  | nil => simp [scanParts]
  | cons s rest ih =>
    simp only [isStaticPattern, List.all_cons, Bool.and_eq_true] at hs
    have hrest : isStaticPattern rest = true := by simpa [isStaticPattern] using hs.2
    cases s with
    | nil => simp [scanParts, ih _ hrest]
    | cons c tl =>
      have h1 : c ≠ NamedParamFlag := by
        have := hs.1.1
        simpa [isNamed] using this
      have h2 : c ≠ CatchAllParamFlag := by
        have := hs.1.2
        simpa [isCatchAll] using this
      simp [scanParts, h1, h2, ih _ hrest]

theorem Add_ok {r r1 : Paths} {url : Str} {h : Handler} (hadd : Add r url h = (r1, none)) :
    ∃ params ca,
      scanParts NamedParamFlag CatchAllParamFlag (patLevel url)
        (Splitter url) 0 0 r.catchAll = (some params, ca) ∧
      h ≠ none ∧ patLevel url ≤ 32767 ∧
      ((params = 0 ∧ r1 = { r with
          catchAll := ca
          static := some (mapSet (r.static.getD []) (normalized url) h) }) ∨
       (params ≠ 0 ∧ r1 = { r with
          catchAll := ca
          maxParts := if r.maxParts < patLevel url then patLevel url else r.maxParts
          fields := some (mapSet (r.fields.getD []) (patLevel url)
            (sortStable (r.fieldsGet (patLevel url)
              ++ [⟨params, Splitter url, h⟩]))) })) := by
  unfold Add at hadd
  unfold patLevel normalized
  cases h with
  | none => simp at hadd
  | some v =>
    simp only at hadd
    split at hadd
    · simp at hadd
    · rename_i hlevel
      split at hadd
      · simp at hadd
      · rename_i params ca hscan
        refine ⟨params, ca, hscan, by simp, by omega, ?_⟩
        split at hadd
        · rename_i hp
          left
          refine ⟨hp, ?_⟩
          simp only [Prod.mk.injEq, and_true] at hadd
          exact hadd.symm
        · rename_i hp
          right
          refine ⟨hp, ?_⟩
          simp only [Prod.mk.injEq, and_true] at hadd
          rw [← hadd]
          cases hf : r.fields <;> simp [Paths.fieldsGet, hf, mapGet]

theorem addAll_cons_some {r r2 : Paths} {x : Str × Handler} {rest : List (Str × Handler)}
    (h : addAll r (x :: rest) = some r2) :
    ∃ r1, Add r x.1 x.2 = (r1, none) ∧ addAll r1 rest = some r2 := by
  obtain ⟨url, hd⟩ := x
  simp only [addAll] at h
  split at h
  · rename_i r1 heq
    exact ⟨r1, heq, h⟩
  · simp at h

theorem addAll_append_some {r r2 : Paths} {xs ys : List (Str × Handler)}
    (h : addAll r (xs ++ ys) = some r2) :
    ∃ r1, addAll r xs = some r1 ∧ addAll r1 ys = some r2 := by
  induction xs generalizing r with
  | nil => exact ⟨r, rfl, h⟩
  | cons x xs ih =>
    obtain ⟨r1, h1, h2⟩ := addAll_cons_some (by simpa using h)
    obtain ⟨r3, h3, h4⟩ := ih h2
    refine ⟨r3, ?_, h4⟩
    obtain ⟨url, hd⟩ := x
    simp only [addAll]
    simp only at h1
    rw [h1]
    exact h3

/-! ### The static map -/

theorem Add_static_same {r r1 : Paths} {url : Str} {h : Handler}
    (hadd : Add r url h = (r1, none)) (hs : isStaticPattern (Splitter url) = true) :
    r1.staticGet (normalized url) = some h := by
  obtain ⟨params, ca, hscan, -, -, hcase⟩ := Add_ok hadd
  rw [scanParts_static _ _ _ _ _ hs] at hscan
  simp only [Prod.mk.injEq, Option.some.injEq] at hscan
  rcases hcase with ⟨-, hr⟩ | ⟨hp, -⟩
  · subst hr
    simp [Paths.staticGet, mapGet_mapSet_same]
  · exact absurd hscan.1.symm hp

theorem Add_static_other {r r1 : Paths} {url : Str} {h : Handler} {key : Str}
    (hadd : Add r url h = (r1, none)) (hne : normalized url ≠ key) :
    r1.staticGet key = r.staticGet key := by
  obtain ⟨params, ca, -, -, -, hcase⟩ := Add_ok hadd
  rcases hcase with ⟨-, hr⟩ | ⟨-, hr⟩
  · subst hr
    cases hst : r.static <;>
      simp [Paths.staticGet, hst, mapGet_mapSet_other _ _ _ _ hne, mapGet, mapSet, hne]
  · subst hr
    rfl

theorem addAll_static_other {r r2 : Paths} {adds : List (Str × Handler)} {key : Str}
    (hadd : addAll r adds = some r2) (hne : ∀ x ∈ adds, normalized x.1 ≠ key) :
    r2.staticGet key = r.staticGet key := by
  induction adds generalizing r with
  | nil =>
    simp only [addAll, Option.some.injEq] at hadd
    rw [hadd]
  | cons x rest ih =>
    obtain ⟨r1, h1, h2⟩ := addAll_cons_some hadd
    rw [ih h2 (fun y hy => hne y (List.mem_cons_of_mem _ hy)),
      Add_static_other h1 (hne x (List.mem_cons_self _ _))]

theorem Lookup_static_hit {r : Paths} {url : Str} {h : Handler}
    (hget : r.staticGet (normalized url) = some h) : Lookup r url = some (h, []) := by
  unfold normalized at hget
  simp [Lookup, hget]

theorem static_last_add_wins (r0 r : Paths) (pre post : List (Str × Handler)) (p : Str)
    (h : Handler) (hstatic : isStaticPattern (Splitter p) = true)
    (hadd : addAll r0 (pre ++ (p, h) :: post) = some r)
    (hlater : ∀ x ∈ post, normalized x.1 ≠ normalized p) :
    Lookup r p = some (h, []) := by
  obtain ⟨r1, -, h2⟩ := addAll_append_some hadd
  obtain ⟨r2, h3, h4⟩ := addAll_cons_some h2
  apply Lookup_static_hit
  rw [addAll_static_other h4 hlater]
  exact Add_static_same h3 hstatic

/-! ### Registration invariants and the winner of a lookup -/

theorem scanParts_fst_indep (nf cf : Char) (level : Nat) (ps : List Str) (i params ca ca2 : Nat) :
    (scanParts nf cf level ps i params ca).1 = (scanParts nf cf level ps i params ca2).1 := by
  induction ps generalizing i params ca ca2 with
  | nil => simp [scanParts]
  | cons s rest ih =>
    cases s with
    | nil => simp only [scanParts]; exact ih _ _ _ _
    | cons c tl =>
      simp only [scanParts]
      split
      · exact ih _ _ _ _
      · split
        · split
          · rfl
          · exact ih _ _ _ _
        · exact ih _ _ _ _

theorem patParams_of_scan {url : Str} {params ca ca0 : Nat}
    (h : scanParts NamedParamFlag CatchAllParamFlag (patLevel url) (Splitter url) 0 0 ca0
      = (some params, ca)) : patParams url = some params := by
  unfold patParams
  rw [scanParts_fst_indep _ _ _ _ _ _ 0 ca0, h]

theorem fieldsGet_Add_static {r r1 : Paths} {url : Str} {h : Handler}
    (hadd : Add r url h = (r1, none)) (hp : patParams url = some 0) (l : Nat) :
    r1.fieldsGet l = r.fieldsGet l := by
  obtain ⟨params, ca, hscan, -, -, hcase⟩ := Add_ok hadd
  have := patParams_of_scan hscan
  rw [hp] at this
  rcases hcase with ⟨-, hr⟩ | ⟨hne, -⟩
  · subst hr; rfl
  · simp at this; exact absurd this.symm hne

theorem fieldsGet_Add_param {r r1 : Paths} {url : Str} {h : Handler} {p : Nat}
    (hadd : Add r url h = (r1, none)) (hp : patParams url = some p) (hp0 : p ≠ 0) (l : Nat) :
    r1.fieldsGet l = if l = patLevel url
      then sortStable (r.fieldsGet (patLevel url) ++ [⟨p, Splitter url, h⟩])
      else r.fieldsGet l := by
  obtain ⟨params, ca, hscan, -, -, hcase⟩ := Add_ok hadd
  have := patParams_of_scan hscan
  rw [hp] at this
  simp only [Option.some.injEq] at this
  subst this
  rcases hcase with ⟨h0, -⟩ | ⟨-, hr⟩
  · exact absurd h0 hp0
  · subst hr
    by_cases hl : l = patLevel url
    · subst hl
      simp [Paths.fieldsGet, mapGet_mapSet_same]
    · have hl2 : patLevel url ≠ l := fun h => hl h.symm
      cases hf : r.fields <;>
        simp [Paths.fieldsGet, hl, hf, mapGet_mapSet_other _ _ _ _ hl2, mapGet, mapSet, hl2]

theorem staticGet_Add_param {r r1 : Paths} {url : Str} {h : Handler} {p : Nat}
    (hadd : Add r url h = (r1, none)) (hp : patParams url = some p) (hp0 : p ≠ 0) (key : Str) :
    r1.staticGet key = r.staticGet key := by
  obtain ⟨params, ca, hscan, -, -, hcase⟩ := Add_ok hadd
  have := patParams_of_scan hscan
  rw [hp] at this
  simp only [Option.some.injEq] at this
  subst this
  rcases hcase with ⟨h0, -⟩ | ⟨-, hr⟩
  · exact absurd h0 hp0
  · subst hr; rfl

theorem patParams_of_Add {r r1 : Paths} {url : Str} {h : Handler}
    (hadd : Add r url h = (r1, none)) : ∃ p, patParams url = some p := by
  obtain ⟨params, ca, hscan, -, -, -⟩ := Add_ok hadd
  exact ⟨params, patParams_of_scan hscan⟩

theorem levelRecords_append (xs ys : List (Str × Handler)) (l : Nat) :
    levelRecords (xs ++ ys) l = levelRecords xs l ++ levelRecords ys l := by
  simp [levelRecords, List.filterMap_append]

theorem StableOf_nil : StableOf [] [] :=
  ⟨List.Perm.refl _, List.sorted_nil, fun _ _ hc => hc⟩

theorem StableOf_snoc {X F : records} (hs : StableOf X F) (x : record) :
    StableOf (X ++ [x]) (sortStable (F ++ [x])) := by
  obtain ⟨hperm, -, hsub⟩ := hs
  refine ⟨?_, ?_, ?_⟩
  · exact (List.perm_insertionSort recLE _).trans (hperm.append_right _)
  · exact List.sorted_insertionSort recLE _
  · intro c hc hcs
    apply List.sublist_insertionSort hc
    obtain ⟨c1, c2, hc12, h1, h2⟩ := List.sublist_append_iff.mp hcs
    subst hc12
    exact List.Sublist.append (hsub c1 (hc.sublist (List.sublist_append_left _ _)) h1) h2

theorem fields_inv_step {r r1 : Paths} {x : Str × Handler} {done : List (Str × Handler)}
    (hinv : ∀ l, StableOf (levelRecords done l) (r.fieldsGet l))
    (hadd : Add r x.1 x.2 = (r1, none)) :
    ∀ l, StableOf (levelRecords (done ++ [x]) l) (r1.fieldsGet l) := by
  intro l
  obtain ⟨p, hp⟩ := patParams_of_Add hadd
  rw [levelRecords_append]
  by_cases hp0 : p = 0
  · subst hp0
    rw [fieldsGet_Add_static hadd hp]
    have : levelRecords [x] l = [] := by simp [levelRecords, addRecord, hp]
    rw [this, List.append_nil]
    exact hinv l
  · rw [fieldsGet_Add_param hadd hp hp0]
    by_cases hl : l = patLevel x.1
    · subst hl
      have : levelRecords [x] (patLevel x.1) = [⟨p, Splitter x.1, x.2⟩] := by
        simp [levelRecords, addRecord, hp, hp0, patLevel]
      rw [this, if_pos rfl]
      exact StableOf_snoc (hinv _) _
    · have : levelRecords [x] l = [] := by
        simp only [levelRecords, List.filterMap_cons, addRecord, hp, hp0, if_false,
          List.filterMap_nil, List.filter_eq_nil_iff, List.mem_singleton]
        intro a ha
        subst ha
        simp only [decide_eq_true_eq]
        intro h
        exact hl (by rw [← h]; rfl)
      rw [this, List.append_nil, if_neg hl]
      exact hinv l

theorem fields_inv_from {r0 r : Paths} {done adds : List (Str × Handler)}
    (hinv : ∀ l, StableOf (levelRecords done l) (r0.fieldsGet l))
    (hadd : addAll r0 adds = some r) :
    ∀ l, StableOf (levelRecords (done ++ adds) l) (r.fieldsGet l) := by
  induction adds generalizing r0 done with
  | nil =>
    simp only [addAll, Option.some.injEq] at hadd
    subst hadd
    simpa using hinv
  | cons x rest ih =>
    obtain ⟨r1, h1, h2⟩ := addAll_cons_some hadd
    have := ih (fields_inv_step hinv h1) h2
    simpa using this

theorem fields_inv {r : Paths} {adds : List (Str × Handler)}
    (hadd : addAll Paths.empty adds = some r) (l : Nat) :
    StableOf (levelRecords adds l) (r.fieldsGet l) := by
  have := @fields_inv_from Paths.empty r [] adds (fun l => by
    simpa [levelRecords, Paths.fieldsGet, Paths.empty] using StableOf_nil) hadd l
  simpa using this

theorem static_inv_from {r0 r : Paths} {done adds : List (Str × Handler)}
    (hinv : ∀ key h, r0.staticGet key = some h → ∃ x ∈ done, x.2 = h ∧ patParams x.1 = some 0)
    (hadd : addAll r0 adds = some r) :
    ∀ key h, r.staticGet key = some h →
      ∃ x ∈ done ++ adds, x.2 = h ∧ patParams x.1 = some 0 := by
  induction adds generalizing r0 done with
  | nil =>
    simp only [addAll, Option.some.injEq] at hadd
    subst hadd
    simpa using hinv
  | cons x rest ih =>
    obtain ⟨r1, h1, h2⟩ := addAll_cons_some hadd
    have hstep : ∀ key h, r1.staticGet key = some h →
        ∃ y ∈ done ++ [x], y.2 = h ∧ patParams y.1 = some 0 := by
      intro key h hget
      obtain ⟨p, hp⟩ := patParams_of_Add h1
      by_cases hp0 : p = 0
      · subst hp0
        by_cases hk : normalized x.1 = key
        · subst hk
          obtain ⟨params, ca, hscan, -, -, hcase⟩ := Add_ok h1
          have hp2 := patParams_of_scan hscan
          rw [hp] at hp2
          simp only [Option.some.injEq] at hp2
          rcases hcase with ⟨-, hr⟩ | ⟨hne, -⟩
          · subst hr
            simp only [Paths.staticGet, mapGet_mapSet_same, Option.some.injEq] at hget
            exact ⟨x, by simp, hget, hp⟩
          · exact absurd hp2.symm hne
        · rw [Add_static_other h1 hk] at hget
          obtain ⟨y, hy, hy2⟩ := hinv key h hget
          exact ⟨y, by simp [hy], hy2⟩
      · rw [staticGet_Add_param h1 hp hp0] at hget
        obtain ⟨y, hy, hy2⟩ := hinv key h hget
        exact ⟨y, by simp [hy], hy2⟩
    have := ih hstep h2
    simpa using this

theorem static_inv {r : Paths} {adds : List (Str × Handler)}
    (hadd : addAll Paths.empty adds = some r) (key : Str) (h : Handler)
    (hget : r.staticGet key = some h) : ∃ x ∈ adds, x.2 = h ∧ patParams x.1 = some 0 := by
  have := @static_inv_from Paths.empty r [] adds
    (fun key h hg => by simp [Paths.staticGet, Paths.empty] at hg) hadd key h hget
  simpa using this

theorem lookupRecords_winner {parts : List Str} {l length : Nat} {F : records} {h : Handler}
    {ps : Params} (hl : lookupRecords parts l length F = some (some (h, ps))) :
    ∃ pre B post, F = pre ++ B :: post ∧ B.handler = h ∧
      ¬(l < length ∧ B.params / 32768 ≠ 1) ∧
      matchParts parts B.parts 0 [] = some (MatchResult.matched ps) ∧
      ∀ A ∈ pre, (l < length ∧ A.params / 32768 ≠ 1) ∨
        matchParts parts A.parts 0 [] = some MatchResult.mismatch := by
  induction F with
  | nil => simp [lookupRecords] at hl
  | cons rc rest ih =>
    simp only [lookupRecords] at hl
    split at hl
    · rename_i hskip
      obtain ⟨pre, B, post, hF, hB, hns, hm, hpre⟩ := ih hl
      refine ⟨rc :: pre, B, post, by simp [hF], hB, hns, hm, ?_⟩
      intro A hA
      rcases List.mem_cons.mp hA with rfl | hA
      · exact Or.inl hskip
      · exact hpre A hA
    · rename_i hskip
      split at hl
      · simp at hl
      · rename_i ps2 hm
        simp only [Option.some.injEq, Prod.mk.injEq] at hl
        refine ⟨[], rc, rest, rfl, hl.1, hskip, ?_, by simp⟩
        rw [hm, hl.2]
      · rename_i hm
        obtain ⟨pre, B, post, hF, hB, hns, hm2, hpre⟩ := ih hl
        refine ⟨rc :: pre, B, post, by simp [hF], hB, hns, hm2, ?_⟩
        intro A hA
        rcases List.mem_cons.mp hA with rfl | hA
        · exact Or.inr hm
        · exact hpre A hA

theorem lookupLevels_winner {r : Paths} {parts : List Str} {length n : Nat} {h : Handler}
    {ps : Params} (hl : lookupLevels r parts length n = some (h, ps)) :
    (h = none ∧ ps = []) ∨
      ∃ l, 0 < l ∧ l ≤ n ∧
        lookupRecords parts l length (r.fieldsGet l) = some (some (h, ps)) := by
  induction n with
  | zero =>
    simp only [lookupLevels, Option.some.injEq, Prod.mk.injEq] at hl
    exact Or.inl ⟨hl.1.symm, hl.2.symm⟩
  | succ n ih =>
    simp only [lookupLevels] at hl
    split at hl
    · split at hl
      · simp only [Option.some.injEq, Prod.mk.injEq] at hl
        exact Or.inl ⟨hl.1.symm, hl.2.symm⟩
      · rcases ih hl with h0 | ⟨l, h1, h2, h3⟩
        · exact Or.inl h0
        · exact Or.inr ⟨l, h1, by omega, h3⟩
    · split at hl
      · simp at hl
      · rename_i res hres
        simp only [Option.some.injEq] at hl
        subst hl
        exact Or.inr ⟨n + 1, by omega, le_refl _, hres⟩
      · rcases ih hl with h0 | ⟨l, h1, h2, h3⟩
        · exact Or.inl h0
        · exact Or.inr ⟨l, h1, by omega, h3⟩

theorem Lookup_winner {r : Paths} {url : Str} {h : Handler} {ps : Params}
    (hl : Lookup r url = some (h, ps)) :
    (r.staticGet (normalized url) = some h ∧ ps = []) ∨ (h = none ∧ ps = []) ∨
      ∃ l, 0 < l ∧
        lookupRecords (Splitter url) l ((Splitter url).length % 65536) (r.fieldsGet l)
          = some (some (h, ps)) := by
  unfold Lookup at hl
  simp only at hl
  split at hl
  · rename_i h2 hget
    simp only [Option.some.injEq, Prod.mk.injEq] at hl
    left
    exact ⟨by rw [← hl.1]; exact hget, hl.2.symm⟩
  · right
    split at hl
    · simp only [Option.some.injEq, Prod.mk.injEq] at hl
      exact Or.inl ⟨hl.1.symm, hl.2.symm⟩
    · split at hl
      · split at hl
        · simp only [Option.some.injEq, Prod.mk.injEq] at hl
          exact Or.inl ⟨hl.1.symm, hl.2.symm⟩
        · rcases lookupLevels_winner hl with h0 | ⟨l, h1, -, h3⟩
          · exact Or.inl h0
          · exact Or.inr ⟨l, h1, h3⟩
      · rcases lookupLevels_winner hl with h0 | ⟨l, h1, -, h3⟩
        · exact Or.inl h0
        · exact Or.inr ⟨l, h1, h3⟩

theorem stable_before {X F X1 X3 pre post : records} {A B : record} (hs : StableOf X F)
    (hX : X = X1 ++ B :: X3) (hu : ∀ C ∈ X1 ++ X3, C.handler ≠ B.handler)
    (hA : A ∈ X1 ++ X3)
    (hprio : A.params < B.params ∨ (A.params ≤ B.params ∧ A ∈ X1))
    (hF : F = pre ++ B :: post) : A ∈ pre := by
  obtain ⟨hperm, hsorted, hsub⟩ := hs
  have hAB : A ≠ B := fun h => hu A hA (by rw [h])
  have hBX1 : B ∉ X1 := fun h => hu B (List.mem_append_left _ h) rfl
  have hBX3 : B ∉ X3 := fun h => hu B (List.mem_append_right _ h) rfl
  have hcount : F.count B = 1 := by
    rw [hperm.count_eq, hX]
    simp [List.count_append, List.count_eq_zero_of_not_mem hBX1,
      List.count_eq_zero_of_not_mem hBX3]
  have hBpre : B ∉ pre := by
    intro h
    have h1 : 0 < pre.count B := List.count_pos_iff.mpr h
    rw [hF] at hcount
    simp [List.count_append] at hcount
    omega
  have hBpost : B ∉ post := by
    intro h
    have h1 : 0 < post.count B := List.count_pos_iff.mpr h
    rw [hF] at hcount
    simp [List.count_append] at hcount
    omega
  rcases hprio with hlt | ⟨hle, hA1⟩
  · have hAF : A ∈ F := hperm.mem_iff.mpr (by
      rw [hX]
      rcases List.mem_append.mp hA with h | h
      · exact List.mem_append_left _ h
      · exact List.mem_append_right _ (List.mem_cons_of_mem _ h))
    rw [hF] at hAF
    rcases List.mem_append.mp hAF with h | h
    · exact h
    · rcases List.mem_cons.mp h with h | h
      · exact absurd h hAB
      · exfalso
        rw [hF] at hsorted
        have h2 := (List.pairwise_append.mp hsorted).2.1
        have h3 := (List.pairwise_cons.mp h2).1 A h
        unfold recLE at h3
        omega
  · have hsubX : [A, B].Sublist X := by
      rw [hX]
      have h1 : [A].Sublist X1 := List.singleton_sublist.mpr hA1
      have h2 : [B].Sublist (B :: X3) := List.singleton_sublist.mpr (List.mem_cons_self _ _)
      exact List.Sublist.append h1 h2
    have hpw : [A, B].Pairwise recLE := by simp [recLE, hle]
    have hsubF := hsub _ hpw hsubX
    rw [hF] at hsubF
    obtain ⟨c1, c2, hc, h1, h2⟩ := List.sublist_append_iff.mp hsubF
    match c1, hc, h1 with
    | [], hc, _ =>
      simp only [List.nil_append] at hc
      subst hc
      exfalso
      cases h2 with
      | cons _ h3 => exact hBpost (h3.subset (by simp))
      | cons₂ _ h3 => exact hAB rfl
    | [a], hc, h1 =>
      simp only [List.singleton_append, List.cons.injEq] at hc
      rw [hc.1]
      exact List.singleton_sublist.mp h1
    | a :: b :: t, hc, h1 =>
      simp only [List.cons_append, List.cons.injEq] at hc
      exfalso
      apply hBpre
      rw [hc.2.1]
      exact h1.subset (by simp)

theorem mem_levelRecords {adds : List (Str × Handler)} {l : Nat} {rc : record}
    (h : rc ∈ levelRecords adds l) :
    ∃ x ∈ adds, addRecord x = some rc ∧ rc.parts.length % 65536 = l := by
  simp only [levelRecords, List.mem_filter, List.mem_filterMap, decide_eq_true_eq] at h
  obtain ⟨⟨x, hx, hrc⟩, hl⟩ := h
  exact ⟨x, hx, hrc, hl⟩

theorem addRecord_some {x : Str × Handler} {rc : record} (h : addRecord x = some rc) :
    rc.handler = x.2 ∧ rc.parts = Splitter x.1 ∧ patParams x.1 = some rc.params ∧
      rc.params ≠ 0 := by
  unfold addRecord at h
  split at h
  · rename_i p hp
    split at h
    · simp at h
    · rename_i hp0
      simp only [Option.some.injEq] at h
      subst h
      exact ⟨rfl, rfl, hp, hp0⟩
  · simp at h

theorem addRecord_of {x : Str × Handler} {p : Nat} (hp : patParams x.1 = some p) (hp0 : p ≠ 0) :
    addRecord x = some ⟨p, Splitter x.1, x.2⟩ := by
  simp [addRecord, hp, hp0]

theorem mem_levelRecords_of {adds : List (Str × Handler)} {x : Str × Handler} {p : Nat}
    (hx : x ∈ adds) (hp : patParams x.1 = some p) (hp0 : p ≠ 0) :
    (⟨p, Splitter x.1, x.2⟩ : record) ∈ levelRecords adds (patLevel x.1) := by
  simp only [levelRecords, List.mem_filter, List.mem_filterMap, decide_eq_true_eq]
  exact ⟨⟨x, hx, addRecord_of hp hp0⟩, rfl⟩

theorem handler_ne_none_of_addAll {r0 r : Paths} {a1 a3 : List (Str × Handler)} {p : Str}
    {h : Handler} (hadd : addAll r0 (a1 ++ (p, h) :: a3) = some r) : h ≠ none := by
  obtain ⟨r1, -, h2⟩ := addAll_append_some hadd
  obtain ⟨r2, h3, -⟩ := addAll_cons_some h2
  obtain ⟨_, _, -, hne, -⟩ := Add_ok h3
  exact hne

/-- The priority lemma: a record that stands behind a record `A` in the order
(smaller `params` first, then earlier registration) is never returned when `A`
is not rejected. -/
theorem later_never_wins {a1 a3 : List (Str × Handler)} {r : Paths} {p1 p2 : Str}
    {h1 h2 : Handler} {pA pB : Nat}
    (hadd : addAll Paths.empty (a1 ++ (p2, h2) :: a3) = some r)
    (huniq : ∀ x ∈ a1 ++ a3, x.2 ≠ h2)
    (hpB : patParams p2 = some pB) (hB0 : pB ≠ 0)
    (hmem : (p1, h1) ∈ a1 ++ a3) (hpA : patParams p1 = some pA) (hA0 : pA ≠ 0)
    (hlevel : patLevel p1 = patLevel p2)
    (hprio : pA < pB ∨ (pA ≤ pB ∧ (p1, h1) ∈ a1))
    (url : Str)
    (hskip : (patLevel p1 < (Splitter url).length % 65536 ∧ pA / 32768 ≠ 1) →
      (patLevel p1 < (Splitter url).length % 65536 ∧ pB / 32768 ≠ 1))
    (hmatch : matchParts (Splitter url) (Splitter p1) 0 [] = some MatchResult.mismatch →
      ∀ qs, matchParts (Splitter url) (Splitter p2) 0 [] ≠ some (MatchResult.matched qs))
    (ps : Params) : Lookup r url ≠ some (h2, ps) := by
  intro hl
  have hmemadds : ∀ x, x ∈ a1 ++ (p2, h2) :: a3 → x = (p2, h2) ∨ x ∈ a1 ++ a3 := by
    intro x hx
    simp only [List.mem_append, List.mem_cons] at hx ⊢
    tauto
  rcases Lookup_winner hl with ⟨hget, -⟩ | ⟨hnone, -⟩ | ⟨l, -, hrec⟩
  · obtain ⟨x, hx, hx2, hx0⟩ := static_inv hadd _ _ hget
    rcases hmemadds x hx with rfl | hx
    · rw [hpB] at hx0
      simp only [Option.some.injEq] at hx0
      exact hB0 hx0
    · exact huniq x hx hx2
  · exact handler_ne_none_of_addAll hadd hnone
  · obtain ⟨pre, B, post, hF, hBh, hns, hBm, hpre⟩ := lookupRecords_winner hrec
    have hst := fields_inv hadd l
    have hBF : B ∈ r.fieldsGet l := by rw [hF]; simp
    obtain ⟨x, hx, hxrec, hxl⟩ := mem_levelRecords (hst.1.mem_iff.mp hBF)
    obtain ⟨hxh, hxparts, hxp, -⟩ := addRecord_some hxrec
    have hxeq : x = (p2, h2) := by
      rcases hmemadds x hx with rfl | hx
      · rfl
      · exact absurd (hxh.symm.trans hBh) (huniq x hx)
    subst hxeq
    simp only at hxh hxparts hxp
    rw [hpB] at hxp
    simp only [Option.some.injEq] at hxp
    have hl : l = patLevel p2 := by rw [← hxl, hxparts]; rfl
    have hBeq : B = ⟨pB, Splitter p2, h2⟩ := by
      cases B
      simp only at hxh hxparts hxp
      simp [hxh, hxparts, hxp]
    have hXsplit : levelRecords (a1 ++ (p2, h2) :: a3) l
        = levelRecords a1 l ++ B :: levelRecords a3 l := by
      have : (p2, h2) :: a3 = [(p2, h2)] ++ a3 := rfl
      rw [this, levelRecords_append, levelRecords_append]
      have h1 : levelRecords [(p2, h2)] l = [B] := by
        simp [levelRecords, addRecord, hpB, hB0, hBeq, hl, patLevel]
      rw [h1]
      rfl
    have hu : ∀ C ∈ levelRecords a1 l ++ levelRecords a3 l, C.handler ≠ B.handler := by
      intro C hC
      rw [← levelRecords_append] at hC
      obtain ⟨y, hy, hyrec, -⟩ := mem_levelRecords hC
      rw [(addRecord_some hyrec).1, hBh]
      exact huniq y hy
    have hAmem : (⟨pA, Splitter p1, h1⟩ : record) ∈ levelRecords a1 l ++ levelRecords a3 l := by
      rw [← levelRecords_append, hl, ← hlevel]
      exact mem_levelRecords_of (x := (p1, h1)) hmem hpA hA0
    have hprio2 : (⟨pA, Splitter p1, h1⟩ : record).params < B.params ∨
        ((⟨pA, Splitter p1, h1⟩ : record).params ≤ B.params ∧
          (⟨pA, Splitter p1, h1⟩ : record) ∈ levelRecords a1 l) := by
      rw [hBeq]
      rcases hprio with h | ⟨h, hm⟩
      · exact Or.inl h
      · refine Or.inr ⟨h, ?_⟩
        rw [hl, ← hlevel]
        exact mem_levelRecords_of (x := (p1, h1)) hm hpA hA0
    have hApre := stable_before hst hXsplit hu hAmem hprio2 hF
    rcases hpre _ hApre with hsk | hmm
    · apply hns
      simp only at hsk
      rw [hl, ← hlevel, hBeq]
      rw [hl, ← hlevel] at hsk
      exact hskip hsk
    · rw [hBeq] at hBm
      exact hmatch hmm ps hBm

theorem lor_flag (p : Nat) (hp : p < 32768) : p ||| 32768 = p + 32768 := by
  have h := Nat.mul_add_lt_is_or (i := 15) (b := p) (by norm_num; exact hp) 1
  rw [Nat.lor_comm]
  norm_num at h
  omega

theorem matchParts_of_agree (parts ps : List Str) (i : Nat) (acc : Params)
    (h : staticAgree ps (parts.drop i) = true) :
    matchParts parts ps i acc ≠ some MatchResult.mismatch := by
  induction ps generalizing i acc with
  | nil => simp [matchParts]
  | cons part rest ih =>
    cases part with
    | nil => simp [matchParts]
    | cons c tl =>
      simp only [matchParts]
      by_cases h1 : c = ':'
      · simp only [h1, if_true]
        cases hq : parts[i]? with
        | none => simp
        | some q =>
          simp only
          apply ih
          have hi : i < parts.length := by
            by_contra hlt
            rw [List.getElem?_eq_none (by omega)] at hq
            simp at hq
          rw [List.drop_eq_getElem_cons hi] at h
          subst h1
          simp only [staticAgree] at h
          have hc : isCatchAll (':' :: tl) = false := by
            simp [isCatchAll, CatchAllParamFlag]
          rw [if_neg (by simp [hc])] at h
          simp only [Bool.and_eq_true] at h
          exact h.2
      · simp only [h1, if_false]
        by_cases h2 : c = '*'
        · simp only [h2, if_true]
          split <;> simp
        · simp only [h2, if_false]
          cases hq : parts[i]? with
          | none => simp
          | some q =>
            simp only
            have hi : i < parts.length := by
              by_contra hlt
              rw [List.getElem?_eq_none (by omega)] at hq
              simp at hq
            have hqe : parts[i] = q := by
              rw [List.getElem?_eq_getElem hi] at hq
              simpa using hq
            rw [List.drop_eq_getElem_cons hi, hqe] at h
            simp only [staticAgree] at h
            have hc : isCatchAll (c :: tl) = false := by
              simp [isCatchAll, CatchAllParamFlag, h2]
            have hn : isNamed (c :: tl) = false := by
              simp [isNamed, NamedParamFlag, h1]
            rw [if_neg (by simp [hc])] at h
            simp only [hn, Bool.false_or, Bool.and_eq_true, decide_eq_true_eq] at h
            rw [if_neg (by simp [h.1])]
            exact ih _ _ h.2

theorem scanParts_bounded (level : Nat) (hlevel : level ≤ 32767) (ps : List Str)
    (i p ca q ca2 : Nat) (hi : i + ps.length = level) (hp : p + ps.length ≤ 32767)
    (h : scanParts NamedParamFlag CatchAllParamFlag level ps i p ca = (some q, ca2)) :
    q = p + namedCount ps + (if hasCatchAll ps = true then 32768 else 0) := by
  induction ps generalizing i p ca with
  | nil =>
    simp only [scanParts, Prod.mk.injEq, Option.some.injEq] at h
    simp [namedCount, hasCatchAll, h.1]
  | cons s rest ih =>
    simp only [List.length_cons] at hi hp
    cases s with
    | nil =>
      simp only [scanParts] at h
      have := ih (i + 1) p ca (by omega) (by omega) h
      simpa [namedCount, hasCatchAll, isNamed, isCatchAll] using this
    | cons c tl =>
      simp only [scanParts] at h
      by_cases h1 : c = NamedParamFlag
      · simp only [h1, if_true] at h
        have hmod : (p + 1) % 65536 = p + 1 := Nat.mod_eq_of_lt (by omega)
        rw [hmod] at h
        have := ih (i + 1) (p + 1) ca (by omega) (by omega) h
        subst h1
        have hn : isNamed (NamedParamFlag :: tl) = true := by simp [isNamed]
        have hc : isCatchAll (NamedParamFlag :: tl) = false := by
          simp [isCatchAll, NamedParamFlag, CatchAllParamFlag]
        rw [this]
        simp only [namedCount, hasCatchAll, List.countP_cons, hn, if_true, List.any_cons, hc,
          Bool.false_or]
        omega
      · simp only [h1, if_false] at h
        have hn : isNamed (c :: tl) = false := by simp [isNamed, h1]
        by_cases h2 : c = CatchAllParamFlag
        · simp only [h2, if_true] at h
          split at h
          · simp at h
          · rename_i hidx
            have hidx2 : i % 65536 = (level + 65535) % 65536 := by
              by_contra hne
              exact hidx hne
            have hrest : rest = [] := by
              apply List.eq_nil_of_length_eq_zero
              omega
            subst hrest
            simp only [scanParts, Prod.mk.injEq, Option.some.injEq] at h
            have hc : isCatchAll (c :: tl) = true := by simp [isCatchAll, h2]
            rw [← h.1, lor_flag p (by omega)]
            simp [namedCount, hasCatchAll, hn, hc]
        · simp only [h2, if_false] at h
          have hc : isCatchAll (c :: tl) = false := by simp [isCatchAll, h2]
          have := ih (i + 1) p ca (by omega) (by omega) h
          rw [this]
          simp [namedCount, hasCatchAll, List.countP_cons, hn, hc]

theorem patParams_bounded {url : Str} {q : Nat} (hlen : (Splitter url).length ≤ 32767)
    (h : patParams url = some q) :
    q = namedCount (Splitter url) + (if hasCatchAll (Splitter url) = true then 32768 else 0) := by
  unfold patParams at h
  have hl : patLevel url = (Splitter url).length := Nat.mod_eq_of_lt (by omega)
  rw [hl] at h
  have h2 : scanParts NamedParamFlag CatchAllParamFlag (Splitter url).length (Splitter url) 0 0 0
      = (some q, (scanParts NamedParamFlag CatchAllParamFlag (Splitter url).length
          (Splitter url) 0 0 0).2) := by
    rw [← h]
  have := scanParts_bounded _ hlen _ 0 0 0 q _ (by omega) (by omega) h2
  simpa using this

theorem namedCount_le (ps : List Str) : namedCount ps ≤ ps.length := List.countP_le_length _

theorem Add_of_mem {r0 r : Paths} {adds : List (Str × Handler)} {x : Str × Handler}
    (hadd : addAll r0 adds = some r) (hx : x ∈ adds) :
    ∃ ra rb, Add ra x.1 x.2 = (rb, none) := by
  obtain ⟨a1, a3, rfl⟩ := List.append_of_mem hx
  obtain ⟨r1, -, h2⟩ := addAll_append_some hadd
  obtain ⟨r2, h3, -⟩ := addAll_cons_some h2
  exact ⟨r1, r2, h3⟩

theorem parameterized_of_not_static (ps : List Str) (h : isStaticPattern ps = false) :
    0 < namedCount ps ∨ hasCatchAll ps = true := by
  induction ps with
  | nil => simp [isStaticPattern] at h
  | cons s rest ih =>
    simp only [isStaticPattern, List.all_cons, Bool.and_eq_false_iff] at h
    simp only [namedCount, hasCatchAll, List.countP_cons, List.any_cons, Bool.or_eq_true]
    rcases h with h | h
    · rcases h with h | h
      · left
        have : isNamed s = true := by simpa using h
        simp [this]
      · right
        left
        simpa using h
    · have h2 : isStaticPattern rest = false := by simpa [isStaticPattern] using h
      rcases ih h2 with h3 | h3
      · left
        simp only [namedCount] at h3
        omega
      · right
        right
        simpa [hasCatchAll] using h3

/-! ### Evaluation on long segment lists -/

theorem Add_param_eval (r : Paths) (url : Str) (v level params ca : Nat)
    (hlevel : (Splitter url).length % 65536 = level) (hle : level ≤ 32767)
    (hscan : scanParts NamedParamFlag CatchAllParamFlag level (Splitter url) 0 0 r.catchAll
      = (some params, ca)) (hp : params ≠ 0) :
    Add r url (some v) = ({ r with
        catchAll := ca
        maxParts := if r.maxParts < level then level else r.maxParts
        fields := some (mapSet (r.fields.getD []) level
          (sortStable ((mapGet (r.fields.getD []) level).getD []
            ++ [⟨params, Splitter url, some v⟩]))) }, none) := by
  unfold Add
  simp only [hlevel]
  rw [if_neg (by omega), hscan]
  simp only [hp, if_false]

theorem splitAfter_no_delim (s : Str) (h : PathDelimeter ∉ s) : splitAfter s = [s] := by
  induction s with
  | nil => rfl
  | cons c cs ih =>
    simp only [List.mem_cons, not_or] at h
    have hc : c ≠ PathDelimeter := fun e => h.1 e.symm
    simp [splitAfter, hc, ih h.2]

theorem splitAfter_body (body t : Str) (h : PathDelimeter ∉ body) :
    splitAfter (body ++ PathDelimeter :: t) = (body ++ [PathDelimeter]) :: splitAfter t := by
  induction body with
  | nil => simp [splitAfter]
  | cons c cs ih =>
    simp only [List.mem_cons, not_or] at h
    have hc : c ≠ PathDelimeter := fun e => h.1 e.symm
    simp [splitAfter, hc, ih h.2]

theorem splitAfter_flatten (init : List Str) (last : Str)
    (hinit : ∀ s ∈ init, ∃ body, s = body ++ [PathDelimeter] ∧ PathDelimeter ∉ body)
    (hlast : PathDelimeter ∉ last) :
    splitAfter (joinParts (init ++ [last])) = init ++ [last] := by
  induction init with
  | nil => simpa [joinParts] using splitAfter_no_delim last hlast
  | cons s init ih =>
    obtain ⟨body, hs, hb⟩ := hinit s (List.mem_cons_self _ _)
    have ih2 := ih (fun t ht => hinit t (List.mem_cons_of_mem _ ht))
    subst hs
    simp only [joinParts, List.cons_append, List.flatten_cons, List.append_assoc,
      List.singleton_append] at ih2 ⊢
    rw [splitAfter_body _ _ hb, List.nil_append, ih2]

theorem Splitter_urlOf (init : List Str) (last : Str)
    (hinit : ∀ s ∈ init, ∃ body, s = body ++ [PathDelimeter] ∧ PathDelimeter ∉ body)
    (hlast : PathDelimeter ∉ last) :
    Splitter (urlOf (init ++ [last])) = init ++ [last] := by
  simp only [Splitter, urlOf, trimLeading, if_true]
  exact splitAfter_flatten init last hinit hlast

theorem scanParts_append_static (level : Nat) (pre rest : List Str) (i params ca : Nat)
    (hs : isStaticPattern pre = true) :
    scanParts NamedParamFlag CatchAllParamFlag level (pre ++ rest) i params ca
      = scanParts NamedParamFlag CatchAllParamFlag level rest (i + pre.length) params ca := by
  induction pre generalizing i with
  | nil => simp
  | cons s pre ih =>
    simp only [isStaticPattern, List.all_cons, Bool.and_eq_true] at hs
    have hrest : isStaticPattern pre = true := by simpa [isStaticPattern] using hs.2
    have e : i + (s :: pre).length = i + 1 + pre.length := by simp; omega
    rw [e]
    cases s with
    | nil => simp [scanParts, ih _ hrest]
    | cons c tl =>
      have h1 : c ≠ NamedParamFlag := by
        have := hs.1.1
        simpa [isNamed] using this
      have h2 : c ≠ CatchAllParamFlag := by
        have := hs.1.2
        simpa [isCatchAll] using this
      simp [scanParts, h1, h2, ih _ hrest]

theorem scanParts_append_named (level : Nat) (pre rest : List Str) (i params ca : Nat)
    (hp : params < 65536) (hs : ∀ s ∈ pre, isNamed s = true) :
    scanParts NamedParamFlag CatchAllParamFlag level (pre ++ rest) i params ca
      = scanParts NamedParamFlag CatchAllParamFlag level rest (i + pre.length)
          ((params + pre.length) % 65536) ca := by
  induction pre generalizing i params with
  | nil => simp [Nat.mod_eq_of_lt hp]
  | cons s pre ih =>
    have hrest : ∀ t ∈ pre, isNamed t = true := fun t ht => hs t (List.mem_cons_of_mem _ ht)
    have e : i + (s :: pre).length = i + 1 + pre.length := by simp; omega
    rw [e]
    have hsn := hs s (List.mem_cons_self _ _)
    cases s with
    | nil => simp [isNamed] at hsn
    | cons c tl =>
      have h1 : c = NamedParamFlag := by simpa [isNamed] using hsn
      simp only [List.cons_append, scanParts, h1, if_true, List.append_eq]
      rw [ih _ _ (Nat.mod_lt _ (by norm_num)) hrest]
      congr 1
      simp only [List.length_cons]
      omega

/-- the loop of `Lookup` walks over a run of static segments that the query
repeats at the same place -/
theorem matchParts_append_static (done pre qrest prest : List Str) (acc : Params)
    (hs : ∀ s ∈ pre, s ≠ [] ∧ isNamed s = false ∧ isCatchAll s = false) :
    matchParts (done ++ (pre ++ qrest)) (pre ++ prest) done.length acc
      = matchParts (done ++ (pre ++ qrest)) prest (done.length + pre.length) acc := by
  induction pre generalizing done with
  | nil => simp
  | cons s pre ih =>
    obtain ⟨hne, hn, hc⟩ := hs s (List.mem_cons_self _ _)
    have hrest := fun t ht => hs t (List.mem_cons_of_mem _ ht)
    cases s with
    | nil => exact absurd rfl hne
    | cons c tl =>
      have h1 : c ≠ ':' := by
        have : c ≠ NamedParamFlag := by simpa [isNamed] using hn
        exact this
      have h2 : c ≠ '*' := by
        have : c ≠ CatchAllParamFlag := by simpa [isCatchAll] using hc
        exact this
      have hget : (done ++ (c :: tl) :: (pre ++ qrest))[done.length]? = some (c :: tl) := by
        rw [List.getElem?_append_right (le_refl _)]
        simp
      simp only [List.cons_append, matchParts, h1, h2, if_false, hget, ne_eq,
        not_true_eq_false, List.append_eq]
      have := ih (done ++ [c :: tl]) hrest
      simp only [List.append_assoc, List.singleton_append, List.length_append,
        List.length_singleton, List.cons_append, List.nil_append] at this
      rw [this]
      simp only [List.length_cons]
      congr 1
      omega

theorem isStaticPattern_replicate (n : Nat) (s : Str) (h1 : isNamed s = false)
    (h2 : isCatchAll s = false) : isStaticPattern (List.replicate n s) = true := by
  simp only [isStaticPattern, List.all_eq_true, Bool.and_eq_true, Bool.not_eq_true']
  intro t ht
  rw [List.eq_of_mem_replicate ht]
  exact ⟨h1, h2⟩

theorem isStaticPattern_append (a b : List Str) :
    isStaticPattern (a ++ b) = (isStaticPattern a && isStaticPattern b) := by
  simp [isStaticPattern, List.all_append]

theorem wellSplit_replicate (n : Nat) (body : Str) (hb : PathDelimeter ∉ body) :
    ∀ s ∈ List.replicate n (body ++ [PathDelimeter]),
      ∃ b, s = b ++ [PathDelimeter] ∧ PathDelimeter ∉ b := by
  intro s hs
  exact ⟨body, List.eq_of_mem_replicate hs, hb⟩

theorem Splitter_twoCatchAllsN (n : Nat) : Splitter (urlOf (twoCatchAllsN n)) = twoCatchAllsN n := by
  have e : twoCatchAllsN n = ("*a/".toList :: List.replicate n "x/".toList) ++ ["*b".toList] := rfl
  rw [e]
  apply Splitter_urlOf
  · intro s hs
    rcases List.mem_cons.mp hs with h | h
    · exact ⟨"*a".toList, by rw [h]; rfl, by decide⟩
    · exact wellSplit_replicate n "x".toList (by decide) s h
  · decide

set_option maxRecDepth 10000 in
theorem Add_twoCatchAllsN (n : Nat) (h : (n + 2) % 65536 = 1) :
    Add Paths.empty (urlOf (twoCatchAllsN n)) (some 7)
      = (⟨none, some [(1, [⟨32768, twoCatchAllsN n, some 7⟩])], 1, 1⟩, none) := by
  have hlen : (twoCatchAllsN n).length = n + 2 := by simp [twoCatchAllsN]
  have h0 : (1 + n) % 65536 = 0 := by omega
  have hscan : scanParts NamedParamFlag CatchAllParamFlag 1 (twoCatchAllsN n) 0 0 0
      = (some 32768, 1) := by
    simp only [twoCatchAllsN]
    rw [show "*a/".toList = '*' :: "a/".toList from rfl]
    simp only [scanParts]
    rw [if_neg (by decide), if_pos (by decide), if_neg (by decide)]
    rw [scanParts_append_static _ _ _ _ _ _
      (isStaticPattern_replicate n _ (by decide) (by decide))]
    rw [show "*b".toList = '*' :: "b".toList from rfl]
    simp only [scanParts, List.length_replicate]
    rw [if_neg (by decide), if_pos (by decide), if_neg (by simp [h0])]
    simp
  rw [Add_param_eval _ _ 7 1 32768 1 (by rw [Splitter_twoCatchAllsN, hlen, h]) (by norm_num)
    (by rw [Splitter_twoCatchAllsN]; exact hscan) (by norm_num), Splitter_twoCatchAllsN]
  rfl

theorem Lookup_twoCatchAllsN (n : Nat) :
    Lookup ⟨none, some [(1, [⟨32768, twoCatchAllsN n, some 7⟩])], 1, 1⟩ "/foo".toList
      = some (some 7, [⟨"a/".toList, "foo".toList⟩]) := by
  rfl

theorem length_twoCatchAllsN (n : Nat) : (twoCatchAllsN n).length = n + 2 := by
  simp [twoCatchAllsN]

theorem getLast_twoCatchAllsN (n : Nat) : (twoCatchAllsN n).getLast? = some "*b".toList := by
  simp [twoCatchAllsN, List.getLast?_cons, List.getLast?_append]

theorem staticAgree_replicate_append (n : Nat) (s t : Str) (ps qs : List Str)
    (hs : isCatchAll s = false) (hst : isNamed s = true ∨ s = t) :
    staticAgree (List.replicate n s ++ ps) (List.replicate n t ++ qs) = staticAgree ps qs := by
  induction n with
  | zero => simp
  | succ n ih =>
    simp only [List.replicate_succ, List.cons_append, staticAgree, hs, Bool.false_eq_true,
      if_false, List.append_eq]
    rw [ih]
    rcases hst with h | h
    · simp [h]
    · simp [h]

theorem hasCatchAll_replicate_append (n : Nat) (s : Str) (ps : List Str)
    (hs : isCatchAll s = false) :
    hasCatchAll (List.replicate n s ++ ps) = hasCatchAll ps := by
  induction n with
  | zero => simp
  | succ n ih =>
    simp only [hasCatchAll, List.replicate_succ, List.cons_append, List.any_cons, hs,
      Bool.false_or] at ih ⊢
    exact ih

theorem namedCount_replicate_append (n : Nat) (s : Str) (ps : List Str) :
    namedCount (List.replicate n s ++ ps) = (if isNamed s = true then n else 0) + namedCount ps := by
  induction n with
  | zero => simp
  | succ n ih =>
    simp only [namedCount, List.replicate_succ, List.cons_append, List.countP_cons] at ih ⊢
    rw [ih]
    by_cases hh : isNamed s = true
    · simp only [hh, if_true]
      omega
    · have hf : isNamed s = false := by simpa using hh
      simp [hf]

theorem wellSplit_two (n m : Nat) (b1 b2 : Str) (h1 : PathDelimeter ∉ b1)
    (h2 : PathDelimeter ∉ b2) :
    ∀ s ∈ List.replicate n (b1 ++ [PathDelimeter]) ++ List.replicate m (b2 ++ [PathDelimeter]),
      ∃ b, s = b ++ [PathDelimeter] ∧ PathDelimeter ∉ b := by
  intro s hs
  rcases List.mem_append.mp hs with h | h
  · exact wellSplit_replicate n b1 h1 s h
  · exact wellSplit_replicate m b2 h2 s h

theorem Splitter_manyNamedN (n m : Nat) :
    Splitter (urlOf (manyNamedN n m)) = manyNamedN n m := by
  unfold manyNamedN
  rw [← List.append_assoc]
  exact Splitter_urlOf _ _ (wellSplit_two n m ":p".toList "x".toList (by decide) (by decide))
    (by decide)

theorem Splitter_longCatchAllN (n m : Nat) :
    Splitter (urlOf (longCatchAllN n m)) = longCatchAllN n m := by
  unfold longCatchAllN
  rw [← List.append_assoc]
  exact Splitter_urlOf _ _ (wellSplit_two n m "x".toList "x".toList (by decide) (by decide))
    (by decide)

theorem Splitter_longQueryN (n m : Nat) :
    Splitter (urlOf (longQueryN n m)) = longQueryN n m := by
  unfold longQueryN
  rw [← List.append_assoc]
  exact Splitter_urlOf _ _ (wellSplit_two n m "x".toList "x".toList (by decide) (by decide))
    (by decide)

theorem length_manyNamedN (n m : Nat) : (manyNamedN n m).length = n + m + 1 := by
  simp [manyNamedN]; omega

theorem length_longCatchAllN (n m : Nat) : (longCatchAllN n m).length = n + m + 1 := by
  simp [longCatchAllN]; omega

theorem length_longQueryN (n m : Nat) : (longQueryN n m).length = n + m + 1 := by
  simp [longQueryN]; omega

theorem Add_manyNamedN (n m : Nat) (h : (n + m + 1) % 65536 = 1) (hn : n % 65536 = 32769) :
    Add Paths.empty (urlOf (manyNamedN n m)) (some 1)
      = (⟨none, some [(1, [⟨32769, manyNamedN n m, some 1⟩])], 1, 0⟩, none) := by
  have hscan : scanParts NamedParamFlag CatchAllParamFlag 1 (manyNamedN n m) 0 0 0
      = (some 32769, 0) := by
    unfold manyNamedN
    rw [scanParts_append_named _ _ _ _ _ _ (by norm_num)
      (fun s hs => by rw [List.eq_of_mem_replicate hs]; decide)]
    rw [scanParts_static]
    · simp [hn]
    · rw [isStaticPattern_append,
        isStaticPattern_replicate m "x/".toList (by decide) (by decide)]
      decide
  rw [Add_param_eval _ _ 1 1 32769 0 (by rw [Splitter_manyNamedN, length_manyNamedN, h])
    (by norm_num) (by rw [Splitter_manyNamedN]; exact hscan) (by norm_num), Splitter_manyNamedN]
  rfl

theorem Add_longCatchAllN (n m : Nat) (h : (n + m + 1) % 65536 = 1) :
    Add ⟨none, some [(1, [⟨32769, manyNamedN n m, some 1⟩])], 1, 0⟩
        (urlOf (longCatchAllN n m)) (some 2)
      = (⟨none, some [(1, [⟨32768, longCatchAllN n m, some 2⟩,
            ⟨32769, manyNamedN n m, some 1⟩])], 1, 1⟩, none) := by
  have h0 : (n + m) % 65536 = 0 := by omega
  have hscan : scanParts NamedParamFlag CatchAllParamFlag 1 (longCatchAllN n m) 0 0 0
      = (some 32768, 1) := by
    unfold longCatchAllN
    rw [scanParts_append_static _ _ _ _ _ _
      (isStaticPattern_replicate n _ (by decide) (by decide))]
    rw [scanParts_append_static _ _ _ _ _ _
      (isStaticPattern_replicate m _ (by decide) (by decide))]
    rw [show "*w".toList = '*' :: "w".toList from rfl]
    simp only [scanParts, List.length_replicate]
    rw [if_neg (by decide), if_pos (by decide), if_neg (by simp [h0])]
    simp
  rw [Add_param_eval _ _ 2 1 32768 1 (by rw [Splitter_longCatchAllN, length_longCatchAllN, h])
    (by norm_num) (by rw [Splitter_longCatchAllN]; exact hscan) (by norm_num),
    Splitter_longCatchAllN]
  rfl

theorem Lookup_longQueryN (n m : Nat) (h : (n + m + 1) % 65536 = 1) :
    Lookup ⟨none, some [(1, [⟨32768, longCatchAllN n m, some 2⟩,
            ⟨32769, manyNamedN n m, some 1⟩])], 1, 1⟩ (urlOf (longQueryN n m))
      = some (some 2, [⟨"w".toList, "z".toList⟩]) := by
  have hm : matchParts (longQueryN n m) (longCatchAllN n m) 0 []
      = some (MatchResult.matched [⟨"w".toList, "z".toList⟩]) := by
    have e1 : longQueryN n m = [] ++ ((List.replicate n "x/".toList ++ List.replicate m "x/".toList)
        ++ ["z".toList]) := by rw [longQueryN, List.nil_append, List.append_assoc]
    have e2 : longCatchAllN n m = (List.replicate n "x/".toList ++ List.replicate m "x/".toList)
        ++ ["*w".toList] := by rw [longCatchAllN, List.append_assoc]
    rw [e1, e2]
    have := matchParts_append_static [] (List.replicate n "x/".toList ++ List.replicate m "x/".toList)
      ["z".toList] ["*w".toList] []
      (fun s hs => by
        have : s = "x/".toList := by
          rcases List.mem_append.mp hs with h | h <;> exact List.eq_of_mem_replicate h
        rw [this]; decide)
    simp only [List.length_nil] at this
    rw [this]
    rw [show "*w".toList = '*' :: "w".toList from rfl]
    simp only [matchParts]
    rw [if_neg (by decide), if_pos (by decide), if_pos (by simp)]
    simp [joinParts]
  unfold Lookup
  simp only [Splitter_longQueryN, length_longQueryN, h, Paths.staticGet]
  rw [if_neg (by norm_num)]
  simp only [lookupLevels, Paths.fieldsGet, mapGet, if_true, Option.getD_some, lookupRecords]
  rw [if_neg (by simp), if_neg (by simp), hm]

theorem Matches_manyNamedN (n m : Nat) : Matches (manyNamedN n m) (longQueryN n m) := by
  unfold Matches
  have hc : hasCatchAll (manyNamedN n m) = false := by
    unfold manyNamedN
    rw [hasCatchAll_replicate_append _ _ _ (by decide),
      hasCatchAll_replicate_append _ _ _ (by decide)]
    decide
  rw [hc]
  refine ⟨by simp [length_manyNamedN, length_longQueryN], ?_⟩
  unfold manyNamedN longQueryN
  rw [staticAgree_replicate_append _ _ _ _ _ (by decide) (Or.inl (by decide)),
    staticAgree_replicate_append _ _ _ _ _ (by decide) (Or.inr rfl)]
  decide

theorem Matches_longCatchAllN (n m : Nat) : Matches (longCatchAllN n m) (longQueryN n m) := by
  unfold Matches
  have hc : hasCatchAll (longCatchAllN n m) = true := by
    unfold longCatchAllN
    rw [hasCatchAll_replicate_append _ _ _ (by decide),
      hasCatchAll_replicate_append _ _ _ (by decide)]
    decide
  rw [hc]
  refine ⟨by simp [length_longCatchAllN, length_longQueryN], ?_⟩
  unfold longCatchAllN longQueryN
  rw [staticAgree_replicate_append _ _ _ _ _ (by decide) (Or.inr rfl),
    staticAgree_replicate_append _ _ _ _ _ (by decide) (Or.inr rfl)]
  decide

theorem hasCatchAll_manyNamedN (n m : Nat) : hasCatchAll (manyNamedN n m) = false := by
  unfold manyNamedN
  rw [hasCatchAll_replicate_append _ _ _ (by decide),
    hasCatchAll_replicate_append _ _ _ (by decide)]
  decide

theorem hasCatchAll_longCatchAllN (n m : Nat) : hasCatchAll (longCatchAllN n m) = true := by
  unfold longCatchAllN
  rw [hasCatchAll_replicate_append _ _ _ (by decide),
    hasCatchAll_replicate_append _ _ _ (by decide)]
  decide

theorem Splitter_wrapQueryN (n : Nat) : Splitter (urlOf (wrapQueryN n)) = wrapQueryN n := by
  have e : wrapQueryN n = ("a/".toList :: List.replicate n "x/".toList) ++ ["y".toList] := rfl
  rw [e]
  apply Splitter_urlOf
  · intro s hs
    rcases List.mem_cons.mp hs with h | h
    · exact ⟨"a".toList, by rw [h]; rfl, by decide⟩
    · exact wellSplit_replicate n "x".toList (by decide) s h
  · decide

theorem length_wrapQueryN (n : Nat) : (wrapQueryN n).length = n + 2 := by
  simp [wrapQueryN]

theorem built_catchAllRoutes :
    addAll Paths.empty catchAllRoutes = some (built catchAllRoutes) := by
  decide

theorem Lookup_wrapQueryN (n : Nat) (h : (n + 2) % 65536 = 1) :
    Lookup (built catchAllRoutes) (urlOf (wrapQueryN n))
      = some (some 0, [⟨"all".toList, joinParts (wrapQueryN n)⟩]) := by
  have hb : built catchAllRoutes = ⟨none, some [(1, [⟨32768, ["*all".toList], some 0⟩]),
      (2, [⟨32768, ["a/".toList, "*rest".toList], some 1⟩])], 2, 1⟩ := by decide
  rw [hb]
  unfold Lookup
  simp only [Splitter_wrapQueryN, length_wrapQueryN, h, Paths.staticGet]
  rw [if_neg (by norm_num)]
  simp only [lookupLevels, Paths.fieldsGet, mapGet, if_true, Option.getD_some, lookupRecords]
  rw [if_neg (by simp), if_neg (by simp)]
  rw [show "*all".toList = '*' :: "all".toList from rfl]
  simp only [matchParts]
  rw [if_neg (by decide), if_pos (by decide), if_pos (by simp)]
  simp

theorem Matches_wrapQueryN (n : Nat) :
    Matches (Splitter "/a/*rest".toList) (wrapQueryN n) := by
  have hs : Splitter "/a/*rest".toList = ["a/".toList, "*rest".toList] := by decide
  rw [hs]
  unfold Matches
  rw [if_pos (by decide)]
  refine ⟨by simp [length_wrapQueryN], ?_⟩
  simp only [wrapQueryN, staticAgree]
  rw [if_neg (by decide)]
  cases n <;> simp [List.replicate_succ, staticAgree] <;> decide

theorem Splitter_earlyN (n m : Nat) : Splitter (urlOf (earlyN n m)) = earlyN n m := by
  unfold earlyN
  rw [← List.append_assoc]
  exact Splitter_urlOf _ _ (wellSplit_two n m ":p".toList "x".toList (by decide) (by decide))
    (by decide)

theorem Splitter_lateN (n m : Nat) : Splitter (urlOf (lateN n m)) = lateN n m := by
  have e : lateN n m = ("*a/".toList :: (List.replicate n ":p/".toList
      ++ List.replicate m "x/".toList)) ++ ["z".toList] := by
    simp only [lateN, List.cons_append, List.append_assoc]
  rw [e]
  apply Splitter_urlOf
  · intro s hs
    rcases List.mem_cons.mp hs with h | h
    · exact ⟨"*a".toList, by rw [h]; rfl, by decide⟩
    · exact wellSplit_two n m ":p".toList "x".toList (by decide) (by decide) s h
  · decide

theorem length_earlyN (n m : Nat) : (earlyN n m).length = n + m + 1 := by
  simp [earlyN]; omega

theorem length_lateN (n m : Nat) : (lateN n m).length = n + m + 2 := by
  simp [lateN]; omega

theorem Add_earlyN (n m : Nat) (h : (n + m + 1) % 65536 = 1) (hn : n % 65536 = 32769) :
    Add Paths.empty (urlOf (earlyN n m)) (some 1)
      = (⟨none, some [(1, [⟨32769, earlyN n m, some 1⟩])], 1, 1⟩, none) := by
  have h0 : (n + m) % 65536 = 0 := by omega
  have hscan : scanParts NamedParamFlag CatchAllParamFlag 1 (earlyN n m) 0 0 0
      = (some 32769, 1) := by
    unfold earlyN
    rw [scanParts_append_named _ _ _ _ _ _ (by norm_num)
      (fun s hs => by rw [List.eq_of_mem_replicate hs]; decide)]
    rw [scanParts_append_static _ _ _ _ _ _
      (isStaticPattern_replicate m _ (by decide) (by decide))]
    rw [show "*w".toList = '*' :: "w".toList from rfl]
    simp only [scanParts, List.length_replicate, Nat.zero_add, hn]
    rw [if_neg (by decide), if_pos (by decide), if_neg (by simp [h0])]
    simp
  rw [Add_param_eval _ _ 1 1 32769 1 (by rw [Splitter_earlyN, length_earlyN, h])
    (by norm_num) (by rw [Splitter_earlyN]; exact hscan) (by norm_num), Splitter_earlyN]
  rfl

theorem Add_lateN (n m m2 : Nat) (h : (n + m2 + 2) % 65536 = 1) (hn : n % 65536 = 32769) :
    Add ⟨none, some [(1, [⟨32769, earlyN n m, some 1⟩])], 1, 1⟩ (urlOf (lateN n m2)) (some 2)
      = (⟨none, some [(1, [⟨1, lateN n m2, some 2⟩, ⟨32769, earlyN n m, some 1⟩])], 1, 1⟩,
          none) := by
  have hscan : scanParts NamedParamFlag CatchAllParamFlag 1 (lateN n m2) 0 0 1
      = (some 1, 1) := by
    unfold lateN
    rw [show "*a/".toList = '*' :: "a/".toList from rfl]
    simp only [scanParts]
    rw [if_neg (by decide), if_pos (by decide), if_neg (by decide)]
    rw [scanParts_append_named _ _ _ _ _ _ (by norm_num)
      (fun s hs => by rw [List.eq_of_mem_replicate hs]; decide)]
    rw [scanParts_static]
    · have e : ((0 ||| 32768) + (List.replicate n ":p/".toList).length) % 65536 = 1 := by
        simp only [List.length_replicate]
        have : (0 ||| 32768 : Nat) = 32768 := by decide
        rw [this]
        omega
      rw [e]
      simp
    · rw [isStaticPattern_append,
        isStaticPattern_replicate m2 "x/".toList (by decide) (by decide)]
      decide
  rw [Add_param_eval _ _ 2 1 1 1 (by rw [Splitter_lateN, length_lateN, h])
    (by norm_num) (by rw [Splitter_lateN]; exact hscan) (by norm_num), Splitter_lateN]
  rfl

theorem Lookup_lateN (n m m2 : Nat) (h : (n + m + 1) % 65536 = 1) :
    Lookup ⟨none, some [(1, [⟨1, lateN n m2, some 2⟩, ⟨32769, earlyN n m, some 1⟩])], 1, 1⟩
        (urlOf (longQueryN n m))
      = some (some 2, [⟨"a/".toList, joinParts (longQueryN n m)⟩]) := by
  unfold Lookup
  simp only [Splitter_longQueryN, length_longQueryN, h, Paths.staticGet]
  rw [if_neg (by norm_num)]
  simp only [lookupLevels, Paths.fieldsGet, mapGet, if_true, Option.getD_some, lookupRecords]
  rw [if_neg (by simp), if_neg (by simp)]
  simp only [lateN]
  rw [show "*a/".toList = '*' :: "a/".toList from rfl]
  simp only [matchParts]
  rw [if_neg (by decide), if_pos (by decide), if_pos (by simp)]
  simp

theorem Matches_earlyN (n m : Nat) : Matches (earlyN n m) (longQueryN n m) := by
  unfold Matches
  have hc : hasCatchAll (earlyN n m) = true := by
    unfold earlyN
    rw [hasCatchAll_replicate_append _ _ _ (by decide),
      hasCatchAll_replicate_append _ _ _ (by decide)]
    decide
  rw [hc]
  refine ⟨by simp [length_earlyN, length_longQueryN], ?_⟩
  unfold earlyN longQueryN
  rw [staticAgree_replicate_append _ _ _ _ _ (by decide) (Or.inl (by decide)),
    staticAgree_replicate_append _ _ _ _ _ (by decide) (Or.inr rfl)]
  decide

theorem hasCatchAll_earlyN (n m : Nat) : hasCatchAll (earlyN n m) = true := by
  unfold earlyN
  rw [hasCatchAll_replicate_append _ _ _ (by decide),
    hasCatchAll_replicate_append _ _ _ (by decide)]
  decide

theorem hasCatchAll_lateN (n m : Nat) : hasCatchAll (lateN n m) = true := by
  simp [lateN, hasCatchAll, isCatchAll, CatchAllParamFlag]

theorem namedCount_earlyN (n m : Nat) : namedCount (earlyN n m) = n := by
  unfold earlyN
  rw [namedCount_replicate_append, namedCount_replicate_append]
  simp [isNamed, NamedParamFlag, namedCount]

theorem namedCount_lateN (n m : Nat) : namedCount (lateN n m) = n := by
  unfold lateN
  have e : ∀ l : List Str, namedCount ("*a/".toList :: l) = namedCount l := by
    intro l
    simp [namedCount, List.countP_cons, isNamed, NamedParamFlag]
  rw [e, namedCount_replicate_append, namedCount_replicate_append]
  simp [isNamed, NamedParamFlag, namedCount]

theorem Add_static_eval (r : Paths) (url : Str) (v level ca : Nat)
    (hlevel : (Splitter url).length % 65536 = level) (hle : level ≤ 32767)
    (hscan : scanParts NamedParamFlag CatchAllParamFlag level (Splitter url) 0 0 r.catchAll
      = (some 0, ca)) :
    Add r url (some v) = ({ r with
        catchAll := ca
        static := some (mapSet (r.static.getD []) (joinParts (Splitter url)) (some v)) },
      none) := by
  unfold Add
  simp only [hlevel]
  rw [if_neg (by omega), hscan]
  simp only [if_true]

theorem Splitter_allNamedN (b : Str) (hb : PathDelimeter ∉ b) (n : Nat) :
    Splitter (urlOf (allNamedN (b ++ [PathDelimeter]) n)) = allNamedN (b ++ [PathDelimeter]) n :=
  Splitter_urlOf _ _ (wellSplit_replicate n b hb) (by decide)

theorem length_allNamedN (s : Str) (n : Nat) : (allNamedN s n).length = n + 1 := by
  simp [allNamedN]

theorem scanParts_allNamedN (s : Str) (hs : isNamed s = true) (n ca : Nat)
    (hn : n % 65536 = 0) :
    scanParts NamedParamFlag CatchAllParamFlag 1 (allNamedN s n) 0 0 ca = (some 0, ca) := by
  unfold allNamedN
  rw [scanParts_append_named _ _ _ _ _ _ (by norm_num)
    (fun t ht => by rw [List.eq_of_mem_replicate ht]; exact hs)]
  rw [scanParts_static _ _ _ _ _ (by decide)]
  simp [hn]

theorem joinParts_allNamedN_ne (n : Nat) :
    joinParts (allNamedN ":a/".toList (n + 1)) ≠ joinParts (allNamedN ":b/".toList (n + 1)) := by
  intro h
  simp only [joinParts, allNamedN, List.replicate_succ, List.cons_append, List.flatten_cons] at h
  have h2 := congrArg (fun l => l[1]?) h
  simp at h2

theorem Add_firstNamesN (n : Nat) (h : (n + 1) % 65536 = 1) :
    Add Paths.empty (urlOf (allNamedN ":a/".toList n)) (some 1)
      = (⟨some [(joinParts (allNamedN ":a/".toList n), some 1)], none, 0, 0⟩, none) := by
  have hs := Splitter_allNamedN ":a".toList (by decide) n
  have e : ":a".toList ++ [PathDelimeter] = ":a/".toList := rfl
  rw [e] at hs
  rw [Add_static_eval _ _ 1 1 0 (by rw [hs, length_allNamedN, h]) (by norm_num)
    (by rw [hs]; exact scanParts_allNamedN _ (by decide) n _ (by omega)), hs]
  rfl

theorem Add_otherNamesN (n : Nat) (h : (n + 1 + 1) % 65536 = 1) :
    Add ⟨some [(joinParts (allNamedN ":a/".toList (n + 1)), some 1)], none, 0, 0⟩
        (urlOf (allNamedN ":b/".toList (n + 1))) (some 2)
      = (⟨some [(joinParts (allNamedN ":a/".toList (n + 1)), some 1),
            (joinParts (allNamedN ":b/".toList (n + 1)), some 2)], none, 0, 0⟩, none) := by
  have hs := Splitter_allNamedN ":b".toList (by decide) (n + 1)
  have e : ":b".toList ++ [PathDelimeter] = ":b/".toList := rfl
  rw [e] at hs
  rw [Add_static_eval _ _ 2 1 0 (by rw [hs, length_allNamedN, h]) (by norm_num)
    (by rw [hs]; exact scanParts_allNamedN _ (by decide) (n + 1) _ (by omega)), hs]
  simp only [Option.getD_some, mapSet, joinParts_allNamedN_ne n, if_false]

theorem Lookup_otherNamesN (n : Nat) :
    Lookup ⟨some [(joinParts (allNamedN ":a/".toList (n + 1)), some 1),
            (joinParts (allNamedN ":b/".toList (n + 1)), some 2)], none, 0, 0⟩
        (urlOf (allNamedN ":b/".toList (n + 1))) = some (some 2, []) := by
  have hs := Splitter_allNamedN ":b".toList (by decide) (n + 1)
  have e : ":b".toList ++ [PathDelimeter] = ":b/".toList := rfl
  rw [e] at hs
  unfold Lookup
  simp only [hs, Paths.staticGet, mapGet, joinParts_allNamedN_ne n, if_false, if_true]

theorem Matches_allNamedN (n : Nat) :
    Matches (allNamedN ":a/".toList n) (allNamedN ":b/".toList n) := by
  unfold Matches
  have hc : hasCatchAll (allNamedN ":a/".toList n) = false := by
    unfold allNamedN
    rw [hasCatchAll_replicate_append _ _ _ (by decide)]
    decide
  rw [hc]
  refine ⟨by simp [length_allNamedN], ?_⟩
  unfold allNamedN
  rw [staticAgree_replicate_append _ _ _ _ _ (by decide) (Or.inl (by decide))]
  decide

theorem hasCatchAll_allNamedN (s : Str) (hs : isCatchAll s = false) (n : Nat) :
    hasCatchAll (allNamedN s n) = false := by
  unfold allNamedN
  rw [hasCatchAll_replicate_append _ _ _ hs]
  decide

theorem namedCount_allNamedN (s : Str) (hs : isNamed s = true) (n : Nat) :
    namedCount (allNamedN s n) = n := by
  unfold allNamedN
  rw [namedCount_replicate_append, if_pos hs]
  have h0 : namedCount ["z".toList] = 0 := by decide
  rw [h0]
  rfl

/-- A second instance of the wrapped counter, with both patterns in a per-count
list: `earlyPattern` and then `latePattern` are added; both
have 65537 segments, a catch-all segment and 32769 named parameters, and
`earlyPattern` matches the path `longQuery`.  Lookup returns the handler of the
pattern added later: its first segment `*a/` passes the truncated index test of
Add, and the 32769 increments that follow wrap its `params` to 1. -/
theorem wrapped_counter_shadows :
    Add Paths.empty (urlOf earlyPattern) (some 1) = (shadowRegistry0, none) ∧
    Add shadowRegistry0 (urlOf latePattern) (some 2) = (shadowRegistry, none) ∧
    Splitter (urlOf earlyPattern) = earlyPattern ∧ Splitter (urlOf latePattern) = latePattern ∧
    Splitter (urlOf longQuery) = longQuery ∧
    earlyPattern.length = latePattern.length ∧
    hasCatchAll earlyPattern = true ∧ hasCatchAll latePattern = true ∧
    namedCount earlyPattern = 32769 ∧ namedCount latePattern = 32769 ∧
    Matches earlyPattern longQuery ∧
    Lookup shadowRegistry (urlOf longQuery)
      = some (some 2, [⟨"a/".toList, joinParts longQuery⟩]) :=
  ⟨Add_earlyN 32769 32767 (by norm_num) (by norm_num),
    Add_lateN 32769 32767 32766 (by norm_num) (by norm_num),
    Splitter_earlyN _ _, Splitter_lateN _ _, Splitter_longQueryN _ _,
    (length_earlyN 32769 32767).trans (length_lateN 32769 32766).symm,
    hasCatchAll_earlyN _ _, hasCatchAll_lateN _ _,
    namedCount_earlyN _ _, namedCount_lateN _ _,
    Matches_earlyN _ _,
    Lookup_lateN 32769 32767 32766 (by norm_num)⟩

/-! ### Evaluation of the inputs of the claims on errors -/

theorem built_nameRoutes :
    addAll Paths.empty nameRoutes = some (built nameRoutes) := by decide

theorem Lookup_nameRoutes_wrapQueryN (n : Nat) (h : (n + 2) % 65536 = 1) :
    Lookup (built nameRoutes) (urlOf (wrapQueryN n))
      = some (some 1, [⟨"name".toList, "a".toList⟩]) := by
  have hb : built nameRoutes = ⟨none, some [(1, [⟨1, [":name".toList], some 1⟩])], 1, 0⟩ := by
    decide
  rw [hb]
  unfold Lookup
  simp only [Splitter_wrapQueryN, length_wrapQueryN, h, Paths.staticGet]
  rw [if_neg (by norm_num)]
  simp only [lookupLevels, Paths.fieldsGet, mapGet, if_true, Option.getD_some, lookupRecords]
  rw [if_neg (by simp), if_neg (by simp)]
  rw [show ":name".toList = ':' :: "name".toList from rfl]
  simp only [matchParts, wrapQueryN, if_true, List.getElem?_cons_zero]
  rfl

theorem Splitter_repeatTestN (n : Nat) : Splitter (urlOf (repeatTestN n)) = repeatTestN n :=
  Splitter_urlOf _ _ (wellSplit_replicate n "test".toList (by decide)) (by decide)

theorem length_repeatTestN (n : Nat) : (repeatTestN n).length = n + 1 := by
  simp [repeatTestN]

theorem urlOf_repeatTestN (n : Nat) :
    urlOf (repeatTestN n) = joinParts (List.replicate (n + 1) "/test".toList) := by
  induction n with
  | zero => rfl
  | succ n ih =>
    have e : urlOf (repeatTestN (n + 1)) = "/test".toList ++ urlOf (repeatTestN n) := by
      simp [urlOf, repeatTestN, joinParts, List.replicate_succ, PathDelimeter]
    rw [e, ih]
    simp [joinParts, List.replicate_succ]

theorem Add_repeatTestN (n : Nat) (h : (n + 1) % 65536 = 0) :
    Add Paths.empty (urlOf (repeatTestN n)) (some 999)
      = (⟨some [(joinParts (repeatTestN n), some 999)], none, 0, 0⟩, none) := by
  have hs := Splitter_repeatTestN n
  have hst : isStaticPattern (repeatTestN n) = true := by
    unfold repeatTestN
    rw [isStaticPattern_append, isStaticPattern_replicate n _ (by decide) (by decide)]
    decide
  rw [Add_static_eval _ _ 999 0 0 (by rw [hs, length_repeatTestN, h]) (by norm_num)
    (by rw [hs]; exact scanParts_static _ _ _ _ _ hst), hs]
  rfl

theorem Lookup_repeatTestN (n : Nat) :
    Lookup ⟨some [(joinParts (repeatTestN n), some 999)], none, 0, 0⟩ (urlOf (repeatTestN n))
      = some (some 999, []) := by
  unfold Lookup
  simp only [Splitter_repeatTestN, Paths.staticGet, mapGet, if_true]

theorem Add_overflow_eval (r : Paths) (url : Str) (v : Nat)
    (h : (Splitter url).length % 65536 > 32767) :
    Add r url (some v) = (r, some (AddError.pathOverflow (Splitter url).length)) := by
  unfold Add
  simp only [h, if_true]

theorem Splitter_starFirstN (n : Nat) : Splitter (urlOf (starFirstN n)) = starFirstN n := by
  have e : starFirstN n = ("*n/".toList :: List.replicate n "x/".toList) ++ ["y".toList] := rfl
  rw [e]
  apply Splitter_urlOf
  · intro s hs
    rcases List.mem_cons.mp hs with h | h
    · exact ⟨"*n".toList, by rw [h]; rfl, by decide⟩
    · exact wellSplit_replicate n "x".toList (by decide) s h
  · decide

theorem length_starFirstN (n : Nat) : (starFirstN n).length = n + 2 := by
  simp [starFirstN]

theorem Add_starFirstN (n : Nat) (h : (n + 2) % 65536 > 32767) :
    Add Paths.empty (urlOf (starFirstN n)) (some 1)
      = (Paths.empty, some (AddError.pathOverflow (n + 2))) := by
  rw [Add_overflow_eval _ _ 1 (by rw [Splitter_starFirstN, length_starFirstN]; exact h),
    Splitter_starFirstN, length_starFirstN]

theorem scanParts_star_not_last (level : Nat) (hlevel : level ≤ 32767) (ps : List Str)
    (i params ca j : Nat) (hi : i + ps.length = level) (hj : j + 1 < ps.length)
    (hstar : ∃ s, ps[j]? = some s ∧ isCatchAll s = true) :
    scanParts NamedParamFlag CatchAllParamFlag level ps i params ca = (none, ca) := by
  induction ps generalizing i params j with
  | nil => simp at hj
  | cons s rest ih =>
    simp only [List.length_cons] at hi hj
    have hnext : ∀ p2, j ≠ 0 →
        scanParts NamedParamFlag CatchAllParamFlag level rest (i + 1) p2 ca = (none, ca) := by
      intro p2 hj0
      obtain ⟨j2, rfl⟩ := Nat.exists_eq_succ_of_ne_zero hj0
      obtain ⟨t, ht, hc⟩ := hstar
      exact ih (i + 1) p2 j2 (by omega) (by omega) ⟨t, by simpa using ht, hc⟩
    cases s with
    | nil =>
      simp only [scanParts]
      apply hnext
      rintro rfl
      obtain ⟨t, ht, hc⟩ := hstar
      simp only [List.getElem?_cons_zero, Option.some.injEq] at ht
      subst ht
      simp [isCatchAll] at hc
    | cons c tl =>
      simp only [scanParts]
      by_cases h1 : c = NamedParamFlag
      · simp only [h1, if_true]
        apply hnext
        rintro rfl
        obtain ⟨t, ht, hc⟩ := hstar
        simp only [List.getElem?_cons_zero, Option.some.injEq] at ht
        subst ht
        simp [isCatchAll, h1, NamedParamFlag, CatchAllParamFlag] at hc
      · simp only [h1, if_false]
        by_cases h2 : c = CatchAllParamFlag
        · simp only [h2, if_true]
          rw [if_pos]
          have hr : 1 ≤ rest.length := by omega
          omega
        · simp only [h2, if_false]
          apply hnext
          rintro rfl
          obtain ⟨t, ht, hc⟩ := hstar
          simp only [List.getElem?_cons_zero, Option.some.injEq] at ht
          subst ht
          simp [isCatchAll, h2] at hc

/-! ### `Params.Get` -/

theorem Get_first (pre post : Params) (e : Param) (name : Str) (hk : e.Key = name)
    (hpre : ∀ x ∈ pre, x.Key ≠ name) : Params.Get (pre ++ e :: post) name = e.Value := by
  induction pre with
  | nil => simp [Params.Get, hk]
  | cons a pre ih =>
    have ha : a.Key ≠ name := hpre a (List.mem_cons_self _ _)
    simp only [List.cons_append, Params.Get, ha, if_false]
    exact ih (fun x hx => hpre x (List.mem_cons_of_mem _ hx))

theorem Get_absent (p : Params) (name : Str) (h : ∀ x ∈ p, x.Key ≠ name) :
    Params.Get p name = [] := by
  induction p with
  | nil => rfl
  | cons a p ih =>
    have ha : a.Key ≠ name := h a (List.mem_cons_self _ _)
    simp only [Params.Get, ha, if_false]
    exact ih (fun x hx => h x (List.mem_cons_of_mem _ hx))

theorem Get_of_nodup (p : Params) (hnd : (p.map Param.Key).Nodup) (e : Param) (he : e ∈ p) :
    Params.Get p e.Key = e.Value := by
  obtain ⟨pre, post, rfl⟩ := List.append_of_mem he
  apply Get_first _ _ _ _ rfl
  intro x hx hxe
  simp only [List.map_append, List.map_cons] at hnd
  have := (List.nodup_append.mp hnd).2.2
  exact this (List.mem_map_of_mem Param.Key hx) (by simp [hxe])

/-! ### The entries of the two maps and `Path` -/

theorem mem_mapSet {κ ν : Type} [DecidableEq κ] {m : List (κ × ν)} {k : κ} {v : ν}
    {e : κ × ν} (h : e ∈ mapSet m k v) : e ∈ m ∨ e = (k, v) := by
  induction m with
  | nil =>
    simp only [mapSet, List.mem_singleton] at h
    exact Or.inr h
  | cons a t ih =>
    obtain ⟨k1, v1⟩ := a
    simp only [mapSet] at h
    split at h
    · rcases List.mem_cons.mp h with h | h
      · exact Or.inr h
      · exact Or.inl (List.mem_cons_of_mem _ h)
    · rcases List.mem_cons.mp h with h | h
      · exact Or.inl (by rw [h]; exact List.mem_cons_self _ _)
      · rcases ih h with h | h
        · exact Or.inl (List.mem_cons_of_mem _ h)
        · exact Or.inr h

theorem mapGet_some_mem {κ ν : Type} [DecidableEq κ] {m : List (κ × ν)} {k : κ} {v : ν}
    (h : mapGet m k = some v) : (k, v) ∈ m := by
  induction m with
  | nil => simp [mapGet] at h
  | cons a t ih =>
    obtain ⟨k1, v1⟩ := a
    simp only [mapGet] at h
    split at h
    · rename_i hk
      simp only [Option.some.injEq] at h
      rw [hk, h]
      exact List.mem_cons_self _ _
    · exact List.mem_cons_of_mem _ (ih h)

theorem mem_fieldsGet {r : Paths} {l : Nat} {rc : record} (h : rc ∈ r.fieldsGet l) :
    ∃ e ∈ r.fields.getD [], e.1 = l ∧ rc ∈ e.2 := by
  unfold Paths.fieldsGet at h
  cases hf : r.fields with
  | none => simp [hf] at h
  | some m =>
    simp only [hf] at h
    cases hg : mapGet m l with
    | none => simp [hg] at h
    | some rs =>
      simp only [hg, Option.getD_some] at h
      exact ⟨(l, rs), by simpa using mapGet_some_mem hg, rfl, h⟩

theorem Add_failed_maps {r r1 : Paths} {url : Str} {h : Handler} {e : AddError}
    (hadd : Add r url h = (r1, some e)) : r1.static = r.static ∧ r1.fields = r.fields := by
  unfold Add at hadd
  cases h with
  | none =>
    simp only [Prod.mk.injEq] at hadd
    rw [← hadd.1]
    exact ⟨rfl, rfl⟩
  | some v =>
    simp only at hadd
    split at hadd
    · simp only [Prod.mk.injEq] at hadd
      rw [← hadd.1]
      exact ⟨rfl, rfl⟩
    · split at hadd
      · simp only [Prod.mk.injEq] at hadd
        rw [← hadd.1]
        exact ⟨rfl, rfl⟩
      · split at hadd <;> simp at hadd

/-- What the maps of the registry hold after a successful `Add`. -/
theorem Add_ok_entries {r r1 : Paths} {url : Str} {h : Handler}
    (hadd : Add r url h = (r1, none)) :
    (∀ e ∈ r1.static.getD [], e ∈ r.static.getD [] ∨
      (e = (normalized url, h) ∧ patParams url = some 0)) ∧
    (∀ e ∈ r1.fields.getD [], ∀ rc ∈ e.2,
      (∃ e0 ∈ r.fields.getD [], rc ∈ e0.2) ∨ addRecord (url, h) = some rc) := by
  obtain ⟨params, ca, hscan, -, -, hcase⟩ := Add_ok hadd
  have hp := patParams_of_scan hscan
  rcases hcase with ⟨h0, hr⟩ | ⟨hne, hr⟩
  · subst hr
    subst h0
    constructor
    · intro e he
      simp only [Option.getD_some] at he
      rcases mem_mapSet he with h1 | h1
      · exact Or.inl h1
      · exact Or.inr ⟨h1, hp⟩
    · intro e he rc hrc
      exact Or.inl ⟨e, he, hrc⟩
  · subst hr
    constructor
    · intro e he
      exact Or.inl he
    · intro e he rc hrc
      simp only [Option.getD_some] at he
      rcases mem_mapSet he with h1 | h1
      · exact Or.inl ⟨e, h1, hrc⟩
      · subst h1
        simp only at hrc
        have hperm := List.perm_insertionSort recLE
          (r.fieldsGet (patLevel url) ++ [⟨params, Splitter url, h⟩])
        have hmem := hperm.mem_iff.mp hrc
        rcases List.mem_append.mp hmem with h2 | h2
        · obtain ⟨e0, he0, -, hrc0⟩ := mem_fieldsGet h2
          exact Or.inl ⟨e0, he0, hrc0⟩
        · right
          simp only [List.mem_singleton] at h2
          rw [h2]
          exact addRecord_of (x := (url, h)) hp hne

theorem reached_entries {r : Paths} {adds : List (Str × Handler)} (hr : Reached r adds) :
    (∀ e ∈ r.static.getD [], ∃ x ∈ adds,
      normalized x.1 = e.1 ∧ x.2 = e.2 ∧ patParams x.1 = some 0) ∧
    (∀ e ∈ r.fields.getD [], ∀ rc ∈ e.2, ∃ x ∈ adds, addRecord x = some rc) := by
  induction hr with
  | zero => simp [Paths.empty]
  | ok _ hadd ih =>
    obtain ⟨hs, hf⟩ := Add_ok_entries hadd
    constructor
    · intro e he
      rcases hs e he with h1 | ⟨h1, h2⟩
      · obtain ⟨x, hx, hx2⟩ := ih.1 e h1
        exact ⟨x, List.mem_append_left _ hx, hx2⟩
      · exact ⟨_, List.mem_append_right _ (List.mem_singleton_self _), by rw [h1], by rw [h1], h2⟩
    · intro e he rc hrc
      rcases hf e he rc hrc with ⟨e0, he0, hrc0⟩ | h1
      · obtain ⟨x, hx, hx2⟩ := ih.2 e0 he0 rc hrc0
        exact ⟨x, List.mem_append_left _ hx, hx2⟩
      · exact ⟨_, List.mem_append_right _ (List.mem_singleton_self _), h1⟩
  | failed _ hadd ih =>
    obtain ⟨hs, hf⟩ := Add_failed_maps hadd
    rw [hs, hf]
    exact ih

/-- The outcome of `Add` and the maps it leaves depend on the maps of the
registry only, not on its two counters. -/
theorem Add_congr {r r2 r1 : Paths} {url : Str} {h : Handler}
    (hs : r2.static = r.static) (hf : r2.fields = r.fields)
    (hadd : Add r url h = (r1, none)) :
    ∃ r3, Add r2 url h = (r3, none) ∧ r3.static = r1.static ∧ r3.fields = r1.fields := by
  obtain ⟨params, ca, hscan, hne, hlevel, hcase⟩ := Add_ok hadd
  obtain ⟨v, rfl⟩ := Option.ne_none_iff_exists'.mp hne
  have hfst := scanParts_fst_indep NamedParamFlag CatchAllParamFlag (patLevel url)
    (Splitter url) 0 0 r2.catchAll r.catchAll
  rw [hscan] at hfst
  have hscan2 : scanParts NamedParamFlag CatchAllParamFlag (patLevel url) (Splitter url) 0 0
      r2.catchAll = (some params, (scanParts NamedParamFlag CatchAllParamFlag (patLevel url)
        (Splitter url) 0 0 r2.catchAll).2) := Prod.ext hfst rfl
  rcases hcase with ⟨h0, hr⟩ | ⟨hp, hr⟩
  · subst h0
    refine ⟨_, Add_static_eval r2 url v (patLevel url) _ rfl hlevel hscan2, ?_, ?_⟩
    · rw [hr, hs]; rfl
    · rw [hr]; exact hf
  · refine ⟨_, Add_param_eval r2 url v (patLevel url) params _ rfl hlevel hscan2 hp, ?_, ?_⟩
    · rw [hr]; exact hs
    · rw [hr]
      simp only [hf, Paths.fieldsGet]
      cases r.fields <;> simp [mapGet]

theorem addAll_snoc {r0 r r1 : Paths} {adds : List (Str × Handler)} {url : Str} {h : Handler}
    (hadds : addAll r0 adds = some r) (hadd : Add r url h = (r1, none)) :
    addAll r0 (adds ++ [(url, h)]) = some r1 := by
  induction adds generalizing r0 with
  | nil =>
    simp only [addAll, Option.some.injEq] at hadds
    subst hadds
    simp [addAll, hadd]
  | cons x rest ih =>
    obtain ⟨r2, h1, h2⟩ := addAll_cons_some hadds
    obtain ⟨u, g⟩ := x
    simp only [List.cons_append, addAll]
    simp only at h1
    rw [h1]
    exact ih h2

/-- Failed calls leave no trace in the two maps: the maps of a reached registry
are those of the registry built by its successful calls alone. -/
theorem reached_addAll {r : Paths} {adds : List (Str × Handler)} (hr : Reached r adds) :
    ∃ r2, addAll Paths.empty adds = some r2 ∧ r2.static = r.static ∧ r2.fields = r.fields := by
  induction hr with
  | zero => exact ⟨Paths.empty, rfl, rfl, rfl⟩
  | ok _ hadd ih =>
    obtain ⟨r2, h1, hs, hf⟩ := ih
    obtain ⟨r3, h3, hs3, hf3⟩ := Add_congr hs hf hadd
    exact ⟨r3, addAll_snoc h1 h3, hs3, hf3⟩
  | failed _ hadd ih =>
    obtain ⟨r2, h1, hs, hf⟩ := ih
    obtain ⟨hs2, hf2⟩ := Add_failed_maps hadd
    exact ⟨r2, h1, hs.trans hs2.symm, hf.trans hf2.symm⟩

theorem reached_of_addAll_from {r0 r : Paths} {done adds : List (Str × Handler)}
    (h0 : Reached r0 done) (hadd : addAll r0 adds = some r) : Reached r (done ++ adds) := by
  induction adds generalizing r0 done with
  | nil =>
    simp only [addAll, Option.some.injEq] at hadd
    subst hadd
    simpa using h0
  | cons x rest ih =>
    obtain ⟨r1, h1, h2⟩ := addAll_cons_some hadd
    have := ih (Reached.ok h0 h1) h2
    simpa using this

theorem reached_of_addAll {r : Paths} {adds : List (Str × Handler)}
    (hadd : addAll Paths.empty adds = some r) : Reached r adds := by
  simpa using reached_of_addAll_from Reached.zero hadd

theorem joinParts_splitAfter (s : Str) : joinParts (splitAfter s) = s := by
  induction s with
  | nil => rfl
  | cons c cs ih =>
    unfold joinParts at ih ⊢
    simp only [splitAfter]
    split
    · simp [ih]
    · cases hsp : splitAfter cs with
      | nil =>
        rw [hsp] at ih
        simp only [List.flatten_nil] at ih
        simp [← ih]
      | cons p ps =>
        rw [hsp] at ih
        simp only [List.flatten_cons] at ih ⊢
        simp [← ih]

theorem Add_static_same_params {r r1 : Paths} {url : Str} {h : Handler}
    (hadd : Add r url h = (r1, none)) (hp : patParams url = some 0) :
    r1.staticGet (normalized url) = some h := by
  obtain ⟨params, ca, hscan, -, -, hcase⟩ := Add_ok hadd
  have h2 := patParams_of_scan hscan
  rw [hp] at h2
  simp only [Option.some.injEq] at h2
  rcases hcase with ⟨-, hr⟩ | ⟨hne, -⟩
  · subst hr
    simp [Paths.staticGet, mapGet_mapSet_same]
  · exact absurd h2.symm hne

theorem pathStatic_cases (cmp : Nat → Nat → Option Bool) (so : List (Str × Handler))
    (h : Handler) (hc : ∀ e ∈ so, ifaceEq cmp e.2 h = some (decide (e.2 = h))) :
    (pathStatic cmp so h = some none ∧ ∀ e ∈ so, e.2 ≠ h) ∨
      ∃ e ∈ so, e.2 = h ∧ pathStatic cmp so h = some (some (Splitter e.1)) := by
  induction so with
  | nil => left; simp [pathStatic]
  | cons a t ih =>
    obtain ⟨k, v⟩ := a
    have hcv := hc (k, v) (List.mem_cons_self _ _)
    have ih2 := ih (fun e he => hc e (List.mem_cons_of_mem _ he))
    simp only at hcv
    by_cases hv : v = h
    · right
      have hd : decide (v = h) = true := by simpa using hv
      rw [hd] at hcv
      refine ⟨(k, v), List.mem_cons_self _ _, hv, ?_⟩
      simp only [pathStatic, hcv]
    · have hd : decide (v = h) = false := by simpa using hv
      rw [hd] at hcv
      rcases ih2 with ⟨h1, h2⟩ | ⟨e, he, h1, h2⟩
      · left
        refine ⟨by simp only [pathStatic, hcv, h1], ?_⟩
        intro e he
        rcases List.mem_cons.mp he with rfl | he
        · exact hv
        · exact h2 e he
      · right
        exact ⟨e, List.mem_cons_of_mem _ he, h1, by simp only [pathStatic, hcv, h2]⟩

theorem pathRecords_cases (cmp : Nat → Nat → Option Bool) (rs : records) (h : Handler)
    (hc : ∀ rc ∈ rs, ifaceEq cmp h rc.handler = some (decide (h = rc.handler))) :
    (pathRecords cmp rs h = some none ∧ ∀ rc ∈ rs, rc.handler ≠ h) ∨
      ∃ rc ∈ rs, rc.handler = h ∧ pathRecords cmp rs h = some (some rc.parts) := by
  induction rs with
  | nil => left; simp [pathRecords]
  | cons a t ih =>
    have hca := hc a (List.mem_cons_self _ _)
    have ih2 := ih (fun e he => hc e (List.mem_cons_of_mem _ he))
    by_cases hv : h = a.handler
    · right
      have hd : decide (h = a.handler) = true := by simpa using hv
      rw [hd] at hca
      refine ⟨a, List.mem_cons_self _ _, hv.symm, ?_⟩
      simp only [pathRecords, hca]
    · have hd : decide (h = a.handler) = false := by simpa using hv
      rw [hd] at hca
      rcases ih2 with ⟨h1, h2⟩ | ⟨e, he, h1, h2⟩
      · left
        refine ⟨by simp only [pathRecords, hca, h1], ?_⟩
        intro e he
        rcases List.mem_cons.mp he with rfl | he
        · exact fun h3 => hv h3.symm
        · exact h2 e he
      · right
        exact ⟨e, List.mem_cons_of_mem _ he, h1, by simp only [pathRecords, hca, h2]⟩

theorem pathFields_cases (cmp : Nat → Nat → Option Bool) (fo : List (Nat × records))
    (h : Handler)
    (hc : ∀ e ∈ fo, ∀ rc ∈ e.2, ifaceEq cmp h rc.handler = some (decide (h = rc.handler))) :
    (pathFields cmp fo h = some none ∧ ∀ e ∈ fo, ∀ rc ∈ e.2, rc.handler ≠ h) ∨
      ∃ e ∈ fo, ∃ rc ∈ e.2, rc.handler = h ∧ pathFields cmp fo h = some (some rc.parts) := by
  induction fo with
  | nil => left; simp [pathFields]
  | cons a t ih =>
    obtain ⟨l, rs⟩ := a
    have hcr := hc (l, rs) (List.mem_cons_self _ _)
    have ih2 := ih (fun e he => hc e (List.mem_cons_of_mem _ he))
    rcases pathRecords_cases cmp rs h hcr with ⟨h1, h2⟩ | ⟨rc, hrc, h1, h2⟩
    · rcases ih2 with ⟨h3, h4⟩ | ⟨e, he, rc, hrc, h3, h4⟩
      · left
        refine ⟨by simp only [pathFields, h1, h3], ?_⟩
        intro e he
        rcases List.mem_cons.mp he with rfl | he
        · exact h2
        · exact h4 e he
      · right
        exact ⟨e, List.mem_cons_of_mem _ he, rc, hrc, h3, by simp only [pathFields, h1, h4]⟩
    · right
      exact ⟨(l, rs), List.mem_cons_self _ _, rc, hrc, h1, by simp only [pathFields, h2]⟩

/-- in a reached registry the comparisons that `Path(h)` makes are comparisons of
`h` with handlers of successful calls -/
theorem reached_comparisons {cmp : Nat → Nat → Option Bool} {r : Paths}
    {adds : List (Str × Handler)} {h : Handler} {so : List (Str × Handler)}
    {fo : List (Nat × records)} (hr : Reached r adds)
    (hcmp : ∀ x ∈ adds, ifaceEq cmp x.2 h = some (decide (x.2 = h)) ∧
      ifaceEq cmp h x.2 = some (decide (h = x.2)))
    (hso : so.Perm (r.static.getD [])) (hfo : fo.Perm (r.fields.getD [])) :
    (∀ e ∈ so, ifaceEq cmp e.2 h = some (decide (e.2 = h))) ∧
    (∀ e ∈ fo, ∀ rc ∈ e.2, ifaceEq cmp h rc.handler = some (decide (h = rc.handler))) := by
  obtain ⟨hS, hF⟩ := reached_entries hr
  constructor
  · intro e he
    obtain ⟨x, hx, -, hx2, -⟩ := hS e (hso.mem_iff.mp he)
    rw [← hx2]
    exact (hcmp x hx).1
  · intro e he rc hrc
    obtain ⟨x, hx, hx2⟩ := hF e (hfo.mem_iff.mp he) rc hrc
    rw [(addRecord_some hx2).1]
    exact (hcmp x hx).2

/-- for a handler whose comparisons with the registered handlers are decided by
the identity of the values, `Path` returns nil when no successful call used
the handler, whatever the order in which the two maps are traversed -/
theorem Path_unknown_comparable (cmp : Nat → Nat → Option Bool) (r : Paths)
    (adds : List (Str × Handler)) (h : Handler)
    (so : List (Str × Handler)) (fo : List (Nat × records))
    (hr : Reached r adds) (hnew : ∀ x ∈ adds, x.2 ≠ h)
    (hcmp : ∀ x ∈ adds, ifaceEq cmp x.2 h = some (decide (x.2 = h)) ∧
      ifaceEq cmp h x.2 = some (decide (h = x.2)))
    (hso : so.Perm (r.static.getD [])) (hfo : fo.Perm (r.fields.getD [])) :
    PathIn cmp so fo h = some none := by
  obtain ⟨hS, hF⟩ := reached_entries hr
  obtain ⟨hcs, hcf⟩ := reached_comparisons hr hcmp hso hfo
  unfold PathIn
  rcases pathStatic_cases cmp so h hcs with ⟨h1, -⟩ | ⟨e, he, h1, -⟩
  · rw [h1]
    rcases pathFields_cases cmp fo h hcf with ⟨h2, -⟩ | ⟨e, he, rc, hrc, h2, -⟩
    · exact h2
    · obtain ⟨x, hx, hx2⟩ := hF e (hfo.mem_iff.mp he) rc hrc
      exact absurd ((addRecord_some hx2).1.symm.trans h2) (hnew x hx)
  · obtain ⟨x, hx, -, hx2, -⟩ := hS e (hso.mem_iff.mp he)
    exact absurd (hx2.trans h1) (hnew x hx)

/-! ### Configurable sigils -/

theorem AddWith_default (r : Paths) (url : Str) (h : Handler) :
    AddWith NamedParamFlag CatchAllParamFlag r url h = Add r url h := rfl

/-! ### Evaluation of a catch-all pattern of 65536 segments -/

theorem scanParts_zeroLevelN (n m ca : Nat) (h : (n + m + 1) % 65536 = 0) :
    scanParts NamedParamFlag CatchAllParamFlag 0 (longCatchAllN n m) 0 0 ca
      = (some 32768, 0) := by
  have h0 : (n + m) % 65536 = 65535 := by omega
  unfold longCatchAllN
  rw [scanParts_append_static _ _ _ _ _ _
    (isStaticPattern_replicate n _ (by decide) (by decide))]
  rw [scanParts_append_static _ _ _ _ _ _
    (isStaticPattern_replicate m _ (by decide) (by decide))]
  rw [show "*w".toList = '*' :: "w".toList from rfl]
  simp only [scanParts, List.length_replicate]
  rw [if_neg (by decide), if_pos (by decide), if_neg (by simp [h0])]
  have hca : (if ca = 0 ∨ ca > 0 then 0 else ca) = 0 := by
    split
    · rfl
    · omega
  simp [hca]

theorem Add_zeroLevelN (r : Paths) (n m v : Nat) (h : (n + m + 1) % 65536 = 0) :
    Add r (urlOf (longCatchAllN n m)) (some v) = ({ r with
        catchAll := 0
        maxParts := if r.maxParts < 0 then 0 else r.maxParts
        fields := some (mapSet (r.fields.getD []) 0
          (sortStable ((mapGet (r.fields.getD []) 0).getD []
            ++ [⟨32768, longCatchAllN n m, some v⟩]))) }, none) := by
  rw [Add_param_eval r _ v 0 32768 0 (by rw [Splitter_longCatchAllN, length_longCatchAllN, h])
    (by norm_num) (by rw [Splitter_longCatchAllN]; exact scanParts_zeroLevelN n m _ h)
    (by norm_num), Splitter_longCatchAllN]

theorem Add_rest_eval (r : Paths) (v : Nat) :
    Add r "/a/*rest".toList (some v) = ({ r with
        catchAll := if r.catchAll = 0 ∨ r.catchAll > 2 then 2 else r.catchAll
        maxParts := if r.maxParts < 2 then 2 else r.maxParts
        fields := some (mapSet (r.fields.getD []) 2
          (sortStable ((mapGet (r.fields.getD []) 2).getD []
            ++ [⟨32768, ["a/".toList, "*rest".toList], some v⟩]))) }, none) := by
  have hs : Splitter "/a/*rest".toList = ["a/".toList, "*rest".toList] := by decide
  rw [Add_param_eval r _ v 2 32768 (if r.catchAll = 0 ∨ r.catchAll > 2 then 2 else r.catchAll)
    (by rw [hs]; rfl) (by norm_num) (by rw [hs]; simp [scanParts, NamedParamFlag, CatchAllParamFlag])
    (by norm_num), hs]

theorem Add_restFirst0 : Add Paths.empty "/a/*rest".toList (some 1) = (restFirst0, none) := by
  rw [Add_rest_eval]
  rfl

theorem Add_restFirst : Add restFirst0 (urlOf zeroLevel) (some 2) = (restFirst, none) := by
  unfold zeroLevel
  rw [Add_zeroLevelN _ _ _ _ (by norm_num)]
  rfl

theorem Add_zeroFirst0 : Add Paths.empty (urlOf zeroLevel) (some 2) = (zeroFirst0, none) := by
  unfold zeroLevel
  rw [Add_zeroLevelN _ _ _ _ (by norm_num)]
  rfl

theorem Add_zeroFirst : Add zeroFirst0 "/a/*rest".toList (some 1) = (zeroFirst, none) := by
  rw [Add_rest_eval]
  rfl

theorem Lookup_restFirst : Lookup restFirst "/a/b/c".toList = some (none, []) := by
  have hs : Splitter "/a/b/c".toList = ["a/".toList, "b/".toList, "c".toList] := by decide
  unfold Lookup
  simp only [hs]
  rfl

theorem Lookup_zeroFirst :
    Lookup zeroFirst "/a/b/c".toList = some (some 1, [⟨"rest".toList, "b/c".toList⟩]) := by
  have hs : Splitter "/a/b/c".toList = ["a/".toList, "b/".toList, "c".toList] := by decide
  unfold Lookup
  simp only [hs]
  rfl

theorem LookupUnoptimised_restFirst :
    LookupUnoptimised restFirst "/a/b/c".toList
      = some (some 1, [⟨"rest".toList, "b/c".toList⟩]) := by
  have hs : Splitter "/a/b/c".toList = ["a/".toList, "b/".toList, "c".toList] := by decide
  unfold LookupUnoptimised
  simp only [hs]
  rfl

/-! ### The patterns that `Add` accepts -/

/-- the loop of `Add` ends without an error when only the last segment of the
pattern may begin with the catch-all sigil -/
theorem scanParts_ok (level : Nat) (ps : List Str)
    (i params ca : Nat) (hi : i + ps.length = level)
    (hstar : ∀ s ∈ ps.dropLast, isCatchAll s = false) :
    ∃ q ca2, scanParts NamedParamFlag CatchAllParamFlag level ps i params ca = (some q, ca2) := by
  induction ps generalizing i params ca with
  | nil => exact ⟨params, ca, rfl⟩
  | cons s rest ih =>
    simp only [List.length_cons] at hi
    have hrest : ∀ t ∈ rest.dropLast, isCatchAll t = false := by
      intro t ht
      cases rest with
      | nil => simp at ht
      | cons u rest2 =>
        exact hstar t (by rw [List.dropLast_cons₂]; exact List.mem_cons_of_mem _ ht)
    cases s with
    | nil =>
      simp only [scanParts]
      exact ih _ _ _ (by omega) hrest
    | cons c tl =>
      simp only [scanParts]
      by_cases h1 : c = NamedParamFlag
      · simp only [h1, if_true]
        exact ih _ _ _ (by omega) hrest
      · simp only [h1, if_false]
        by_cases h2 : c = CatchAllParamFlag
        · simp only [h2, if_true]
          have hr : rest.length = 0 := by
            cases rest with
            | nil => rfl
            | cons u rest2 =>
              have := hstar (c :: tl) (by rw [List.dropLast_cons₂]; exact List.mem_cons_self _ _)
              simp [isCatchAll, h2] at this
          rw [if_neg (by simp; omega)]
          exact ih _ _ _ (by omega) hrest
        · simp only [h2, if_false]
          exact ih _ _ _ (by omega) hrest

theorem static_iff_counts (ps : List Str) :
    isStaticPattern ps = true ↔ namedCount ps = 0 ∧ hasCatchAll ps = false := by
  induction ps with
  | nil => simp [isStaticPattern, namedCount, hasCatchAll]
  | cons s rest ih =>
    simp only [isStaticPattern, List.all_cons, Bool.and_eq_true, Bool.not_eq_true',
      namedCount, hasCatchAll, List.countP_cons, List.any_cons, Bool.or_eq_false_iff] at ih ⊢
    constructor
    · rintro ⟨⟨h1, h2⟩, h3⟩
      have := ih.mp h3
      simp only [h1, Bool.false_eq_true, if_false, Nat.add_zero]
      exact ⟨this.1, h2, this.2⟩
    · rintro ⟨h1, h2, h3⟩
      have hn : isNamed s = false := by
        cases hs : isNamed s
        · rfl
        · simp [hs] at h1
      simp only [hn, Bool.false_eq_true, if_false, Nat.add_zero] at h1
      exact ⟨⟨hn, h2⟩, ih.mpr ⟨h1, h3⟩⟩

/-! ### Invariants of a reached registry -/

theorem mapSet_keys_nodup {κ ν : Type} [DecidableEq κ] (m : List (κ × ν)) (k : κ) (v : ν)
    (h : (m.map Prod.fst).Nodup) : ((mapSet m k v).map Prod.fst).Nodup := by
  induction m with
  | nil => simp [mapSet]
  | cons a t ih =>
    obtain ⟨k1, v1⟩ := a
    simp only [List.map_cons, List.nodup_cons] at h
    simp only [mapSet]
    split
    · rename_i hk
      simp only [List.map_cons, List.nodup_cons]
      exact ⟨by rw [← hk]; exact h.1, h.2⟩
    · rename_i hk
      simp only [List.map_cons, List.nodup_cons]
      refine ⟨?_, ih h.2⟩
      intro hmem
      obtain ⟨e, he, hfst⟩ := List.mem_map.mp hmem
      rcases mem_mapSet he with h1 | h1
      · exact h.1 (List.mem_map.mpr ⟨e, h1, hfst⟩)
      · rw [h1] at hfst
        exact hk hfst.symm

theorem mapGet_of_mem_nodup {κ ν : Type} [DecidableEq κ] (m : List (κ × ν)) (k : κ) (v : ν)
    (h : (m.map Prod.fst).Nodup) (hmem : (k, v) ∈ m) : mapGet m k = some v := by
  induction m with
  | nil => simp at hmem
  | cons a t ih =>
    obtain ⟨k1, v1⟩ := a
    simp only [List.map_cons, List.nodup_cons] at h
    simp only [mapGet]
    rcases List.mem_cons.mp hmem with h1 | h1
    · simp only [Prod.mk.injEq] at h1
      rw [if_pos h1.1.symm, h1.2]
    · have hne : k1 ≠ k := by
        intro hk
        exact h.1 (List.mem_map.mpr ⟨(k, v), h1, hk.symm⟩)
      rw [if_neg hne]
      exact ih h.2 h1

/-- the keys of `r.fields` are pairwise distinct in a reached registry -/
theorem reached_keys_nodup {r : Paths} {adds : List (Str × Handler)} (hr : Reached r adds) :
    ((r.fields.getD []).map Prod.fst).Nodup := by
  induction hr with
  | zero => simp [Paths.empty]
  | ok _ hadd ih =>
    obtain ⟨params, ca, -, -, -, hcase⟩ := Add_ok hadd
    rcases hcase with ⟨-, hr1⟩ | ⟨-, hr1⟩
    · rw [hr1]
      exact ih
    · rw [hr1]
      exact mapSet_keys_nodup _ _ _ ih
  | failed _ hadd ih =>
    rw [(Add_failed_maps hadd).2]
    exact ih

/-- every entry of `r.fields` is the list that `r.fields[key]` reads -/
theorem reached_entry_eq {r : Paths} {adds : List (Str × Handler)} (hr : Reached r adds)
    (e : Nat × records) (he : e ∈ r.fields.getD []) : e.2 = r.fieldsGet e.1 := by
  have hk := reached_keys_nodup hr
  unfold Paths.fieldsGet
  cases hf : r.fields with
  | none => simp [hf] at he
  | some m =>
    simp only [hf, Option.getD_some] at he hk
    simp only
    rw [mapGet_of_mem_nodup m e.1 e.2 hk he]
    rfl

/-- the list under the key `l` of a reached registry is a stable sorting of the
records that the successful calls stored under `l` -/
theorem reached_fields_inv {r : Paths} {adds : List (Str × Handler)} (hr : Reached r adds)
    (l : Nat) : StableOf (levelRecords adds l) (r.fieldsGet l) := by
  obtain ⟨r2, hadd, -, hf⟩ := reached_addAll hr
  have := fields_inv hadd l
  have hget : r2.fieldsGet l = r.fieldsGet l := by simp only [Paths.fieldsGet, hf]
  rw [hget] at this
  exact this

/-- a stable sorting keeps the records of one priority value in their order -/
theorem stable_filter_eq {X F : records} (hs : StableOf X F) (p : Nat) :
    F.filter (fun rc => rc.params = p) = X.filter (fun rc => rc.params = p) := by
  obtain ⟨hperm, -, hsub⟩ := hs
  have hpw : (X.filter (fun rc => rc.params = p)).Pairwise recLE := by
    apply List.pairwise_of_forall_mem_list
    intro a ha b hb
    have h1 := (List.mem_filter.mp ha).2
    have h2 := (List.mem_filter.mp hb).2
    simp only [decide_eq_true_eq] at h1 h2
    show a.params ≤ b.params
    omega
  have h1 := hsub _ hpw (List.filter_sublist _)
  have h2 : (X.filter (fun rc => rc.params = p)).Sublist (F.filter (fun rc => rc.params = p)) := by
    have := h1.filter (fun rc => decide (rc.params = p))
    rwa [List.filter_filter, show (fun a : record => (decide (a.params = p) && decide (a.params = p)))
      = (fun a : record => decide (a.params = p)) from by funext a; simp] at this
  have h3 : (F.filter (fun rc => rc.params = p)).length
      = (X.filter (fun rc => rc.params = p)).length :=
    (hperm.filter _).length_eq
  exact (h2.eq_of_length h3.symm).symm

/-- a record in the list of a reached registry was stored by a successful call -/
theorem reached_mem_fieldsGet {r : Paths} {adds : List (Str × Handler)} (hr : Reached r adds)
    {l : Nat} {rc : record} (h : rc ∈ r.fieldsGet l) :
    ∃ x ∈ adds, addRecord x = some rc ∧ rc.parts.length % 65536 = l :=
  mem_levelRecords ((reached_fields_inv hr l).1.mem_iff.mp h)

theorem reached_mem_of_add {r : Paths} {adds : List (Str × Handler)} (hr : Reached r adds)
    {x : Str × Handler} {q : Nat} (hx : x ∈ adds) (hq : patParams x.1 = some q) (hq0 : q ≠ 0) :
    (⟨q, Splitter x.1, x.2⟩ : record) ∈ r.fieldsGet (patLevel x.1) :=
  (reached_fields_inv hr (patLevel x.1)).1.mem_iff.mpr (mem_levelRecords_of hx hq hq0)

/-- every successful call has a `params` value -/
theorem reached_patParams {r : Paths} {adds : List (Str × Handler)} (hr : Reached r adds)
    {x : Str × Handler} (hx : x ∈ adds) : ∃ q, patParams x.1 = some q := by
  obtain ⟨r2, hadd, -, -⟩ := reached_addAll hr
  obtain ⟨ra, rb, h⟩ := Add_of_mem hadd hx
  exact patParams_of_Add h

/-! ### The first record of a handler -/

theorem pathRecords_eq_find (cmp : Nat → Nat → Option Bool) (rs : records) (h : Handler)
    (hc : ∀ rc ∈ rs, ifaceEq cmp h rc.handler = some (decide (h = rc.handler))) :
    pathRecords cmp rs h
      = some ((rs.find? (fun rc => decide (rc.handler = h))).map record.parts) := by
  induction rs with
  | nil => rfl
  | cons a t ih =>
    have hca := hc a (List.mem_cons_self _ _)
    have ih2 := ih (fun e he => hc e (List.mem_cons_of_mem _ he))
    by_cases ha : h = a.handler
    · have hd : decide (h = a.handler) = true := by simpa using ha
      rw [hd] at hca
      simp only [pathRecords, List.find?_cons, hca]
      simp [ha]
    · have hd : decide (h = a.handler) = false := by simpa using ha
      have ha2 : ¬ a.handler = h := fun e => ha e.symm
      rw [hd] at hca
      simp only [pathRecords, List.find?_cons, hca, ih2]
      simp [ha2]

theorem find_split {α : Type} (P : α → Bool) (l : List α) (b : α) (h : l.find? P = some b) :
    P b = true ∧ ∃ pre post, l = pre ++ b :: post ∧ ∀ a ∈ pre, P a = false := by
  induction l with
  | nil => simp at h
  | cons a t ih =>
    simp only [List.find?_cons] at h
    cases hp : P a with
    | true =>
      simp only [hp, Option.some.injEq] at h
      subst h
      exact ⟨hp, [], t, rfl, by simp⟩
    | false =>
      simp only [hp] at h
      obtain ⟨h1, pre, post, h2, h3⟩ := ih h
      refine ⟨h1, a :: pre, post, by rw [h2]; rfl, ?_⟩
      intro c hc
      rcases List.mem_cons.mp hc with rfl | hc
      · exact hp
      · exact h3 c hc

theorem find_filter {α : Type} (P Q : α → Bool) (l : List α) (b : α)
    (h : l.find? P = some b) (hq : Q b = true) : (l.filter Q).find? P = some b := by
  induction l with
  | nil => simp at h
  | cons a t ih =>
    simp only [List.find?_cons] at h
    cases hp : P a with
    | true =>
      simp only [hp, Option.some.injEq] at h
      subst h
      simp [List.filter_cons, hq, hp]
    | false =>
      simp only [hp] at h
      cases hqa : Q a with
      | true => simp [List.filter_cons, hqa, hp, ih h]
      | false => simp [List.filter_cons, hqa, ih h]

theorem find_exists {α : Type} (P : α → Bool) (l : List α) (c : α) (hc : c ∈ l)
    (hp : P c = true) : ∃ b, l.find? P = some b := by
  cases hf : l.find? P with
  | some b => exact ⟨b, rfl⟩
  | none =>
    have := List.find?_eq_none.mp hf c hc
    simp [hp] at this

/-- the first record with a property among the records stored by a list of
calls belongs to a call before which no call stored a record with that
property -/
theorem find_records (T P : record → Bool) (adds : List (Str × Handler)) (B : record)
    (h : ((adds.filterMap addRecord).filter T).find? P = some B) :
    ∃ a1 x0 a3, adds = a1 ++ x0 :: a3 ∧ addRecord x0 = some B ∧
      ∀ x ∈ a1, ∀ C, addRecord x = some C → T C = true → P C = false := by
  induction adds with
  | nil => simp at h
  | cons x rest ih =>
    cases hx : addRecord x with
    | none =>
      rw [List.filterMap_cons_none hx] at h
      obtain ⟨a1, x0, a3, h1, h2, h3⟩ := ih h
      refine ⟨x :: a1, x0, a3, by rw [h1]; rfl, h2, ?_⟩
      intro y hy C hC
      rcases List.mem_cons.mp hy with rfl | hy
      · rw [hx] at hC
        exact absurd hC (by simp)
      · exact h3 y hy C hC
    | some C0 =>
      rw [List.filterMap_cons_some hx] at h
      cases ht : T C0 with
      | false =>
        rw [List.filter_cons_of_neg (by simp [ht])] at h
        obtain ⟨a1, x0, a3, h1, h2, h3⟩ := ih h
        refine ⟨x :: a1, x0, a3, by rw [h1]; rfl, h2, ?_⟩
        intro y hy C hC hTC
        rcases List.mem_cons.mp hy with rfl | hy
        · rw [hx] at hC
          simp only [Option.some.injEq] at hC
          rw [← hC, ht] at hTC
          exact absurd hTC (by simp)
        · exact h3 y hy C hC hTC
      | true =>
        rw [List.filter_cons_of_pos (by simp [ht]), List.find?_cons] at h
        cases hp : P C0 with
        | true =>
          simp only [hp, Option.some.injEq] at h
          subst h
          exact ⟨[], x, rest, rfl, hx, by simp⟩
        | false =>
          simp only [hp] at h
          obtain ⟨a1, x0, a3, h1, h2, h3⟩ := ih h
          refine ⟨x :: a1, x0, a3, by rw [h1]; rfl, h2, ?_⟩
          intro y hy C hC hTC
          rcases List.mem_cons.mp hy with rfl | hy
          · rw [hx] at hC
            simp only [Option.some.injEq] at hC
            rw [← hC]
            exact hp
          · exact h3 y hy C hC hTC

/-- when only the entries with the key `l` hold a record of the handler, the
loop over `r.fields` returns what the loop over the list of `l` returns -/
theorem pathFields_single (cmp : Nat → Nat → Option Bool) (fo : List (Nat × records))
    (h : Handler) (l : Nat) (F : records)
    (hc : ∀ e ∈ fo, ∀ rc ∈ e.2, ifaceEq cmp h rc.handler = some (decide (h = rc.handler)))
    (hother : ∀ e ∈ fo, e.1 ≠ l → ∀ rc ∈ e.2, rc.handler ≠ h)
    (hsame : ∀ e ∈ fo, e.1 = l → e.2 = F)
    (hex : (∃ e ∈ fo, e.1 = l) ∨ pathRecords cmp F h = some none) :
    pathFields cmp fo h = pathRecords cmp F h := by
  induction fo with
  | nil =>
    rcases hex with ⟨e, he, -⟩ | hnone
    · simp at he
    · rw [hnone]; rfl
  | cons a t ih =>
    obtain ⟨k, rs⟩ := a
    have hc2 : ∀ e ∈ t, ∀ rc ∈ e.2, ifaceEq cmp h rc.handler = some (decide (h = rc.handler)) :=
      fun e he => hc e (List.mem_cons_of_mem _ he)
    have hother2 : ∀ e ∈ t, e.1 ≠ l → ∀ rc ∈ e.2, rc.handler ≠ h :=
      fun e he => hother e (List.mem_cons_of_mem _ he)
    have hsame2 : ∀ e ∈ t, e.1 = l → e.2 = F := fun e he => hsame e (List.mem_cons_of_mem _ he)
    by_cases hk : k = l
    · have hrs : rs = F := hsame (k, rs) (List.mem_cons_self _ _) hk
      subst hrs
      simp only [pathFields]
      cases hp : pathRecords cmp rs h with
      | none => rfl
      | some res =>
        cases res with
        | some parts => rfl
        | none =>
          simp only
          rw [ih hc2 hother2 hsame2 (Or.inr hp), hp]
    · have hnone : pathRecords cmp rs h = some none := by
        rcases pathRecords_cases cmp rs h (hc (k, rs) (List.mem_cons_self _ _))
          with ⟨h1, -⟩ | ⟨rc, hrc, h1, -⟩
        · exact h1
        · exact absurd h1 (hother (k, rs) (List.mem_cons_self _ _) hk rc hrc)
      simp only [pathFields, hnone]
      apply ih hc2 hother2 hsame2
      rcases hex with ⟨e, he, hel⟩ | hn
      · rcases List.mem_cons.mp he with rfl | he
        · exact absurd hel hk
        · exact Or.inl ⟨e, he, hel⟩
      · exact Or.inr hn

/-! ### Soundness of the matching loop -/

theorem splitAfter_ne_nil (s : Str) : splitAfter s ≠ [] := by
  cases s with
  | nil => simp [splitAfter]
  | cons c cs =>
    simp only [splitAfter]
    split
    · simp
    · split <;> simp

theorem SplitOK_splitAfter (s : Str) : SplitOK (splitAfter s) := by
  induction s with
  | nil => simp [splitAfter, SplitOK]
  | cons c cs ih =>
    simp only [splitAfter]
    split
    · rename_i hc
      cases hsp : splitAfter cs with
      | nil => exact absurd hsp (splitAfter_ne_nil cs)
      | cons t rest =>
        rw [hsp] at ih
        exact ⟨⟨[], by simp [hc], by simp⟩, ih⟩
    · rename_i hc
      cases hsp : splitAfter cs with
      | nil => exact absurd hsp (splitAfter_ne_nil cs)
      | cons p ps =>
        rw [hsp] at ih
        simp only
        cases ps with
        | nil =>
          simp only [SplitOK, List.mem_cons, not_or] at ih ⊢
          exact ⟨fun e => hc e.symm, ih⟩
        | cons t rest =>
          obtain ⟨⟨body, hb1, hb2⟩, ih2⟩ := ih
          refine ⟨⟨c :: body, by rw [hb1]; rfl, ?_⟩, ih2⟩
          simp only [List.mem_cons, not_or]
          exact ⟨fun e => hc e.symm, hb2⟩

theorem SplitOK_tail {s : Str} {t : List Str} (h : SplitOK (s :: t)) : SplitOK t := by
  cases t with
  | nil => trivial
  | cons u rest => exact h.2

theorem getLast_of_mid {s t : Str} {rest : List Str} (h : SplitOK (s :: t :: rest)) :
    s.getLast? = some PathDelimeter := by
  obtain ⟨⟨body, hb, -⟩, -⟩ := h
  rw [hb]
  simp

theorem getLast_of_last {s : Str} (h : SplitOK [s]) : s.getLast? ≠ some PathDelimeter := by
  intro hl
  exact h (List.mem_of_getLast?_eq_some hl)

theorem trimSuffix_of_mid {q u : Str} {us : List Str} (h : SplitOK (q :: u :: us)) :
    trimSuffix q ++ [PathDelimeter] = q ∧ PathDelimeter ∉ trimSuffix q := by
  obtain ⟨⟨body, hb, hnb⟩, -⟩ := h
  subst hb
  have : trimSuffix (body ++ [PathDelimeter]) = body := by
    simp [trimSuffix]
  rw [this]
  exact ⟨rfl, hnb⟩

theorem trimSuffix_of_last {q : Str} (h : SplitOK [q]) :
    trimSuffix q = q ∧ PathDelimeter ∉ trimSuffix q := by
  have h1 : trimSuffix q = q := by
    unfold trimSuffix
    rw [if_neg (getLast_of_last h)]
  rw [h1]
  exact ⟨rfl, h⟩

theorem drop_of_getElem? {α : Type} {l : List α} {i : Nat} {q : α} (h : l[i]? = some q) :
    l.drop i = q :: l.drop (i + 1) := by
  obtain ⟨hi, hq⟩ := List.getElem?_eq_some.mp h
  rw [List.drop_eq_getElem_cons hi, hq]

theorem static_no_params (ps : List Str) (h : isStaticPattern ps = true) (vs : List Str) :
    ps.filter isParamSeg = [] ∧ substitute ps vs = ps := by
  induction ps with
  | nil => simp [substitute]
  | cons s rest ih =>
    simp only [isStaticPattern, List.all_cons, Bool.and_eq_true, Bool.not_eq_true'] at h
    have hrest : isStaticPattern rest = true := by simpa [isStaticPattern] using h.2
    obtain ⟨h1, h2⟩ := ih hrest
    constructor
    · rw [List.filter_cons_of_neg (by simp [isParamSeg, h.1.1, h.1.2])]
      exact h1
    · simp [substitute, h.1.1, h.1.2, h2]

theorem mem_dropLast_index {α : Type} (l : List α) (s : α) (h : s ∈ l.dropLast) :
    ∃ j, j + 1 < l.length ∧ l[j]? = some s := by
  induction l with
  | nil => simp at h
  | cons a t ih =>
    cases t with
    | nil => simp at h
    | cons u rest =>
      rw [List.dropLast_cons₂] at h
      rcases List.mem_cons.mp h with h1 | h1
      · exact ⟨0, by simp, by simp [h1]⟩
      · obtain ⟨j, hj, hg⟩ := ih h1
        exact ⟨j + 1, by simp only [List.length_cons] at hj ⊢; omega, by simpa using hg⟩

/-- a pattern of at most 32767 segments that `Add` accepts has no catch-all
segment before its last segment -/
theorem star_last_of_patParams {url : Str} {q : Nat} (hlen : (Splitter url).length ≤ 32767)
    (h : patParams url = some q) : ∀ s ∈ (Splitter url).dropLast, isCatchAll s = false := by
  intro s hs
  obtain ⟨j, hj, hg⟩ := mem_dropLast_index _ s hs
  cases hc : isCatchAll s with
  | false => rfl
  | true =>
    have hl : patLevel url = (Splitter url).length := Nat.mod_eq_of_lt (by omega)
    have := scanParts_star_not_last (Splitter url).length hlen (Splitter url) 0 0 0 j
      (by omega) hj ⟨s, hg, hc⟩
    unfold patParams at h
    rw [hl, this] at h
    exact absurd h (by simp)

/-- what a successful run of the matching loop of `Lookup` says about the
pattern, the path and the collected parameters -/
theorem matchParts_sound (parts pat : List Str) (i : Nat) (acc ps : Params)
    (hpat : SplitOK pat) (hstar : ∀ s ∈ pat.dropLast, isCatchAll s = false)
    (hq : SplitOK (parts.drop i))
    (hlen : if hasCatchAll pat = true then pat.length ≤ (parts.drop i).length
      else pat.length = (parts.drop i).length)
    (hm : matchParts parts pat i acc = some (MatchResult.matched ps)) :
    ∃ vals : Params, ps = acc ++ vals ∧
      (pat.filter isParamSeg).map segName = vals.map Param.Key ∧
      joinParts (substitute pat (vals.map Param.Value)) = joinParts (parts.drop i) ∧
      ∀ sv ∈ List.zip (pat.filter isParamSeg) vals,
        isNamed sv.1 = true → PathDelimeter ∉ sv.2.Value := by
  induction pat generalizing i acc with
  | nil =>
    simp only [matchParts, Option.some.injEq, MatchResult.matched.injEq] at hm
    simp only [hasCatchAll, List.any_nil, Bool.false_eq_true, if_false, List.length_nil] at hlen
    have hd : parts.drop i = [] := List.length_eq_zero.mp hlen.symm
    exact ⟨[], by simp [hm], by simp, by simp [substitute, hd], by simp⟩
  | cons s rest ih =>
    have hpat2 : SplitOK rest := SplitOK_tail hpat
    have hstar2 : ∀ t ∈ rest.dropLast, isCatchAll t = false := by
      intro t ht
      cases rest with
      | nil => simp at ht
      | cons u rest2 =>
        exact hstar t (by rw [List.dropLast_cons₂]; exact List.mem_cons_of_mem _ ht)
    cases s with
    | nil => simp [matchParts] at hm
    | cons c tl =>
      simp only [matchParts] at hm
      by_cases h1 : c = ':'
      · subst h1
        simp only [if_true] at hm
        cases hg : parts[i]? with
        | none => simp [hg] at hm
        | some q =>
          simp only [hg] at hm
          have hdrop := drop_of_getElem? hg
          have hn : isNamed (':' :: tl) = true := by simp [isNamed, NamedParamFlag]
          have hc : isCatchAll (':' :: tl) = false := by
            simp [isCatchAll, CatchAllParamFlag]
          have hlen2 : if hasCatchAll rest = true then rest.length ≤ (parts.drop (i + 1)).length
              else rest.length = (parts.drop (i + 1)).length := by
            rw [hdrop] at hlen
            simp only [hasCatchAll, List.any_cons, hc, Bool.false_or, List.length_cons] at hlen
            simp only [hasCatchAll]
            split
            · rename_i hh
              rw [if_pos hh] at hlen
              omega
            · rename_i hh
              rw [if_neg hh] at hlen
              omega
          have hq2 : SplitOK (parts.drop (i + 1)) := by
            rw [hdrop] at hq
            exact SplitOK_tail hq
          obtain ⟨vals, hps, hkeys, hjoin, hvals⟩ := ih (i + 1) _ hpat2 hstar2 hq2 hlen2 hm
          -- the value and the delimiter of the segment give back the query segment
          have hval : (trimSuffix q ++ (if (':' :: tl).getLast? = some PathDelimeter
              then [PathDelimeter] else []) = q) ∧ PathDelimeter ∉ trimSuffix q := by
            cases rest with
            | nil =>
              have hq1 : parts.drop (i + 1) = [] := by
                simp only [hasCatchAll, List.any_nil, Bool.false_eq_true, if_false,
                  List.length_nil] at hlen2
                exact List.length_eq_zero.mp hlen2.symm
              rw [hdrop, hq1] at hq
              rw [if_neg (getLast_of_last hpat)]
              obtain ⟨e1, e2⟩ := trimSuffix_of_last hq
              exact ⟨by rw [List.append_nil]; exact e1, e2⟩
            | cons u rest2 =>
              have hq1 : ∃ v vs, parts.drop (i + 1) = v :: vs := by
                cases hd : parts.drop (i + 1) with
                | nil =>
                  rw [hd] at hlen2
                  simp only [List.length_cons, List.length_nil] at hlen2
                  split at hlen2 <;> omega
                | cons v vs => exact ⟨v, vs, rfl⟩
              obtain ⟨v, vs, hd⟩ := hq1
              rw [hdrop, hd] at hq
              rw [if_pos (getLast_of_mid hpat)]
              exact trimSuffix_of_mid hq
          refine ⟨⟨trimSuffix tl, trimSuffix q⟩ :: vals, ?_, ?_, ?_, ?_⟩
          · rw [hps]
            simp
          · rw [List.filter_cons_of_pos (by simp [isParamSeg, hn])]
            simp only [List.map_cons, hkeys, List.cons.injEq, and_true]
            simp [segName, hc]
          · simp only [List.map_cons, substitute, hn, if_true, List.headD_cons, List.tail_cons]
            rw [hdrop]
            simp only [joinParts, List.flatten_cons] at hjoin ⊢
            rw [hjoin, hval.1]
          · rw [List.filter_cons_of_pos (by simp [isParamSeg, hn])]
            intro sv hsv
            simp only [List.zip_cons_cons, List.mem_cons] at hsv
            rcases hsv with rfl | hsv
            · intro _
              exact hval.2
            · exact hvals sv hsv
      · simp only [h1, if_false] at hm
        by_cases h2 : c = '*'
        · subst h2
          simp only [if_true] at hm
          have hn : isNamed ('*' :: tl) = false := by simp [isNamed, NamedParamFlag]
          have hc : isCatchAll ('*' :: tl) = true := by simp [isCatchAll, CatchAllParamFlag]
          have hrest : rest = [] := by
            cases rest with
            | nil => rfl
            | cons u rest2 =>
              have := hstar ('*' :: tl) (by rw [List.dropLast_cons₂]; exact List.mem_cons_self _ _)
              rw [hc] at this
              exact absurd this (by simp)
          subst hrest
          split at hm
          · simp only [Option.some.injEq, MatchResult.matched.injEq] at hm
            refine ⟨[⟨tl, joinParts (parts.drop i)⟩], hm.symm, ?_, ?_, ?_⟩
            · rw [List.filter_cons_of_pos (by simp [isParamSeg, hc])]
              simp [segName, hc]
            · simp [substitute, hn, hc, joinParts]
            · rw [List.filter_cons_of_pos (by simp [isParamSeg, hc])]
              intro sv hsv
              simp only [List.filter_nil, List.zip_cons_cons, List.zip_nil_right,
                List.mem_singleton] at hsv
              subst hsv
              intro hning
              rw [hn] at hning
              exact absurd hning (by simp)
          · simp at hm
        · simp only [h2, if_false] at hm
          cases hg : parts[i]? with
          | none => simp [hg] at hm
          | some q =>
            simp only [hg] at hm
            split at hm
            · simp at hm
            · rename_i heq
              have heq2 : c :: tl = q := by simpa using heq
              have hdrop := drop_of_getElem? hg
              have hn : isNamed (c :: tl) = false := by
                simp only [isNamed, NamedParamFlag, List.head?_cons]
                simpa using h1
              have hc : isCatchAll (c :: tl) = false := by
                simp only [isCatchAll, CatchAllParamFlag, List.head?_cons]
                simpa using h2
              have hlen2 : if hasCatchAll rest = true
                  then rest.length ≤ (parts.drop (i + 1)).length
                  else rest.length = (parts.drop (i + 1)).length := by
                rw [hdrop] at hlen
                simp only [hasCatchAll, List.any_cons, hc, Bool.false_or, List.length_cons] at hlen
                simp only [hasCatchAll]
                split
                · rename_i hh
                  rw [if_pos hh] at hlen
                  omega
                · rename_i hh
                  rw [if_neg hh] at hlen
                  omega
              have hq2 : SplitOK (parts.drop (i + 1)) := by
                rw [hdrop] at hq
                exact SplitOK_tail hq
              obtain ⟨vals, hps, hkeys, hjoin, hvals⟩ := ih (i + 1) _ hpat2 hstar2 hq2 hlen2 hm
              refine ⟨vals, hps, ?_, ?_, ?_⟩
              · rw [List.filter_cons_of_neg (by simp [isParamSeg, hn, hc])]
                exact hkeys
              · simp only [substitute, hn, hc, Bool.false_eq_true, if_false]
                rw [hdrop]
                simp only [joinParts, List.flatten_cons] at hjoin ⊢
                rw [hjoin, heq2]
              · rw [List.filter_cons_of_neg (by simp [isParamSeg, hn, hc])]
                exact hvals

theorem Lookup_winner_le {r : Paths} {url : Str} {h : Handler} {ps : Params}
    (hl : Lookup r url = some (h, ps)) :
    (r.staticGet (normalized url) = some h ∧ ps = []) ∨ (h = none ∧ ps = []) ∨
      ∃ l, 0 < l ∧ l ≤ (Splitter url).length % 65536 ∧
        lookupRecords (Splitter url) l ((Splitter url).length % 65536) (r.fieldsGet l)
          = some (some (h, ps)) := by
  unfold Lookup at hl
  simp only at hl
  split at hl
  · rename_i h2 hget
    simp only [Option.some.injEq, Prod.mk.injEq] at hl
    left
    exact ⟨by rw [← hl.1]; exact hget, hl.2.symm⟩
  · right
    split at hl
    · simp only [Option.some.injEq, Prod.mk.injEq] at hl
      exact Or.inl ⟨hl.1.symm, hl.2.symm⟩
    · split at hl
      · rename_i hgt
        split at hl
        · simp only [Option.some.injEq, Prod.mk.injEq] at hl
          exact Or.inl ⟨hl.1.symm, hl.2.symm⟩
        · rcases lookupLevels_winner hl with h0 | ⟨l, h1, h2, h3⟩
          · exact Or.inl h0
          · exact Or.inr ⟨l, h1, by omega, h3⟩
      · rcases lookupLevels_winner hl with h0 | ⟨l, h1, h2, h3⟩
        · exact Or.inl h0
        · exact Or.inr ⟨l, h1, h2, h3⟩

/-! ### The claims -/

/-- C1: in a registry built by successful Add calls in which the static pattern
`p` was added with handler `h` and no later Add used the same normalized path,
Lookup(p) returns `h` with an empty parameter list, whatever else was added
before or after. -/
theorem C1_static_lookup (pre post : List (Str × Handler)) (p : Str) (h : Handler) (r : Paths)
    (hstatic : isStaticPattern (Splitter p) = true)
    (hadd : addAll Paths.empty (pre ++ (p, h) :: post) = some r)
    (hlater : ∀ x ∈ post, normalized x.1 ≠ normalized p) :
    Lookup r p = some (h, []) :=
  static_last_add_wins Paths.empty r pre post p h hstatic hadd hlater

set_option maxRecDepth 100000 in
/-- Witness of C1 on the routes of the example: `/users` is found although the
parameterized `/users/:name` and the static `/users/me` were added after it. -/
theorem C1_static_lookup_witness :
    Lookup (built exampleRoutes) "/users".toList = some (some 0, []) :=
  C1_static_lookup [] [("/users/:name".toList, some 1), ("/users/me".toList, some 2)]
    "/users".toList (some 0) (built exampleRoutes) (by decide) (by decide) (by decide)

set_option maxRecDepth 100000 in
/-- C2 (failing input): the route `/:name/test/` of `TestServeMux` has a named
parameter and no catch-all; the path `/test/test/` is that pattern with `test`
substituted for the parameter, and the only other route `/:name` does not
match it.  Lookup does not return the handler: it stops with an index out of
range at `part[0]` of the empty last segment of the pattern. -/
theorem C2_trailing_delimiter_panics :
    addAll Paths.empty muxRoutes = some (built muxRoutes) ∧
    Splitter "/:name/test/".toList = [":name/".toList, "test/".toList, []] ∧
    Splitter "/test/test/".toList = ["test/".toList, "test/".toList, []] ∧
    Matches (Splitter "/:name/test/".toList) (Splitter "/test/test/".toList) ∧
    ¬ Matches (Splitter "/:name".toList) (Splitter "/test/test/".toList) ∧
    Lookup (built muxRoutes) "/test/test/".toList = none := by
  decide

/-- C3 (failing input): the pattern of 65537 segments `*a/`, `x/` (65535
times), `*b` is accepted by Add, since `uint16` truncation gives it level 1 and
index 0 equals `level-1`.  Its final segment is the catch-all `*b` at index
65536, yet Lookup("/foo") returns its handler with the single parameter
`a/ = foo`: the last parameter is not named `b`. -/
theorem C3_wrapped_catch_all :
    Splitter (urlOf twoCatchAlls) = twoCatchAlls ∧
    twoCatchAlls.length = 65537 ∧
    twoCatchAlls.getLast? = some "*b".toList ∧
    Add Paths.empty (urlOf twoCatchAlls) (some 7) = (wrappedRegistry, none) ∧
    Lookup wrappedRegistry "/foo".toList = some (some 7, [⟨"a/".toList, "foo".toList⟩]) :=
  ⟨Splitter_twoCatchAllsN 65535, (length_twoCatchAllsN 65535).trans (by norm_num),
    getLast_twoCatchAllsN 65535, Add_twoCatchAllsN 65535 (by norm_num),
    Lookup_twoCatchAllsN 65535⟩

set_option maxRecDepth 100000 in
/-- C4: after Add("/users", a), Add("/users/:name", b), Add("/users/me", c) on
an empty registry, Lookup("/users/mdigger") returns b with [(name, mdigger)],
Lookup("/users/me") returns c with no parameters and Lookup("/users") returns a
with no parameters. -/
theorem C4_example_scenario :
    addAll Paths.empty exampleRoutes = some (built exampleRoutes) ∧
    Lookup (built exampleRoutes) "/users/mdigger".toList
      = some (some 1, [⟨"name".toList, "mdigger".toList⟩]) ∧
    Lookup (built exampleRoutes) "/users/me".toList = some (some 2, []) ∧
    Lookup (built exampleRoutes) "/users".toList = some (some 0, []) := by
  decide

set_option maxRecDepth 100000 in
/-- C5 (failing input): `/:user/:name/` and `/:user/test/` have the same
segment count and no catch-all, both match `/u/test/`, nothing else is
registered, and the second has fewer named parameters.  Lookup does not return
its handler: it stops with an index out of range at `part[0]` of the empty last
segment. -/
theorem C5_trailing_delimiter_panics :
    addAll Paths.empty doubleSlashRoutes = some (built doubleSlashRoutes) ∧
    (Splitter "/:user/:name/".toList).length = (Splitter "/:user/test/".toList).length ∧
    hasCatchAll (Splitter "/:user/:name/".toList) = false ∧
    hasCatchAll (Splitter "/:user/test/".toList) = false ∧
    Matches (Splitter "/:user/:name/".toList) (Splitter "/u/test/".toList) ∧
    Matches (Splitter "/:user/test/".toList) (Splitter "/u/test/".toList) ∧
    namedCount (Splitter "/:user/test/".toList) < namedCount (Splitter "/:user/:name/".toList) ∧
    (built doubleSlashRoutes).static = none ∧
    Lookup (built doubleSlashRoutes) "/u/test/".toList = none := by
  decide

/-- C6 (failing input): two patterns of 65537 segments are added, `manyNamed`
without catch-all (32769 named parameters) and then `longCatchAll` with a final
catch-all.  Both match the path `longQuery`, and Lookup returns the handler of
the catch-all pattern: the 32769 named parameters set bit 15 of `params`, which
is the catch-all flag, so that the pattern without catch-all is sorted behind
the other. -/
theorem C6_wrapped_named_count :
    Add Paths.empty (urlOf manyNamed) (some 1) = (longRegistry0, none) ∧
    Add longRegistry0 (urlOf longCatchAll) (some 2) = (longRegistry, none) ∧
    Splitter (urlOf manyNamed) = manyNamed ∧ Splitter (urlOf longCatchAll) = longCatchAll ∧
    Splitter (urlOf longQuery) = longQuery ∧
    manyNamed.length = longCatchAll.length ∧
    hasCatchAll manyNamed = false ∧ hasCatchAll longCatchAll = true ∧
    Matches manyNamed longQuery ∧ Matches longCatchAll longQuery ∧
    Lookup longRegistry (urlOf longQuery) = some (some 2, [⟨"w".toList, "z".toList⟩]) :=
  ⟨Add_manyNamedN 32769 32767 (by norm_num) (by norm_num),
    Add_longCatchAllN 32769 32767 (by norm_num),
    Splitter_manyNamedN _ _, Splitter_longCatchAllN _ _, Splitter_longQueryN _ _,
    (length_manyNamedN 32769 32767).trans (length_longCatchAllN 32769 32767).symm,
    hasCatchAll_manyNamedN _ _, hasCatchAll_longCatchAllN _ _,
    Matches_manyNamedN _ _, Matches_longCatchAllN _ _,
    Lookup_longQueryN 32769 32767 (by norm_num)⟩

set_option maxRecDepth 100000 in
/-- C7 (counterexample): `/:a/:b` and `/x/*c` have two segments each and both
match `/x/y`; no static pattern is registered.  The catch-all pattern has fewer
named parameters (0 against 2), but Lookup returns the handler of `/:a/:b`. -/
theorem C7_counterexample :
    addAll Paths.empty mixedRoutes = some (built mixedRoutes) ∧
    (Splitter "/:a/:b".toList).length = (Splitter "/x/*c".toList).length ∧
    Matches (Splitter "/:a/:b".toList) (Splitter "/x/y".toList) ∧
    Matches (Splitter "/x/*c".toList) (Splitter "/x/y".toList) ∧
    (built mixedRoutes).static = none ∧
    namedCount (Splitter "/x/*c".toList) < namedCount (Splitter "/:a/:b".toList) ∧
    Lookup (built mixedRoutes) "/x/y".toList
      = some (some 1, [⟨"a".toList, "x".toList⟩, ⟨"b".toList, "y".toList⟩]) := by
  decide

/-- C7 (amended): among two registered parameterized patterns of equal segment
count (within the 32767-segment limit), the order is lexicographic with the
catch-all status first: the pattern without a catch-all precedes the one with a
catch-all; with equal catch-all status the pattern with fewer named parameters
precedes; with equal counts the pattern registered first precedes.  Lookup
never returns the handler of the pattern that comes second in this order, for
any path that the first one matches. -/
theorem C7_priority_order (a1 a3 : List (Str × Handler)) (p1 p2 : Str) (h1 h2 : Handler)
    (r : Paths) (url : Str)
    (hadd : addAll Paths.empty (a1 ++ (p2, h2) :: a3) = some r)
    (huniq : ∀ x ∈ a1 ++ a3, x.2 ≠ h2)
    (hmem : (p1, h1) ∈ a1 ++ a3)
    (hlen1 : (Splitter p1).length ≤ 32767)
    (hlen : (Splitter p1).length = (Splitter p2).length)
    (hpar : isStaticPattern (Splitter p1) = false)
    (hm1 : Matches (Splitter p1) (Splitter url))
    (hprio : (hasCatchAll (Splitter p1) = false ∧ hasCatchAll (Splitter p2) = true) ∨
      (hasCatchAll (Splitter p1) = hasCatchAll (Splitter p2) ∧
        (namedCount (Splitter p1) < namedCount (Splitter p2) ∨
          (namedCount (Splitter p1) = namedCount (Splitter p2) ∧ (p1, h1) ∈ a1))))
    (ps : Params) : Lookup r url ≠ some (h2, ps) := by
  have hmem1 : (p1, h1) ∈ a1 ++ (p2, h2) :: a3 := by
    simp only [List.mem_append, List.mem_cons] at hmem ⊢
    tauto
  obtain ⟨ra, rb, hA⟩ := Add_of_mem hadd hmem1
  obtain ⟨rc, rd, hB⟩ := Add_of_mem hadd (x := (p2, h2)) (by simp)
  obtain ⟨pA, hpA⟩ := patParams_of_Add hA
  obtain ⟨pB, hpB⟩ := patParams_of_Add hB
  simp only at hpA hpB
  have hfA := patParams_bounded hlen1 hpA
  have hfB := patParams_bounded (hlen ▸ hlen1) hpB
  have hn1 := namedCount_le (Splitter p1)
  have hn2 := namedCount_le (Splitter p2)
  have hlevel : patLevel p1 = patLevel p2 := by unfold patLevel; rw [hlen]
  have hA0 : pA ≠ 0 := by
    rcases parameterized_of_not_static _ hpar with h | h
    · omega
    · rw [h] at hfA
      simp only [if_true] at hfA
      omega
  have hcmp : pA < pB ∨ (pA ≤ pB ∧ (p1, h1) ∈ a1) := by
    rcases hprio with ⟨hc1, hc2⟩ | ⟨hc, hn | ⟨hn, hm⟩⟩
    · rw [hc1] at hfA
      rw [hc2] at hfB
      simp only [Bool.false_eq_true, if_false, if_true] at hfA hfB
      left
      omega
    · rw [hc] at hfA
      left
      omega
    · rw [hc] at hfA
      right
      exact ⟨by omega, hm⟩
  have hB0 : pB ≠ 0 := by
    rcases hcmp with h | ⟨h, -⟩ <;> omega
  refine later_never_wins hadd huniq hpB hB0 hmem hpA hA0 hlevel hcmp url ?_ ?_ ps
  · rintro ⟨hlt, hflag⟩
    exfalso
    by_cases hc : hasCatchAll (Splitter p1) = true
    · rw [hc] at hfA
      simp only [if_true] at hfA
      apply hflag
      omega
    · have hlenq := hm1.1
      rw [if_neg hc] at hlenq
      unfold patLevel at hlt
      rw [hlenq] at hlt
      exact lt_irrefl _ hlt
  · intro hmm
    exact absurd hmm (matchParts_of_agree _ _ 0 [] (by simpa using hm1.2))

set_option maxRecDepth 100000 in
/-- Witness of C7 (amended): `/:a/:b` is added after `/x/*c` and has two named
parameters more, yet `/x/y` never resolves to the catch-all pattern. -/
theorem C7_priority_order_witness :
    Lookup (built [("/x/*c".toList, some 2), ("/:a/:b".toList, some 1)]) "/x/y".toList
      ≠ some (some 2, [⟨"c".toList, "y".toList⟩]) :=
  C7_priority_order [] [("/:a/:b".toList, some 1)] "/:a/:b".toList "/x/*c".toList (some 1)
    (some 2) (built [("/x/*c".toList, some 2), ("/:a/:b".toList, some 1)]) "/x/y".toList
    (by decide) (by decide) (by decide) (by decide) (by decide) (by decide) (by decide)
    (by decide) [⟨"c".toList, "y".toList⟩]

/-- C8 (failing input): `firstNames` and then `otherNames` are added; they have
65537 segments each, no catch-all and 65536 named parameters, and differ only
in the names of the parameters, so that `firstNames` matches every path that
has the segments of `otherNames`.  The 65536 increments wrap the `uint16`
counter `params` to 0, Add stores both patterns in the static map, and Lookup
of the text of `otherNames` returns the handler added later. -/
theorem C8_wrapped_names :
    Add Paths.empty (urlOf firstNames) (some 1) = (namesRegistry0, none) ∧
    Add namesRegistry0 (urlOf otherNames) (some 2) = (namesRegistry, none) ∧
    Splitter (urlOf firstNames) = firstNames ∧ Splitter (urlOf otherNames) = otherNames ∧
    firstNames.length = 65537 ∧ otherNames.length = 65537 ∧
    hasCatchAll firstNames = false ∧ hasCatchAll otherNames = false ∧
    namedCount firstNames = 65536 ∧ namedCount otherNames = 65536 ∧
    Matches firstNames otherNames ∧
    Lookup namesRegistry (urlOf otherNames) = some (some 2, []) :=
  ⟨Add_firstNamesN 65536 (by norm_num), Add_otherNamesN 65535 (by norm_num),
    Splitter_allNamedN ":a".toList (by decide) 65536,
    Splitter_allNamedN ":b".toList (by decide) 65536,
    length_allNamedN _ 65536, length_allNamedN _ 65536,
    hasCatchAll_allNamedN _ (by decide) _, hasCatchAll_allNamedN _ (by decide) _,
    namedCount_allNamedN _ (by decide) _, namedCount_allNamedN _ (by decide) _,
    Matches_allNamedN _, Lookup_otherNamesN 65535⟩

set_option maxRecDepth 100000 in
/-- C9 (counterexample): `/a` added with handler 1 and then with handler 2
resolves to handler 2, not to the first-registered one; and with `/:a/:b` added
twice and `/x/:b` added last, the path `/x/y`, which `/:a/:b` matches, resolves
to neither handler of `/:a/:b`. -/
theorem C9_counterexample :
    addAll Paths.empty twiceStaticRoutes = some (built twiceStaticRoutes) ∧
    Lookup (built twiceStaticRoutes) "/a".toList = some (some 2, []) ∧
    addAll Paths.empty shadowedRoutes = some (built shadowedRoutes) ∧
    Matches (Splitter "/:a/:b".toList) (Splitter "/x/y".toList) ∧
    Lookup (built shadowedRoutes) "/x/y".toList
      = some (some 3, [⟨"b".toList, "y".toList⟩]) := by
  decide

/-- C9 (amended): when a pattern is added twice with handlers `h1` then `h2`,
a static pattern resolves to the LAST handler `h2` (the map entry is
overwritten), while for a pattern stored as parameterized no path makes Lookup
return `h2` when `h2` is the handler of no other Add. -/
theorem C9_twice_added (pre mid post : List (Str × Handler)) (p : Str) (h1 h2 : Handler)
    (r : Paths)
    (hadd : addAll Paths.empty (pre ++ (p, h1) :: (mid ++ (p, h2) :: post)) = some r) :
    (isStaticPattern (Splitter p) = true →
      (∀ x ∈ post, normalized x.1 ≠ normalized p) → Lookup r p = some (h2, [])) ∧
    (patParams p ≠ some 0 → (∀ x ∈ pre ++ (p, h1) :: (mid ++ post), x.2 ≠ h2) →
      ∀ url ps, Lookup r url ≠ some (h2, ps)) := by
  have hadd2 : addAll Paths.empty ((pre ++ (p, h1) :: mid) ++ (p, h2) :: post) = some r := by
    simpa using hadd
  constructor
  · intro hs hlater
    exact static_last_add_wins Paths.empty r _ post p h2 hs hadd2 hlater
  · intro hp huniq url ps
    obtain ⟨ra, rb, hA⟩ := Add_of_mem hadd2 (x := (p, h2)) (by simp)
    obtain ⟨pp, hpp⟩ := patParams_of_Add hA
    simp only at hpp
    have hp0 : pp ≠ 0 := by
      intro h0
      rw [h0] at hpp
      exact hp hpp
    refine @later_never_wins (pre ++ (p, h1) :: mid) post r p p h1 h2 pp pp hadd2
      (by simpa using huniq) hpp hp0 (by simp) hpp hp0 rfl
      (Or.inr ⟨le_refl _, by simp⟩) url (fun h => h) ?_ ps
    intro hmm qs hq
    rw [hmm] at hq
    simp at hq

set_option maxRecDepth 100000 in
/-- Witness of C9 (amended) on `/a` added twice and on `/:x` added twice. -/
theorem C9_twice_added_witness :
    Lookup (built [("/a".toList, some 1), ("/a".toList, some 2)]) "/a".toList
      = some (some 2, []) ∧
    Lookup (built [("/:x".toList, some 1), ("/:x".toList, some 2)]) "/v".toList
      ≠ some (some 2, [⟨"x".toList, "v".toList⟩]) :=
  ⟨(C9_twice_added [] [] [] "/a".toList (some 1) (some 2)
      (built [("/a".toList, some 1), ("/a".toList, some 2)]) (by decide)).1
      (by decide) (by decide),
    (C9_twice_added [] [] [] "/:x".toList (some 1) (some 2)
      (built [("/:x".toList, some 1), ("/:x".toList, some 2)]) (by decide)).2
      (by decide) (by decide) "/v".toList [⟨"x".toList, "v".toList⟩]⟩

/-- C10 (failing input): with `/*all` and `/a/*rest` registered and no static
pattern, the path `wrapQuery` of 65537 segments is matched by both patterns.
Lookup truncates the segment count to 1, looks at level 1 only and returns the
handler of `/*all`, the matching pattern with FEWER segments. -/
theorem C10_wrapped_query :
    addAll Paths.empty catchAllRoutes = some (built catchAllRoutes) ∧
    (built catchAllRoutes).static = none ∧
    Splitter (urlOf wrapQuery) = wrapQuery ∧ wrapQuery.length = 65537 ∧
    Matches (Splitter "/a/*rest".toList) wrapQuery ∧
    (Splitter "/*all".toList).length < (Splitter "/a/*rest".toList).length ∧
    Lookup (built catchAllRoutes) (urlOf wrapQuery)
      = some (some 0, [⟨"all".toList, joinParts wrapQuery⟩]) :=
  ⟨built_catchAllRoutes, by decide, Splitter_wrapQueryN 65535,
    (length_wrapQueryN 65535).trans (by norm_num), Matches_wrapQueryN 65535, by decide,
    Lookup_wrapQueryN 65535 (by norm_num)⟩

/-- C11 (failing input): with only `/:name` registered, a pattern of one
segment without catch-all, the path `wrapQuery` of 65537 segments is answered
with the handler of `/:name`. Lookup truncates the segment count to 1, so the
test `l < length` that skips a pattern shorter than the path does not fire, and
the loop over the single pattern segment never reaches the 65536 further
segments of the path. -/
theorem C11_wrapped_path_length :
    addAll Paths.empty nameRoutes = some (built nameRoutes) ∧
    (built nameRoutes).static = none ∧
    hasCatchAll (Splitter "/:name".toList) = false ∧
    (Splitter "/:name".toList).length = 1 ∧
    Splitter (urlOf wrapQuery) = wrapQuery ∧ wrapQuery.length = 65537 ∧
    Lookup (built nameRoutes) (urlOf wrapQuery)
      = some (some 1, [⟨"name".toList, "a".toList⟩]) :=
  ⟨built_nameRoutes, by decide, by decide, by decide, Splitter_wrapQueryN 65535,
    (length_wrapQueryN 65535).trans (by norm_num),
    Lookup_nameRoutes_wrapQueryN 65535 (by norm_num)⟩

set_option maxRecDepth 100000 in
/-- C12 (failing input): with only `/:q/` registered (no static pattern), the
path `/foo/bar` is matched by no pattern in the sense of the claim, yet Lookup
does not return a nil handler: it evaluates `part[0]` on the empty last segment
of the pattern and panics (`none`). -/
theorem C12_no_match_panics :
    addAll Paths.empty slashRoutes = some (built slashRoutes) ∧
    (built slashRoutes).static = none ∧
    ¬ Matches (Splitter "/:q/".toList) (Splitter "/foo/bar".toList) ∧
    Lookup (built slashRoutes) "/foo/bar".toList = none := by
  decide

set_option maxRecDepth 100000 in
/-- C13 (failing input): the registry is reached by the one successful call
`Add("/user/:name/", 1)`; Lookup of `/user/bob/` does not complete: the index
`part[0]` on the empty last segment of the stored pattern is out of range. -/
theorem C13_lookup_panics :
    addAll Paths.empty userSlashRoutes = some (built userSlashRoutes) ∧
    Lookup (built userSlashRoutes) "/user/bob/".toList = none := by
  decide

/-- C14 (counterexample): a pattern of 32769 segments whose first segment is
`*n/`. The test of the segment count comes first in `Add`, which returns the
path-overflow error and not the catch-all error. -/
theorem C14_counterexample :
    Splitter (urlOf starFirst) = starFirst ∧ starFirst.length = 32769 ∧
    (starFirst.head?.map isCatchAll) = some true ∧
    Add Paths.empty (urlOf starFirst) (some 1)
      = (Paths.empty, some (AddError.pathOverflow 32769)) ∧
    AddError.pathOverflow 32769 ≠ AddError.catchAllNotLast :=
  ⟨Splitter_starFirstN 32767, (length_starFirstN 32767).trans (by norm_num), rfl,
    Add_starFirstN 32767 (by norm_num), by decide⟩

/-- C14 (amended): for a non-nil handler and a pattern of at most 32767
segments in which a segment other than the last begins with the catch-all
sigil, `Add` returns the catch-all error and leaves the registry, counters
included, as it was. -/
theorem C14_catch_all_not_last (r : Paths) (p : Str) (v j : Nat)
    (hlen : (Splitter p).length ≤ 32767) (hj : j + 1 < (Splitter p).length)
    (hstar : ∃ s, (Splitter p)[j]? = some s ∧ isCatchAll s = true) :
    Add r p (some v) = (r, some AddError.catchAllNotLast) := by
  have hl : (Splitter p).length % 65536 = (Splitter p).length := Nat.mod_eq_of_lt (by omega)
  have hscan := scanParts_star_not_last (Splitter p).length hlen (Splitter p) 0 0 r.catchAll j
    (by omega) hj hstar
  unfold Add
  simp only [hl]
  rw [if_neg (by omega), hscan]

set_option maxRecDepth 100000 in
/-- C14 (witness): the pattern `/file/*name/test` of `TestMixPaths`. -/
theorem C14_catch_all_not_last_witness :
    Add Paths.empty "/file/*name/test".toList (some 998)
      = (Paths.empty, some AddError.catchAllNotLast) :=
  C14_catch_all_not_last Paths.empty "/file/*name/test".toList 998 1 (by decide) (by decide)
    ⟨"*name/".toList, by decide, by decide⟩

/-- C15 (failing input): `/test` repeated 65536 times splits into 65536
segments; `uint16(len(parts))` is 0, the test `level > 1<<15-1` does not fire,
`Add` returns a nil error and stores the pattern in the static map, where
Lookup finds it. -/
theorem C15_wrapped_segment_count :
    urlOf repeatTest = joinParts (List.replicate 65536 "/test".toList) ∧
    Splitter (urlOf repeatTest) = repeatTest ∧ repeatTest.length = 65536 ∧
    Add Paths.empty (urlOf repeatTest) (some 999) = (repeatRegistry, none) ∧
    Lookup repeatRegistry (urlOf repeatTest) = some (some 999, []) :=
  ⟨urlOf_repeatTestN 65535, Splitter_repeatTestN 65535,
    (length_repeatTestN 65535).trans (by norm_num), Add_repeatTestN 65535 (by norm_num),
    Lookup_repeatTestN 65535⟩

/-- C16: `Add` with a nil handler returns the nil-handler error and the
registry, all four fields, exactly as it was; this holds for every registry
value and every pattern. -/
theorem C16_nil_handler (r : Paths) (url : Str) :
    Add r url none = (r, some AddError.nilHandler) := rfl

set_option maxRecDepth 100000 in
/-- C17 (counterexample): `/a` is added with the handler 1 and then with the
handler 2, two `int` values; both calls succeed and handler 1 is registered
under no other pattern, but the second call replaced the entry of the static
map and `Path(1)` is nil. -/
theorem C17_counterexample :
    addAll Paths.empty twiceStaticRoutes = some (built twiceStaticRoutes) ∧
    twiceStaticRoutes = [("/a".toList, some 1), ("/a".toList, some 2)] ∧
    Path intEq (built twiceStaticRoutes) (some 1) = some none ∧
    Splitter "/a".toList = ["a".toList] := by decide

/-- C17 (amended): in a registry reached by calls of `Add`, let `p` be added
successfully with a handler `h` that no other successful call used, and let
every comparison `==` of `h` with a handler of a successful call be free of a
panic and true exactly when the two are the same value. For every order in
which the two maps can be traversed, `Path(h)` is `Splitter(p)` when `p` is
parameterized, and also when `p` is static, begins with at most one delimiter,
and no later successful call added a pattern with the same normalized text.
Concatenating `Splitter(p)` gives `p` with one leading delimiter removed. -/
theorem C17_path_of_unique_handler (cmp : Nat → Nat → Option Bool) (r : Paths)
    (a1 a3 : List (Str × Handler)) (p : Str)
    (h : Handler) (so : List (Str × Handler)) (fo : List (Nat × records))
    (hr : Reached r (a1 ++ (p, h) :: a3)) (huniq : ∀ x ∈ a1 ++ a3, x.2 ≠ h)
    (hcmp : ∀ x ∈ a1 ++ (p, h) :: a3, ifaceEq cmp x.2 h = some (decide (x.2 = h)) ∧
      ifaceEq cmp h x.2 = some (decide (h = x.2)))
    (hso : so.Perm (r.static.getD [])) (hfo : fo.Perm (r.fields.getD [])) :
    (patParams p ≠ some 0 → PathIn cmp so fo h = some (some (Splitter p))) ∧
    (patParams p = some 0 → trimLeading (trimLeading p) = trimLeading p →
      (∀ x ∈ a3, normalized x.1 ≠ normalized p) →
      PathIn cmp so fo h = some (some (Splitter p))) ∧
    joinParts (Splitter p) = trimLeading p := by
  obtain ⟨hS, hF⟩ := reached_entries hr
  obtain ⟨hcs, hcf⟩ := reached_comparisons hr hcmp hso hfo
  obtain ⟨r2, hadd, hs2, hf2⟩ := reached_addAll hr
  have hU : ∀ x ∈ a1 ++ (p, h) :: a3, x.2 = h → x = (p, h) := by
    intro x hx hxh
    rcases List.mem_append.mp hx with h1 | h1
    · exact absurd hxh (huniq x (List.mem_append_left _ h1))
    · rcases List.mem_cons.mp h1 with h1 | h1
      · exact h1
      · exact absurd hxh (huniq x (List.mem_append_right _ h1))
  obtain ⟨r3, -, hadd2⟩ := addAll_append_some hadd
  obtain ⟨r4, hadd3, hadd4⟩ := addAll_cons_some hadd2
  obtain ⟨q, hq⟩ := patParams_of_Add hadd3
  simp only at hq
  refine ⟨?_, ?_, joinParts_splitAfter _⟩
  · intro hp
    have hq0 : q ≠ 0 := fun h0 => hp (by rw [hq, h0])
    unfold PathIn
    rcases pathStatic_cases cmp so h hcs with ⟨h1, -⟩ | ⟨e, he, h1, -⟩
    · rw [h1]
      rcases pathFields_cases cmp fo h hcf with ⟨-, h2⟩ | ⟨e, he, rc, hrc, h2, h3⟩
      · exfalso
        have hmem := mem_levelRecords_of (x := (p, h))
          (List.mem_append_right a1 (List.mem_cons_self _ a3)) hq hq0
        have hmem2 := (fields_inv hadd (patLevel p)).1.mem_iff.mpr hmem
        have hget : r2.fieldsGet (patLevel p) = r.fieldsGet (patLevel p) := by
          simp only [Paths.fieldsGet, hf2]
        rw [hget] at hmem2
        obtain ⟨e, he, -, hrc⟩ := mem_fieldsGet hmem2
        exact h2 e (hfo.mem_iff.mpr he) _ hrc rfl
      · obtain ⟨x, hx, hx2⟩ := hF e (hfo.mem_iff.mp he) rc hrc
        obtain ⟨hh, hparts, -, -⟩ := addRecord_some hx2
        have := hU x hx (hh.symm.trans h2)
        subst this
        simp only [h3, hparts]
    · exfalso
      obtain ⟨x, hx, -, hx2, hx3⟩ := hS e (hso.mem_iff.mp he)
      have := hU x hx (hx2.trans h1)
      subst this
      exact hp hx3
  · intro hp htrim hlater
    have hget : r2.staticGet (normalized p) = some h := by
      rw [addAll_static_other hadd4 hlater]
      exact Add_static_same_params hadd3 hp
    have hmem : (normalized p, h) ∈ r.static.getD [] := by
      rw [← hs2]
      unfold Paths.staticGet at hget
      cases hst : r2.static with
      | none => simp [hst] at hget
      | some m =>
        simp only [hst] at hget
        simpa using mapGet_some_mem hget
    unfold PathIn
    rcases pathStatic_cases cmp so h hcs with ⟨-, h2⟩ | ⟨e, he, h1, h3⟩
    · exact absurd rfl (h2 _ (hso.mem_iff.mpr hmem))
    · obtain ⟨x, hx, hx1, hx2, -⟩ := hS e (hso.mem_iff.mp he)
      have := hU x hx (hx2.trans h1)
      subst this
      simp only [h3, ← hx1]
      simp only [normalized, Splitter, joinParts_splitAfter, htrim]

set_option maxRecDepth 100000 in
/-- C17 (witness): the `int` handlers 1 (parameterized) and 0 (static) of the
example registry. -/
theorem C17_path_of_unique_handler_witness :
    Path intEq (built exampleRoutes) (some 1)
      = some (some ["users/".toList, ":name".toList]) ∧
    Path intEq (built exampleRoutes) (some 0) = some (some ["users".toList]) :=
  have hr : Reached (built exampleRoutes)
      ([("/users".toList, some 0)] ++ ("/users/:name".toList, some 1)
        :: [("/users/me".toList, some 2)]) :=
    reached_of_addAll (by decide)
  have hr0 : Reached (built exampleRoutes)
      ([] ++ ("/users".toList, some 0)
        :: [("/users/:name".toList, some 1), ("/users/me".toList, some 2)]) :=
    reached_of_addAll (by decide)
  ⟨(C17_path_of_unique_handler intEq _ _ _ _ _ _ _ hr (by decide) (by decide)
      (List.Perm.refl _) (List.Perm.refl _)).1 (by decide),
    (C17_path_of_unique_handler intEq _ _ _ _ _ _ _ hr0 (by decide) (by decide)
      (List.Perm.refl _) (List.Perm.refl _)).2.1 (by decide) (by decide) (by decide)⟩

set_option maxRecDepth 100000 in
/-- C18 (failing input): with only `/path/to/route` registered with the `int`
handler 1, `Path(1)` is `["path/", "to/", "route"]`; joining with
`PathDelimeter` after a leading `/` gives `/path//to//route`, which is not the
pattern. -/
theorem C18_join_doubles_delimiters :
    addAll Paths.empty routeRoutes = some (built routeRoutes) ∧
    Path intEq (built routeRoutes) (some 1)
      = some (some ["path/".toList, "to/".toList, "route".toList]) ∧
    '/' :: joinSep [PathDelimeter] ["path/".toList, "to/".toList, "route".toList]
      = "/path//to//route".toList ∧
    "/path//to//route".toList ≠ "/path/to/route".toList := by
  decide

set_option maxRecDepth 100000 in
/-- C19 (failing input): the handlers are `http.HandlerFunc` values, which Go
cannot compare. After `Add("/x", f)` the handler `g` equals no handler passed
to a successful `Add`, yet `Path(g)` does not return nil: the test
`h == handler` panics. The same happens at `handler == record.handler` when
`f` is registered under the parameterized `/:name`. -/
theorem C19_uncomparable_handler_panics :
    addAll Paths.empty funcRoutes = some (built funcRoutes) ∧
    funcRoutes = [("/x".toList, some 1)] ∧
    (some 2 : Handler) ≠ some 1 ∧
    ifaceEq funcEq (some 1) (some 2) = none ∧
    Path funcEq (built funcRoutes) (some 2) = none ∧
    addAll Paths.empty nameRoutes = some (built nameRoutes) ∧
    Path funcEq (built nameRoutes) (some 2) = none := by
  decide

/-- C20: `Params.Get` returns the `Value` of the earliest entry whose `Key` is
the name, the empty string when no entry has that key, and on a list with
pairwise distinct keys `Get(e.Key) = e.Value` for every entry `e`. -/
theorem C20_params_get (p : Params) (name : Str) :
    (∀ pre e post, p = pre ++ e :: post → e.Key = name → (∀ x ∈ pre, x.Key ≠ name) →
      Params.Get p name = e.Value) ∧
    ((∀ x ∈ p, x.Key ≠ name) → Params.Get p name = []) ∧
    ((p.map Param.Key).Nodup → ∀ e ∈ p, Params.Get p e.Key = e.Value) := by
  refine ⟨?_, Get_absent p name, fun hnd e he => Get_of_nodup p hnd e he⟩
  intro pre e post hp hk hpre
  rw [hp]
  exact Get_first pre post e name hk hpre

/-- C20 (witness): on the list `[(a, 1), (b, 2), (a, 3)]`, `Get("a")` is the
value of the first of the two entries with key `a` and `Get("c")` is empty; on
the list `[(a, 1), (b, 2)]` of distinct keys `Get("b")` is `2`. -/
theorem C20_params_get_witness :
    Params.Get [⟨"a".toList, "1".toList⟩, ⟨"b".toList, "2".toList⟩, ⟨"a".toList, "3".toList⟩]
      "a".toList = "1".toList ∧
    Params.Get [⟨"a".toList, "1".toList⟩, ⟨"b".toList, "2".toList⟩, ⟨"a".toList, "3".toList⟩]
      "c".toList = [] ∧
    Params.Get [⟨"a".toList, "1".toList⟩, ⟨"b".toList, "2".toList⟩] "b".toList = "2".toList :=
  ⟨(C20_params_get _ "a".toList).1 [] ⟨"a".toList, "1".toList⟩
      [⟨"b".toList, "2".toList⟩, ⟨"a".toList, "3".toList⟩] rfl rfl (by simp),
    (C20_params_get _ "c".toList).2.1 (by decide),
    (C20_params_get [⟨"a".toList, "1".toList⟩, ⟨"b".toList, "2".toList⟩] "b".toList).2.2
      (by decide) ⟨"b".toList, "2".toList⟩ (by simp)⟩

set_option maxRecDepth 100000 in
/-- C21 (failing input): `NamedParamFlag` is set to `$`. `Add("/$name", 1)`
counts `$name` as a named parameter and stores the pattern in the list for one
segment. `Lookup` compares the first byte of a pattern segment with the
constants `:` and `*`, not with the variables: it finds nothing for `/foo` and
returns handler 1 without parameters for the literal path `/$name`. -/
theorem C21_custom_sigil_ignored :
    AddWith '$' '*' Paths.empty "/$name".toList (some 1) = (dollarRegistry, none) ∧
    (dollarRegistry.fieldsGet 1).map record.params = [1] ∧
    Lookup dollarRegistry "/foo".toList = some (none, []) ∧
    Lookup dollarRegistry "/$name".toList = some (some 1, []) := by
  decide

set_option maxRecDepth 100000 in
/-- C22 (failing input): GET has the route `/x`, POST the route `/test`. For
the request `GET /test` neither `/test` nor `/test/` is found in the registry
of GET, and the registry of POST has a hit for the request path `/test`; the
response is 404, in both orders of the loop over the methods, because that
loop looks up the toggled path `/test/`. -/
theorem C22_allow_uses_toggled_path :
    allowMux.routersGet "GET".toList = some (built [("/x".toList, some 1)]) ∧
    Lookup (built [("/x".toList, some 1)]) "/test".toList = some (none, []) ∧
    Lookup (built [("/x".toList, some 1)]) (togglePath "/test".toList) = some (none, []) ∧
    Lookup (built [("/test".toList, some 2)]) "/test".toList = some (some 2, []) ∧
    ServeHTTPIn [("GET".toList, built [("/x".toList, some 1)]),
      ("POST".toList, built [("/test".toList, some 2)])] allowMux "GET".toList "/test".toList
      = some Response.notFound ∧
    ServeHTTPIn [("POST".toList, built [("/test".toList, some 2)]),
      ("GET".toList, built [("/x".toList, some 1)])] allowMux "GET".toList "/test".toList
      = some Response.notFound := by
  decide

set_option maxRecDepth 100000 in
/-- C23 (counterexample): PUT is an idempotent method; with the route `/test`
for PUT the request `PUT /test/` misses, the toggled path `/test` hits, and the
redirect has status 308, not 301. -/
theorem C23_counterexample :
    "PUT".toList ∈ idempotentMethods ∧
    putMux.routersGet "PUT".toList = some (built [("/test".toList, some 1)]) ∧
    Lookup (built [("/test".toList, some 1)]) "/test/".toList = some (none, []) ∧
    Lookup (built [("/test".toList, some 1)]) (togglePath "/test/".toList) = some (some 1, []) ∧
    ServeHTTP putMux "PUT".toList "/test/".toList
      = some (Response.redirect 308 "/test".toList) := by
  decide

/-- C23 (amended): when the registry of the request method returns a nil
handler for the request path and a non-nil handler for the path with its
trailing slash toggled, `ServeHTTP` redirects to the toggled path with status
301 when the method is GET or HEAD and with status 308 for every other
method. -/
theorem C23_redirect_status (order : List (Str × Paths)) (m : ServeMux) (method path : Str)
    (routers : Paths) (h : Nat) (ps ps2 : Params)
    (hreg : m.routersGet method = some routers)
    (hmiss : Lookup routers path = some (none, ps))
    (hhit : Lookup routers (togglePath path) = some (some h, ps2)) :
    ServeHTTPIn order m method path
      = some (Response.redirect
          (if method = "GET".toList ∨ method = "HEAD".toList then 301 else 308)
          (togglePath path)) := by
  unfold ServeHTTPIn
  simp only [hreg, hmiss, hhit]
  by_cases h1 : method = "GET".toList
  · rw [if_neg (fun hc => hc.1 h1), if_pos (Or.inl h1)]
  · by_cases h2 : method = "HEAD".toList
    · rw [if_neg (fun hc => hc.2 h2), if_pos (Or.inr h2)]
    · rw [if_pos ⟨h1, h2⟩, if_neg (fun hc => hc.elim h1 h2)]

set_option maxRecDepth 100000 in
/-- C23 (witness): the requests `GET /test/` and `POST /test/` of
`TestServeMux`. -/
theorem C23_redirect_status_witness :
    ServeHTTP testMux "GET".toList "/test/".toList
      = some (Response.redirect 301 "/test".toList) ∧
    ServeHTTP testMux "POST".toList "/test/".toList
      = some (Response.redirect 308 "/test".toList) :=
  ⟨C23_redirect_status _ testMux "GET".toList "/test/".toList (built muxRoutes) 0 []
      [⟨"name".toList, "test".toList⟩] (by decide) (by decide) (by decide),
    C23_redirect_status _ testMux "POST".toList "/test/".toList
      (built [("/:name".toList, some 2)]) 2 [] [⟨"name".toList, "test".toList⟩]
      (by decide) (by decide) (by decide)⟩

/-- C24 (failing input): `/a/*rest` is added, then a pattern of 65536
segments that ends with a catch-all. The second call truncates its segment
count to 0 and overwrites `r.catchAll` with 0. For the path `/a/b/c`, longer
than `maxParts = 2`, `Lookup` takes `r.catchAll = 0` for "no catch-all
registered" and returns nil at once; the matcher without the shortcuts finds
`/a/*rest` at the segment count 2. -/
theorem C24_early_return_discards_match :
    Add Paths.empty "/a/*rest".toList (some 1) = (restFirst0, none) ∧
    Add restFirst0 (urlOf zeroLevel) (some 2) = (restFirst, none) ∧
    Splitter (urlOf zeroLevel) = zeroLevel ∧ zeroLevel.length = 65536 ∧
    restFirst.maxParts = 2 ∧ restFirst.catchAll = 0 ∧
    Lookup restFirst "/a/b/c".toList = some (none, []) ∧
    LookupUnoptimised restFirst "/a/b/c".toList
      = some (some 1, [⟨"rest".toList, "b/c".toList⟩]) :=
  ⟨Add_restFirst0, Add_restFirst, Splitter_longCatchAllN 32768 32767,
    (length_longCatchAllN 32768 32767).trans (by norm_num), rfl, rfl, Lookup_restFirst,
    LookupUnoptimised_restFirst⟩

/-- C25: in every registry reached by calls of `Add`, every entry of
`r.fields` is the list that `r.fields[key]` reads, and every such list is
sorted in non-decreasing order of the 16-bit value `params` of its records, is
a permutation of the records that the successful calls stored under that key,
and holds the records of each `params` value in the order of their
addition. -/
theorem C25_lists_sorted_stable (r : Paths) (adds : List (Str × Handler))
    (hr : Reached r adds) :
    (∀ e ∈ r.fields.getD [], e.2 = r.fieldsGet e.1) ∧
    ∀ l : Nat,
      (r.fieldsGet l).Pairwise (fun a b => a.params ≤ b.params) ∧
      (r.fieldsGet l).Perm (levelRecords adds l) ∧
      ∀ p : Nat, (r.fieldsGet l).filter (fun rc => rc.params = p)
        = (levelRecords adds l).filter (fun rc => rc.params = p) := by
  refine ⟨reached_entry_eq hr, fun l => ?_⟩
  have hs := reached_fields_inv hr l
  exact ⟨hs.2.1, hs.1, stable_filter_eq hs⟩

set_option maxRecDepth 100000 in
/-- C25 (witness): the list for two segments after `/:a/:b` was added twice
and `/x/:b` last. -/
theorem C25_lists_sorted_stable_witness :
    Reached (built shadowedRoutes) shadowedRoutes ∧
    (built shadowedRoutes).fieldsGet 2
      = [⟨1, ["x/".toList, ":b".toList], some 3⟩, ⟨2, [":a/".toList, ":b".toList], some 1⟩,
          ⟨2, [":a/".toList, ":b".toList], some 2⟩] ∧
    ((built shadowedRoutes).fieldsGet 2).Pairwise (fun a b => a.params ≤ b.params) ∧
    ((built shadowedRoutes).fieldsGet 2).filter (fun rc => rc.params = 2)
      = (levelRecords shadowedRoutes 2).filter (fun rc => rc.params = 2) :=
  have hr : Reached (built shadowedRoutes) shadowedRoutes := reached_of_addAll (by decide)
  ⟨hr, by decide, ((C25_lists_sorted_stable _ _ hr).2 2).1,
    ((C25_lists_sorted_stable _ _ hr).2 2).2.2 2⟩

/-- C26 (failing input): one successful `Add` of a parameterized pattern of
65537 segments that ends with a catch-all. The pattern is the only one in the
registry, yet `maxParts` is 1 and `catchAll` is 1, not 65537. -/
theorem C26_wrapped_counters :
    Add Paths.empty (urlOf earlyPattern) (some 1) = (shadowRegistry0, none) ∧
    Splitter (urlOf earlyPattern) = earlyPattern ∧ earlyPattern.length = 65537 ∧
    hasCatchAll earlyPattern = true ∧
    shadowRegistry0.fieldsGet 1 = [⟨32769, earlyPattern, some 1⟩] ∧
    shadowRegistry0.maxParts = 1 ∧ shadowRegistry0.catchAll = 1 :=
  ⟨Add_earlyN 32769 32767 (by norm_num) (by norm_num), Splitter_earlyN 32769 32767,
    (length_earlyN 32769 32767).trans (by norm_num), hasCatchAll_earlyN 32769 32767, rfl, rfl,
    rfl⟩

set_option maxRecDepth 100000 in
/-- C27 (counterexample): handler 1 is added under `/:a/:b` and then under
`/:a/x`; `Path(1)` returns the segments of `/:a/x`, which has the smaller
priority value. Handler 1 is added under `/:x` and then under `/a`; `Path(1)`
returns the segments of the static `/a`. The handlers are `int` values, and in
both registries each map has at most one entry, so the iteration order plays
no part. -/
theorem C27_counterexample :
    addAll Paths.empty sameHandlerRoutes = some (built sameHandlerRoutes) ∧
    sameHandlerRoutes = [("/:a/:b".toList, some 1), ("/:a/x".toList, some 1)] ∧
    (built sameHandlerRoutes).static = none ∧
    ((built sameHandlerRoutes).fields.getD []).length = 1 ∧
    Path intEq (built sameHandlerRoutes) (some 1) = some (some (Splitter "/:a/x".toList)) ∧
    Splitter "/:a/x".toList ≠ Splitter "/:a/:b".toList ∧
    addAll Paths.empty staticLaterRoutes = some (built staticLaterRoutes) ∧
    staticLaterRoutes = [("/:x".toList, some 1), ("/a".toList, some 1)] ∧
    ((built staticLaterRoutes).static.getD []).length = 1 ∧
    ((built staticLaterRoutes).fields.getD []).length = 1 ∧
    Path intEq (built staticLaterRoutes) (some 1) = some (some (Splitter "/a".toList)) ∧
    Splitter "/a".toList ≠ Splitter "/:x".toList := by
  decide

/-- C27 (amended): in a registry reached by calls of `Add`, let every
comparison `==` of `h` with a handler of a successful call be free of a panic
and true exactly when the two are the same value. Then, for every order in
which the two maps are traversed: `Path(h)` does not panic; what it returns
are the segments of a pattern added with `h` (for a static pattern, of its
normalized text); a static one when the static map holds `h`; never nil when
`h` was added under a parameterized pattern; and when all patterns of `h` are
parameterized and of one segment count, the segments of the pattern with the
least priority value and, among those, of the one added first. -/
theorem C27_path_of_shared_handler (cmp : Nat → Nat → Option Bool) (r : Paths)
    (adds : List (Str × Handler)) (h : Handler)
    (so : List (Str × Handler)) (fo : List (Nat × records))
    (hr : Reached r adds)
    (hcmp : ∀ x ∈ adds, ifaceEq cmp x.2 h = some (decide (x.2 = h)) ∧
      ifaceEq cmp h x.2 = some (decide (h = x.2)))
    (hso : so.Perm (r.static.getD [])) (hfo : fo.Perm (r.fields.getD [])) :
    (∃ res, PathIn cmp so fo h = some res) ∧
    (∀ segs, PathIn cmp so fo h = some (some segs) → ∃ x ∈ adds, x.2 = h ∧
      ((patParams x.1 = some 0 ∧ segs = Splitter (normalized x.1)) ∨
        (patParams x.1 ≠ some 0 ∧ segs = Splitter x.1))) ∧
    ((∃ e ∈ r.static.getD [], e.2 = h) →
      ∃ e ∈ r.static.getD [], e.2 = h ∧ PathIn cmp so fo h = some (some (Splitter e.1))) ∧
    ((∃ x ∈ adds, x.2 = h ∧ patParams x.1 ≠ some 0) →
      ∃ segs, PathIn cmp so fo h = some (some segs)) ∧
    (∀ l, (∃ x ∈ adds, x.2 = h) →
      (∀ x ∈ adds, x.2 = h → patParams x.1 ≠ some 0 ∧ patLevel x.1 = l) →
      ∃ a1 p a3 q, adds = a1 ++ (p, h) :: a3 ∧ patParams p = some q ∧
        PathIn cmp so fo h = some (some (Splitter p)) ∧
        (∀ x ∈ a1, x.2 = h → ∀ q2, patParams x.1 = some q2 → q < q2) ∧
        (∀ x ∈ a3, x.2 = h → ∀ q2, patParams x.1 = some q2 → q ≤ q2)) := by
  obtain ⟨hS, hF⟩ := reached_entries hr
  obtain ⟨hcs, hcf⟩ := reached_comparisons hr hcmp hso hfo
  refine ⟨?_, ?_, ?_, ?_, ?_⟩
  · unfold PathIn
    rcases pathStatic_cases cmp so h hcs with ⟨h1, -⟩ | ⟨e, -, -, h2⟩
    · rw [h1]
      rcases pathFields_cases cmp fo h hcf with ⟨h3, -⟩ | ⟨e, -, rc, -, -, h4⟩
      · exact ⟨none, h3⟩
      · exact ⟨some rc.parts, h4⟩
    · rw [h2]
      exact ⟨_, rfl⟩
  · intro segs hp
    unfold PathIn at hp
    rcases pathStatic_cases cmp so h hcs with ⟨h1, -⟩ | ⟨e, he, h1, h2⟩
    · rw [h1] at hp
      simp only at hp
      rcases pathFields_cases cmp fo h hcf with ⟨h3, -⟩ | ⟨e, he, rc, hrc, h3, h4⟩
      · rw [h3] at hp
        exact absurd hp (by simp)
      · obtain ⟨x, hx, hx2⟩ := hF e (hfo.mem_iff.mp he) rc hrc
        obtain ⟨hh, hparts, hpp, hp0⟩ := addRecord_some hx2
        refine ⟨x, hx, hh.symm.trans h3, Or.inr ⟨?_, ?_⟩⟩
        · rw [hpp]
          simpa using hp0
        · rw [h4] at hp
          simp only [Option.some.injEq] at hp
          rw [← hp, hparts]
    · obtain ⟨x, hx, hx1, hx2, hx3⟩ := hS e (hso.mem_iff.mp he)
      rw [h2] at hp
      simp only [Option.some.injEq] at hp
      exact ⟨x, hx, hx2.trans h1, Or.inl ⟨hx3, by rw [← hp, hx1]⟩⟩
  · rintro ⟨e0, he0, h0⟩
    unfold PathIn
    rcases pathStatic_cases cmp so h hcs with ⟨-, h2⟩ | ⟨e, he, h1, h2⟩
    · exact absurd h0 (h2 e0 (hso.mem_iff.mpr he0))
    · exact ⟨e, hso.mem_iff.mp he, h1, by rw [h2]⟩
  · rintro ⟨x, hx, hxh, hxp⟩
    obtain ⟨q, hq⟩ := reached_patParams hr hx
    have hq0 : q ≠ 0 := fun h0 => hxp (by rw [hq, h0])
    have hmem := reached_mem_of_add hr hx hq hq0
    obtain ⟨e, he, -, hrc⟩ := mem_fieldsGet hmem
    unfold PathIn
    rcases pathStatic_cases cmp so h hcs with ⟨h1, -⟩ | ⟨e2, -, -, h2⟩
    · rw [h1]
      simp only
      rcases pathFields_cases cmp fo h hcf with ⟨-, h3⟩ | ⟨e3, -, rc, -, -, h4⟩
      · exact absurd hxh (h3 e (hfo.mem_iff.mpr he) _ hrc)
      · exact ⟨rc.parts, h4⟩
    · rw [h2]
      exact ⟨_, rfl⟩
  · intro l hex hall
    have hstat : pathStatic cmp so h = some none := by
      rcases pathStatic_cases cmp so h hcs with ⟨h1, -⟩ | ⟨e, he, h1, -⟩
      · exact h1
      · obtain ⟨x, hx, -, hx2, hx3⟩ := hS e (hso.mem_iff.mp he)
        exact absurd hx3 (hall x hx (hx2.trans h1)).1
    have hcl : ∀ rc ∈ r.fieldsGet l,
        ifaceEq cmp h rc.handler = some (decide (h = rc.handler)) := by
      intro rc hrc
      obtain ⟨e, he, -, hrc2⟩ := mem_fieldsGet hrc
      exact hcf e (hfo.mem_iff.mpr he) rc hrc2
    have hfld : pathFields cmp fo h = pathRecords cmp (r.fieldsGet l) h := by
      apply pathFields_single cmp fo h l (r.fieldsGet l) hcf
      · intro e he hne rc hrc hrh
        have he2 := hfo.mem_iff.mp he
        rw [reached_entry_eq hr e he2] at hrc
        obtain ⟨x, hx, hx2, hlev⟩ := reached_mem_fieldsGet hr hrc
        obtain ⟨hh, hparts, -, -⟩ := addRecord_some hx2
        have := (hall x hx (hh.symm.trans hrh)).2
        apply hne
        rw [← hlev, ← this, hparts]
        rfl
      · intro e he hel
        rw [reached_entry_eq hr e (hfo.mem_iff.mp he), hel]
      · by_cases hnil : r.fieldsGet l = []
        · right
          rw [hnil]
          rfl
        · left
          obtain ⟨rc, hrc⟩ := List.exists_mem_of_ne_nil _ hnil
          obtain ⟨e, he, hel, -⟩ := mem_fieldsGet hrc
          exact ⟨e, hfo.mem_iff.mpr he, hel⟩
    have hs := reached_fields_inv hr l
    -- a record of the handler is in the list
    obtain ⟨x1, hx1, hx1h⟩ := hex
    obtain ⟨q1, hq1⟩ := reached_patParams hr hx1
    have hq10 : q1 ≠ 0 := fun h0 => (hall x1 hx1 hx1h).1 (by rw [hq1, h0])
    have hmem1 := reached_mem_of_add hr hx1 hq1 hq10
    rw [(hall x1 hx1 hx1h).2] at hmem1
    obtain ⟨B, hB⟩ := find_exists (fun rc : record => decide (rc.handler = h)) _ _ hmem1
      (by simp [hx1h])
    obtain ⟨hPB, pre, post, hsplit, hpre⟩ := find_split _ _ _ hB
    simp only [decide_eq_true_eq] at hPB
    -- the first record of the handler has the least priority value
    have hmin : ∀ C ∈ r.fieldsGet l, C.handler = h → B.params ≤ C.params := by
      intro C hC hCh
      have hsorted := hs.2.1
      rw [hsplit] at hC hsorted
      rcases List.mem_append.mp hC with h1 | h1
      · have := hpre C h1
        simp [hCh] at this
      · rcases List.mem_cons.mp h1 with h2 | h2
        · rw [h2]
        · have := (List.pairwise_cons.mp (List.pairwise_append.mp hsorted).2.1).1 C h2
          exact this
    -- it is the first record of the handler with that value among the calls
    have hfF := find_filter (fun rc : record => decide (rc.handler = h))
      (fun rc : record => decide (rc.params = B.params)) _ _ hB (by simp)
    rw [stable_filter_eq hs B.params] at hfF
    unfold levelRecords at hfF
    rw [List.filter_filter] at hfF
    obtain ⟨a1, x0, a3, hadds, hx0, ha1⟩ := find_records _ _ _ _ hfF
    obtain ⟨hh, hparts, hpp, -⟩ := addRecord_some hx0
    have hx0h : x0.2 = h := hh.symm.trans hPB
    refine ⟨a1, x0.1, a3, B.params, ?_, hpp, ?_, ?_, ?_⟩
    · rw [hadds, ← hx0h]
    · unfold PathIn
      rw [hstat]
      simp only
      rw [hfld, pathRecords_eq_find cmp _ _ hcl, hB]
      simp [hparts]
    · intro x hx hxh q2 hq2
      have hxa : x ∈ adds := by rw [hadds]; exact List.mem_append_left _ hx
      have hq20 : q2 ≠ 0 := fun h0 => (hall x hxa hxh).1 (by rw [hq2, h0])
      have hmem := reached_mem_of_add hr hxa hq2 hq20
      rw [(hall x hxa hxh).2] at hmem
      have hle := hmin _ hmem hxh
      have hne := ha1 x hx _ (addRecord_of hq2 hq20)
      simp only [Bool.and_eq_true, decide_eq_true_eq, decide_eq_false_iff_not] at hne
      have hlev : (Splitter x.1).length % 65536 = l := (hall x hxa hxh).2
      by_cases heq : q2 = B.params
      · exact absurd hxh (hne ⟨heq, hlev⟩)
      · simp only at hle
        omega
    · intro x hx hxh q2 hq2
      have hxa : x ∈ adds := by
        rw [hadds]
        exact List.mem_append_right _ (List.mem_cons_of_mem _ hx)
      have hq20 : q2 ≠ 0 := fun h0 => (hall x hxa hxh).1 (by rw [hq2, h0])
      have hmem := reached_mem_of_add hr hxa hq2 hq20
      rw [(hall x hxa hxh).2] at hmem
      exact hmin _ hmem hxh

set_option maxRecDepth 100000 in
/-- C27 (witness): the `int` handler 1 under `/:a/:b` and `/:a/x`. -/
theorem C27_path_of_shared_handler_witness :
    Reached (built sameHandlerRoutes) sameHandlerRoutes ∧
    Path intEq (built sameHandlerRoutes) (some 1)
      = some (some [":a/".toList, "x".toList]) ∧
    ∃ a1 p a3 q, sameHandlerRoutes = a1 ++ (p, some 1) :: a3 ∧ patParams p = some q ∧
      Path intEq (built sameHandlerRoutes) (some 1) = some (some (Splitter p)) ∧
      (∀ x ∈ a1, x.2 = some 1 → ∀ q2, patParams x.1 = some q2 → q < q2) ∧
      (∀ x ∈ a3, x.2 = some 1 → ∀ q2, patParams x.1 = some q2 → q ≤ q2) :=
  have hr : Reached (built sameHandlerRoutes) sameHandlerRoutes := reached_of_addAll (by decide)
  ⟨hr, by decide,
    (C27_path_of_shared_handler intEq (built sameHandlerRoutes) sameHandlerRoutes (some 1) _ _
      hr (by decide) (List.Perm.refl _) (List.Perm.refl _)).2.2.2.2 2 (by decide) (by decide)⟩

/-- C28: in a registry reached by calls of `Add` whose successful patterns
have at most 32767 segments, for a path of at most 65535 segments: when
`Lookup` returns the non-nil handler `h` with the parameters `ps`, some pattern
`p` was added with `h`, the names of the parameter segments of `p` are, in
order, the keys of `ps`, substituting the values and concatenating gives the
path without its leading delimiter, and no value of a named parameter
contains the delimiter. -/
theorem C28_lookup_sound (r : Paths) (adds : List (Str × Handler)) (url : Str) (h : Nat)
    (ps : Params) (hr : Reached r adds)
    (hpat : ∀ x ∈ adds, (Splitter x.1).length ≤ 32767)
    (hlen : (Splitter url).length ≤ 65535)
    (hl : Lookup r url = some (some h, ps)) :
    ∃ p, (p, some h) ∈ adds ∧
      ((Splitter p).filter isParamSeg).map segName = ps.map Param.Key ∧
      joinParts (substitute (Splitter p) (ps.map Param.Value)) = trimLeading url ∧
      ∀ sv ∈ List.zip ((Splitter p).filter isParamSeg) ps,
        isNamed sv.1 = true → PathDelimeter ∉ sv.2.Value := by
  obtain ⟨hS, -⟩ := reached_entries hr
  have hL : (Splitter url).length % 65536 = (Splitter url).length :=
    Nat.mod_eq_of_lt (by omega)
  rcases Lookup_winner_le hl with ⟨hget, hps⟩ | ⟨h0, -⟩ | ⟨l, hl0, hlL, hrec⟩
  · -- the static map
    have hmem : (normalized url, some h) ∈ r.static.getD [] := by
      unfold Paths.staticGet at hget
      cases hst : r.static with
      | none => simp [hst] at hget
      | some m =>
        simp only [hst] at hget
        simpa using mapGet_some_mem hget
    obtain ⟨x, hx, hx1, hx2, hx3⟩ := hS _ hmem
    simp only at hx1 hx2
    have hq := patParams_bounded (hpat x hx) hx3
    have hstat : isStaticPattern (Splitter x.1) = true := by
      apply (static_iff_counts _).mpr
      constructor
      · omega
      · cases hc : hasCatchAll (Splitter x.1) with
        | false => rfl
        | true => rw [hc] at hq; simp at hq
    obtain ⟨e1, e2⟩ := static_no_params _ hstat (ps.map Param.Value)
    refine ⟨x.1, ?_, ?_, ?_, ?_⟩
    · have : x = (x.1, some h) := by
        rw [← hx2]
      rw [← this]
      exact hx
    · rw [e1, hps]
      rfl
    · rw [e2]
      have : joinParts (Splitter x.1) = joinParts (Splitter url) := hx1
      rw [this]
      exact joinParts_splitAfter _
    · rw [e1]
      simp
  · exact absurd h0 (by simp)
  · -- a record of the list for `l`
    rw [hL] at hlL hrec
    obtain ⟨pre, B, post, hF, hBh, hskip, hmatch, -⟩ := lookupRecords_winner hrec
    have hBmem : B ∈ r.fieldsGet l := by
      rw [hF]
      exact List.mem_append_right _ (List.mem_cons_self _ _)
    obtain ⟨x, hx, hx2, hlev⟩ := reached_mem_fieldsGet hr hBmem
    obtain ⟨hh, hparts, hpp, -⟩ := addRecord_some hx2
    have hb := hpat x hx
    have hq := patParams_bounded hb hpp
    have hnc := namedCount_le (Splitter x.1)
    have hlevel : (Splitter x.1).length = l := by
      rw [hparts] at hlev
      rw [← hlev]
      exact (Nat.mod_eq_of_lt (by omega)).symm
    have hstar := star_last_of_patParams hb hpp
    have hlen2 : if hasCatchAll (Splitter x.1) = true
        then (Splitter x.1).length ≤ ((Splitter url).drop 0).length
        else (Splitter x.1).length = ((Splitter url).drop 0).length := by
      simp only [List.drop_zero]
      split
      · omega
      · rename_i hc
        rw [if_neg hc] at hq
        have hdiv : B.params / 32768 ≠ 1 := by
          rw [hq]
          omega
        have : ¬ l < (Splitter url).length := fun hlt => hskip ⟨hlt, hdiv⟩
        omega
    rw [hparts] at hmatch
    obtain ⟨vals, hps, hkeys, hjoin, hvals⟩ := matchParts_sound (Splitter url) (Splitter x.1) 0 []
      ps (SplitOK_splitAfter _) hstar (by simpa using SplitOK_splitAfter _) hlen2 hmatch
    simp only [List.nil_append] at hps
    subst hps
    refine ⟨x.1, ?_, hkeys, ?_, hvals⟩
    · have : x = (x.1, some h) := by
        rw [← hBh, hh]
      rw [← this]
      exact hx
    · rw [hjoin]
      simp only [List.drop_zero]
      exact joinParts_splitAfter _

set_option maxRecDepth 100000 in
/-- C28 (witness): the lookup of `/users/mdigger` in the example registry. -/
theorem C28_lookup_sound_witness :
    Lookup (built exampleRoutes) "/users/mdigger".toList
      = some (some 1, [⟨"name".toList, "mdigger".toList⟩]) ∧
    ∃ p, (p, some 1) ∈ exampleRoutes ∧
      ((Splitter p).filter isParamSeg).map segName
        = ([⟨"name".toList, "mdigger".toList⟩] : Params).map Param.Key ∧
      joinParts (substitute (Splitter p)
          (([⟨"name".toList, "mdigger".toList⟩] : Params).map Param.Value))
        = trimLeading "/users/mdigger".toList ∧
      ∀ sv ∈ List.zip ((Splitter p).filter isParamSeg)
          ([⟨"name".toList, "mdigger".toList⟩] : Params),
        isNamed sv.1 = true → PathDelimeter ∉ sv.2.Value :=
  ⟨by decide,
    C28_lookup_sound (built exampleRoutes) exampleRoutes "/users/mdigger".toList 1
      [⟨"name".toList, "mdigger".toList⟩] (reached_of_addAll (by decide)) (by decide)
      (by decide) (by decide)⟩

/-- C29: for every registry value, every non-nil handler and every pattern
of at most 32767 segments in which no segment before the last begins with `*`,
`Add` returns a nil error; after it the static map holds the handler under the
normalized pattern when the pattern has no named and no catch-all segment, and
otherwise the list for the segment count of the pattern holds a record with
the segments of the pattern and the handler. -/
theorem C29_add_succeeds (r : Paths) (p : Str) (v : Nat)
    (hlen : (Splitter p).length ≤ 32767)
    (hstar : ∀ s ∈ (Splitter p).dropLast, isCatchAll s = false) :
    ∃ r1, Add r p (some v) = (r1, none) ∧
      (if isStaticPattern (Splitter p) = true then r1.staticGet (normalized p) = some (some v)
        else ∃ params, (⟨params, Splitter p, some v⟩ : record)
          ∈ r1.fieldsGet (Splitter p).length) := by
  have hl : (Splitter p).length % 65536 = (Splitter p).length := Nat.mod_eq_of_lt (by omega)
  obtain ⟨q, ca2, hscan⟩ := scanParts_ok (Splitter p).length (Splitter p) 0 0 r.catchAll
    (by omega) hstar
  have hq := scanParts_bounded _ hlen _ 0 0 r.catchAll q ca2 (by omega) (by omega) hscan
  by_cases hst : isStaticPattern (Splitter p) = true
  · obtain ⟨h1, h2⟩ := (static_iff_counts _).mp hst
    have hq0 : q = 0 := by simp [hq, h1, h2]
    subst hq0
    refine ⟨_, Add_static_eval r p v _ ca2 hl hlen hscan, ?_⟩
    rw [if_pos hst]
    simp [Paths.staticGet, normalized, mapGet_mapSet_same]
  · have hq0 : q ≠ 0 := by
      have hns : isStaticPattern (Splitter p) = false := by simpa using hst
      rcases parameterized_of_not_static _ hns with h1 | h1
      · omega
      · rw [hq, if_pos h1]; omega
    refine ⟨_, Add_param_eval r p v _ q ca2 hl hlen hscan hq0, ?_⟩
    rw [if_neg hst]
    refine ⟨q, ?_⟩
    simp [Paths.fieldsGet, mapGet_mapSet_same, sortStable,
      (List.perm_insertionSort recLE _).mem_iff]

set_option maxRecDepth 100000 in
/-- C29 (witness): the patterns `/files/*filename` and `/user/test` of the
package documentation, added to the example registry. -/
theorem C29_add_succeeds_witness :
    (∃ r1, Add (built exampleRoutes) "/files/*filename".toList (some 7) = (r1, none) ∧
      ∃ params, (⟨params, ["files/".toList, "*filename".toList], some 7⟩ : record)
        ∈ r1.fieldsGet 2) ∧
    (∃ r1, Add (built exampleRoutes) "/user/test".toList (some 8) = (r1, none) ∧
      r1.staticGet "user/test".toList = some (some 8)) :=
  ⟨(C29_add_succeeds (built exampleRoutes) "/files/*filename".toList 7 (by decide)
      (by decide)).imp (fun _ h => ⟨h.1, by simpa using h.2⟩),
    (C29_add_succeeds (built exampleRoutes) "/user/test".toList 8 (by decide)
      (by decide)).imp (fun _ h => ⟨h.1, by simpa using h.2⟩)⟩

/-- C30 (failing input): the patterns `/a/*rest` and a catch-all pattern of
65536 segments, added in both orders. All four calls succeed, no pattern is
static and the segment counts differ, but `r.catchAll` ends as 2 in one order
and as 0 in the other, and `Lookup("/a/b/c")` returns the handler of `/a/*rest`
in the first registry and nil in the second. -/
theorem C30_order_changes_lookup :
    Add Paths.empty (urlOf zeroLevel) (some 2) = (zeroFirst0, none) ∧
    Add zeroFirst0 "/a/*rest".toList (some 1) = (zeroFirst, none) ∧
    Add Paths.empty "/a/*rest".toList (some 1) = (restFirst0, none) ∧
    Add restFirst0 (urlOf zeroLevel) (some 2) = (restFirst, none) ∧
    [(urlOf zeroLevel, some 2), ("/a/*rest".toList, some 1)].Perm
      [("/a/*rest".toList, some 1), (urlOf zeroLevel, some 2)] ∧
    zeroFirst.static = none ∧ restFirst.static = none ∧
    (Splitter (urlOf zeroLevel)).length = 65536 ∧ (Splitter "/a/*rest".toList).length = 2 ∧
    Lookup zeroFirst "/a/b/c".toList = some (some 1, [⟨"rest".toList, "b/c".toList⟩]) ∧
    Lookup restFirst "/a/b/c".toList = some (none, []) :=
  ⟨Add_zeroFirst0, Add_zeroFirst, Add_restFirst0, Add_restFirst, List.Perm.swap _ _ _, rfl, rfl,
    by rw [show zeroLevel = longCatchAllN 32768 32767 from rfl, Splitter_longCatchAllN,
      length_longCatchAllN],
    by decide, Lookup_zeroFirst, Lookup_restFirst⟩

end Router
